import Mathlib

/-!
Verification development for the obsidian-tasks-mcp plugin (src/main.ts).

The core under study is the task-line parsing/serialization engine and the
boolean filter query evaluator of `main.ts`.  Strings are modelled as lists
of Unicode characters (`Str := List Char`); every JavaScript string
operation used by the source (split, trim, toLowerCase, includes, regex
matching) is embedded as an executable Lean function on `Str`.

JavaScript fidelity notes:
* `toLowerCase` is modelled on the ASCII range (the only range the
  evaluator's filter keywords and the parser's markers exercise).
* the `<` / `>` comparison on date strings ("YYYY-MM-DD") is modelled as
  lexicographic comparison of code points, which agrees with JavaScript's
  UTF-16 comparison on these ASCII strings.
* `TaskParser.getToday()` reads the system clock; following the usual
  shallow embedding of stateful code, the current date is passed to the
  evaluator as an explicit `today` argument.
* emoji glyphs are taken from the source regexes: due `U+1F4C5` and
  `U+1F5D3 U+FE0F` (the character class also contains the bare variation
  selector `U+FE0F`), scheduled `U+23F3`, start `U+1F6EB`, created
  `U+2795`, recurrence `U+1F501`, priorities `U+23EB U+23EB` / `U+23EB` /
  `U+1F53C` / `U+1F53D` / `U+23EC`.
-/

namespace TasksMcp

/-- Strings are lists of characters. -/
abbrev Str := List Char

/-- Turn a Lean string literal into our string model. -/
def str (s : String) : Str := s.toList

/-- Decimal digit. -/
def isDigit (c : Char) : Bool := 48 ≤ c.toNat && c.toNat ≤ 57

/-- JavaScript's `\s` character class (WhiteSpace plus LineTerminator). -/
def isWS (c : Char) : Bool :=
  c.toNat = 32 || c.toNat = 9 || c.toNat = 10 || c.toNat = 0x0B || c.toNat = 0x0C ||
  c.toNat = 0x0D || c.toNat = 0xA0 || c.toNat = 0x1680 ||
  (0x2000 ≤ c.toNat && c.toNat ≤ 0x200A) ||
  c.toNat = 0x2028 || c.toNat = 0x2029 || c.toNat = 0x202F || c.toNat = 0x205F ||
  c.toNat = 0x3000 || c.toNat = 0xFEFF

/-- JavaScript line terminators, the characters `.` does not match. -/
def isLineTerm (c : Char) : Bool :=
  c.toNat = 10 || c.toNat = 0x0D || c.toNat = 0x2028 || c.toNat = 0x2029

/-- ASCII lowering, the fragment of `toLowerCase` that the filter language uses. -/
def lowerChar (c : Char) : Char :=
  if 'A' ≤ c && c ≤ 'Z' then Char.ofNat (c.val.toNat + 32) else c

/-- Model of `String.prototype.toLowerCase`. -/
def toLowerStr (s : Str) : Str := s.map lowerChar

/-- Drop leading JavaScript whitespace. -/
def trimLeft (s : Str) : Str := s.dropWhile (fun c => isWS c)

/-- Drop trailing JavaScript whitespace. -/
def trimRight (s : Str) : Str := (s.reverse.dropWhile (fun c => isWS c)).reverse

/-- Model of `String.prototype.trim`. -/
def trim (s : Str) : Str := trimRight (trimLeft s)

/-- Does `p` occur at the start of `s`?  Model of `String.prototype.startsWith`. -/
def startsWithStr : Str → Str → Bool
  | [], _ => true
  | _ :: _, [] => false
  | p :: ps, c :: cs => p = c && startsWithStr ps cs

/-- First occurrence of `sep` in `s`: the text before it and the text after it. -/
def firstSplit (sep : Str) : Str → Option (Str × Str)
  | [] => if startsWithStr sep [] then some ([], []) else none
  | c :: cs =>
    if startsWithStr sep (c :: cs) then some ([], (c :: cs).drop sep.length)
    else
      match firstSplit sep cs with
      | some (pre, post) => some (c :: pre, post)
      | none => none

/-- Model of `String.prototype.includes`. -/
def containsSub (s sub : Str) : Bool := (firstSplit sub s).isSome

/-- Model of `str.replace(sub, '')` with a plain-string pattern:
    remove the first occurrence of `sub`, if any. -/
def replaceFirstStr (sub s : Str) : Str :=
  match firstSplit sub s with
  | some (pre, post) => pre ++ post
  | none => s

/-- Fuel-indexed model of `String.prototype.split` with a non-empty string
    separator; `splitOnStr` instantiates the fuel with the input length. -/
def splitOnF (sep : Str) : Nat → Str → List Str
  | 0, s => [s]
  | fuel + 1, s =>
    match firstSplit sep s with
    | none => [s]
    | some (pre, post) => pre :: splitOnF sep fuel post

/-- Model of `String.prototype.split` with a non-empty string separator. -/
def splitOnStr (sep s : Str) : List Str := splitOnF sep (s.length + 1) s

/-- Model of `String.prototype.split` with a single-character separator. -/
def splitChar (sep : Char) : Str → List Str
  | [] => [[]]
  | c :: cs =>
    if c = sep then [] :: splitChar sep cs
    else
      match splitChar sep cs with
      | h :: t => (c :: h) :: t
      | [] => [[c]]

/-- Glyphs used by the parser/serializer regexes of `main.ts`. -/
def dueGlyphA : Char := Char.ofNat 0x1F4C5

/-- Second accepted due-date glyph (calendar pad), written in the source as
    the two-code-point sequence `U+1F5D3 U+FE0F`. -/
def dueGlyphB : Char := Char.ofNat 0x1F5D3

/-- The emoji variation selector; it is the third element of the due-date
    regex character class because `U+1F5D3 U+FE0F` is two code points. -/
def varSel : Char := Char.ofNat 0xFE0F

/-- The contents of the `dueDateRegex` character class. -/
def dueClassChars : List Char := [dueGlyphA, dueGlyphB, varSel]

/-- Scheduled-date glyph (hourglass). -/
def schedGlyph : Char := Char.ofNat 0x23F3

/-- Start-date glyph (airplane departure). -/
def startGlyph : Char := Char.ofNat 0x1F6EB

/-- Created-date glyph (heavy plus). -/
def createdGlyph : Char := Char.ofNat 0x2795

/-- Recurrence glyph (repeat). -/
def recGlyph : Char := Char.ofNat 0x1F501

/-- Priority glyph: high (and doubled, highest). -/
def hiGlyph : Char := Char.ofNat 0x23EB

/-- Priority glyph: medium. -/
def medGlyph : Char := Char.ofNat 0x1F53C

/-- Priority glyph: low. -/
def lowGlyph : Char := Char.ofNat 0x1F53D

/-- Priority glyph: lowest. -/
def lowestGlyph : Char := Char.ofNat 0x23EC

/-- Task status, from the `Task` interface of `main.ts`. -/
inductive Status where
  | complete
  | incomplete
  | cancelled
  | inProgress
deriving DecidableEq, Repr

/-- Task priority, from the `Task` interface of `main.ts`. -/
inductive Priority where
  | highest
  | high
  | medium
  | low
  | lowest
deriving DecidableEq, Repr

/-- The `Task` record produced by `TaskParser.parseTaskLine`. -/
structure Task where
  id : Str
  description : Str
  status : Status
  statusSymbol : Char
  filePath : Str
  lineNumber : Nat
  tags : List Str
  dueDate : Option Str
  scheduledDate : Option Str
  startDate : Option Str
  createdDate : Option Str
  priority : Option Priority
  recurrence : Option Str
  originalMarkdown : Str
deriving DecidableEq, Repr

/-- Characters accepted by the leading `[\s\t>]*` of `taskRegex`. -/
def isIndentChar (c : Char) : Bool := isWS c || c = '\t' || c = '>'

/-- The list-item marker of `taskRegex`: `[-*+]` or `[0-9]+[.)]`.
    Returns the marker text and the rest of the line. -/
def parseMarkerM : Str → Option (Str × Str)
  | [] => none
  | c :: rest =>
    if c = '-' || c = '*' || c = '+' then some ([c], rest)
    else
      let ds := (c :: rest).takeWhile (fun x => isDigit x)
      if ds.isEmpty then none
      else
        match (c :: rest).drop ds.length with
        | p :: rest2 => if p = '.' || p = ')' then some (ds ++ [p], rest2) else none
        | [] => none

/-- Model of matching `taskRegex`
    (`^([\s\t>]*)([-*+]|[0-9]+[.)]) +\[(.)\] *(.*)`) against a line.
    Returns the captures: indentation, marker, status character and the raw
    content `match[4]`. -/
def taskRegexMatch (line : Str) : Option (Str × Str × Char × Str) :=
  let ind := line.takeWhile (fun c => isIndentChar c)
  let r1 := line.dropWhile (fun c => isIndentChar c)
  match parseMarkerM r1 with
  | none => none
  | some (mk, r2) =>
    let sps := r2.takeWhile (fun c => c = ' ')
    let r3 := r2.dropWhile (fun c => c = ' ')
    if sps.isEmpty then none
    else
      match r3 with
      | '[' :: c :: ']' :: r4 =>
        if isLineTerm c then none
        else
          let r5 := r4.dropWhile (fun x => x = ' ')
          some (ind, mk, c, r5.takeWhile (fun x => !isLineTerm x))
      | _ => none

/-- Exactly `n` decimal digits at the front of the string. -/
def parseDigits : Nat → Str → Option (Str × Str)
  | 0, s => some ([], s)
  | _ + 1, [] => none
  | n + 1, c :: r =>
    if isDigit c then
      match parseDigits n r with
      | some (ds, rest) => some (c :: ds, rest)
      | none => none
    else none

/-- A literal `-` at the front of the string. -/
def parseDash : Str → Option Str
  | c :: r => if c = '-' then some r else none
  | [] => none

/-- A `\d{4}-\d{2}-\d{2}` prefix: the ten date characters and the rest. -/
def parseDate8 (s : Str) : Option (Str × Str) :=
  match parseDigits 4 s with
  | some (d1, r1) =>
    match parseDash r1 with
    | some r2 =>
      match parseDigits 2 r2 with
      | some (d2, r3) =>
        match parseDash r3 with
        | some r4 =>
          match parseDigits 2 r4 with
          | some (d3, r5) => some (d1 ++ '-' :: d2 ++ '-' :: d3, r5)
          | none => none
        | none => none
      | none => none
    | none => none
  | none => none

/-- Does `d` consist exactly of a `\d{4}-\d{2}-\d{2}` date? -/
def dateOk (d : Str) : Bool := parseDate8 d == some (d, [])

/-- After a glyph of the class matched at some position, the `\s?(\d{4}-`
    `\d{2}-\d{2})` tail of the regex against the rest of the string:
    the date capture, either immediately or after one whitespace. -/
def glyphDateAt (rest : Str) : Option Str :=
  match parseDate8 rest with
  | some (d, _) => some d
  | none =>
    match rest with
    | w :: r2 =>
      if isWS w then
        match parseDate8 r2 with
        | some (d, _) => some d
        | none => none
      else none
    | [] => none

/-- First match of a `<glyph>\s?(\d{4}-\d{2}-\d{2})` regex whose glyph
    character class is `glyphs`; returns capture group 1.  A position where
    the glyph matches but no date follows is skipped, as a regex engine
    advances to the next start position. -/
def findGlyphDate (glyphs : List Char) : Str → Option Str
  | [] => none
  | c :: rest =>
    if glyphs.contains c then
      match glyphDateAt rest with
      | some d => some d
      | none => findGlyphDate glyphs rest
    else findGlyphDate glyphs rest

/-- Drop one leading `\s` character if present (the `\s?` of `recurrenceRegex`). -/
def skipOneWS : Str → Str
  | [] => []
  | c :: rest => if isWS c then rest else c :: rest

/-- First match of `recurrenceRegex` (`🔁\s?(.*?)(?=(\s|$))`): after the first
    recurrence glyph, group 1 is the lazily-matched text up to, but not
    including, the next whitespace character or the end of the string. -/
def findRecurrence : Str → Option Str
  | [] => none
  | c :: rest =>
    if c = recGlyph then some ((skipOneWS rest).takeWhile (fun x => !isWS x))
    else findRecurrence rest

/-- First match of the priority alternation `⏫⏫|⏫|🔼|🔽|⏬`, with the
    doubled high glyph tried first at each position, as in
    `parseTaskLine`'s `priorityMatches[0]` dispatch. -/
def findPriority : Str → Option Priority
  | [] => none
  | c :: rest =>
    if c = hiGlyph then
      if rest.head? = some hiGlyph then some Priority.highest else some Priority.high
    else if c = medGlyph then some Priority.medium
    else if c = lowGlyph then some Priority.low
    else if c = lowestGlyph then some Priority.lowest
    else findPriority rest

/-- Tag characters: the complement of `hashTagsRegex`'s excluded class
    `[ !@#$%^&*(),.?":{}|<>]`. -/
def tagChar (c : Char) : Bool :=
  !(c = ' ' || c = '!' || c = '@' || c = '#' || c = '$' || c = '%' || c = '^' ||
    c = '&' || c = '*' || c = '(' || c = ')' || c = ',' || c = '.' || c = '?' ||
    c = '"' || c = ':' || c = '{' || c = '}' || c = '|' || c = '<' || c = '>')

/-- Fuel-indexed scanner for a global (`g`-flag) regex: at each position
    `m` either produces a match (its text together with the number of
    characters it consumes, always positive) or fails, in which case the
    scan advances one character. -/
def scanEmitF (m : Str → Option (Str × Nat)) : Nat → Str → List Str
  | 0, _ => []
  | _ + 1, [] => []
  | fuel + 1, c :: rest =>
    match m (c :: rest) with
    | some (a, k) => a :: scanEmitF m fuel ((c :: rest).drop k)
    | none => scanEmitF m fuel rest

/-- The `\s#[^ ...]+` alternative of `hashTagsRegex` at a non-initial
    position: a whitespace character, `#`, then one or more tag characters.
    The leading whitespace is part of the match, as in the source regex. -/
def tagMatcherMid (s : Str) : Option (Str × Nat) :=
  match s with
  | c :: d :: r2 =>
    if isWS c && d = '#' then
      let tg := r2.takeWhile (fun x => tagChar x)
      if tg.isEmpty then none else some (c :: d :: tg, 2 + tg.length)
    else none
  | _ => none

/-- All matches of `hashTagsRegex` (`(^|\s)#[^ ...]+` with the `g` flag),
    in order.  The `^` alternative only applies at position zero. -/
def rawHashTagMatches (s : Str) : List Str :=
  match s with
  | c :: r2 =>
    if c = '#' then
      let tg := r2.takeWhile (fun x => tagChar x)
      if tg.isEmpty then scanEmitF tagMatcherMid (s.length + 1) s
      else (c :: tg) :: scanEmitF tagMatcherMid (s.length + 1) (r2.drop tg.length)
    else scanEmitF tagMatcherMid (s.length + 1) s
  | [] => []

/-- Decimal digits of a natural number (for the `filePath:lineNumber` id). -/
def natDigits (n : Nat) : Str := (Nat.repr n).toList

/-- The body of `TaskParser.parseTaskLine` after `taskRegex` has matched:
    build the `Task` record from the captures. -/
def mkTask (filePath : Str) (lineNumber : Nat) (line : Str) (statusChar : Char)
    (content : Str) : Task :=
  let description := trim content
  let tags := ((rawHashTagMatches description).map trim).filter (fun t => !t.isEmpty)
  let status :=
    if statusChar = 'x' || statusChar = 'X' then Status.complete
    else if statusChar = '-' then Status.cancelled
    else if statusChar = '/' then Status.inProgress
    else Status.incomplete
  { id := filePath ++ ':' :: natDigits lineNumber
    description := description
    status := status
    statusSymbol := statusChar
    filePath := filePath
    lineNumber := lineNumber
    tags := tags
    dueDate := findGlyphDate dueClassChars description
    scheduledDate := findGlyphDate [schedGlyph] description
    startDate := findGlyphDate [startGlyph] description
    createdDate := findGlyphDate [createdGlyph] description
    priority := findPriority description
    recurrence := findRecurrence description
    originalMarkdown := line }

/-- Model of `TaskParser.parseTaskLine`. -/
def parseTaskLine (line : Str) (filePath : Str) (lineNumber : Nat) : Option Task :=
  match taskRegexMatch line with
  | none => none
  | some (_, _, statusChar, content) => some (mkTask filePath lineNumber line statusChar content)

example :
    (parseTaskLine (str "- [ ] buy milk") (str "f.md") 3).map Task.description =
      some (str "buy milk") := by decide

example :
    (parseTaskLine (str "- [x] done thing") (str "f.md") 3).map Task.status =
      some Status.complete := by decide

example : parseTaskLine (str "not a task") (str "f.md") 1 = none := by decide

/-- JavaScript string `<` on our model: lexicographic code-point comparison
    (agrees with UTF-16 comparison on the ASCII date strings it is used on). -/
def ltStr : Str → Str → Bool
  | [], [] => false
  | [], _ :: _ => true
  | _ :: _, [] => false
  | a :: as, b :: bs => if a.val < b.val then true else if a.val = b.val then ltStr as bs else false

/-- The name strings of the five priorities, as stored in `Task.priority`. -/
def priorityName : Priority → Str
  | Priority.highest => str "highest"
  | Priority.high => str "high"
  | Priority.medium => str "medium"
  | Priority.low => str "low"
  | Priority.lowest => str "lowest"

/-- Strip a literal prefix, or fail. -/
def expectLit (lit s : Str) : Option Str :=
  if startsWithStr lit s then some (s.drop lit.length) else none

/-- Consume a `\s+` run (at least one whitespace character). -/
def expectWS1 (s : Str) : Option Str :=
  let w := s.takeWhile (fun c => isWS c)
  if w.isEmpty then none else some (s.drop w.length)

/-- Match `/^due\s+(?:on\s+)?(\d{4}-\d{2}-\d{2})$/` and return the capture. -/
def parseDueOn (f : Str) : Option Str :=
  match expectLit (str "due") f with
  | none => none
  | some r =>
    match expectWS1 r with
    | none => none
    | some r1 =>
      let r2 :=
        match expectLit (str "on") r1 with
        | some ron =>
          match expectWS1 ron with
          | some r2a => r2a
          | none => r1
        | none => r1
      match parseDate8 r2 with
      | some (d, rest) => if rest.isEmpty then some d else none
      | none => none

/-- Match `/^due\s+<word>\s+(\d{4}-\d{2}-\d{2})$/` and return the capture. -/
def parseDueCmp (word f : Str) : Option Str :=
  match expectLit (str "due") f with
  | none => none
  | some r =>
    match expectWS1 r with
    | none => none
    | some r1 =>
      match expectLit word r1 with
      | none => none
      | some r2 =>
        match expectWS1 r2 with
        | none => none
        | some r3 =>
          match parseDate8 r3 with
          | some (d, rest) => if rest.isEmpty then some d else none
          | none => none

/-- Remove one leading `#`, the `replace(/^#/, '')` of the tag filters. -/
def dropHash1 : Str → Str
  | '#' :: r => r
  | s => s

/-- The leaf predicates of `TaskParser.applyFilter` (everything after the
    `and` / `or` / `not` dispatch), in the source's check order.  `filter`
    is already lowercased and trimmed. -/
def applyLeaf (today : Str) (task : Task) (filter : Str) : Bool :=
  if filter = str "done" then decide (task.status = Status.complete)
  else if filter = str "not done" then
    decide (task.status = Status.incomplete ∨ task.status = Status.inProgress)
  else if filter = str "cancelled" then decide (task.status = Status.cancelled)
  else if filter = str "in progress" then decide (task.status = Status.inProgress)
  else if filter = str "due today" then decide (task.dueDate = some today)
  else if filter = str "due before today" || filter = str "overdue" then
    match task.dueDate with
    | some d => ltStr d today
    | none => false
  else if filter = str "due after today" then
    match task.dueDate with
    | some d => ltStr today d
    | none => false
  else if filter = str "no due date" then task.dueDate.isNone
  else if filter = str "has due date" then task.dueDate.isSome
  else if (parseDueOn filter).isSome then decide (task.dueDate = parseDueOn filter)
  else if (parseDueCmp (str "before") filter).isSome then
    match task.dueDate, parseDueCmp (str "before") filter with
    | some d, some b => ltStr d b
    | _, _ => false
  else if (parseDueCmp (str "after") filter).isSome then
    match task.dueDate, parseDueCmp (str "after") filter with
    | some d, some b => ltStr b d
    | _, _ => false
  else if filter = str "scheduled today" then decide (task.scheduledDate = some today)
  else if filter = str "scheduled before today" then
    match task.scheduledDate with
    | some d => ltStr d today
    | none => false
  else if filter = str "no scheduled date" then task.scheduledDate.isNone
  else if filter = str "has scheduled date" then task.scheduledDate.isSome
  else if filter = str "starts today" then decide (task.startDate = some today)
  else if filter = str "starts before today" then
    match task.startDate with
    | some d => ltStr d today
    | none => false
  else if filter = str "no start date" then task.startDate.isNone
  else if filter = str "has start date" then task.startDate.isSome
  else if filter = str "no tags" then task.tags.isEmpty
  else if filter = str "has tags" then !task.tags.isEmpty
  else if startsWithStr (str "tag includes ") filter || startsWithStr (str "tag include ") filter then
    let tagToFind :=
      dropHash1 (trim (if startsWithStr (str "tag includes ") filter then filter.drop 13
        else if startsWithStr (str "tag include ") filter then filter.drop 12 else filter))
    task.tags.any (fun tag => containsSub (toLowerStr (dropHash1 tag)) tagToFind)
  else if startsWithStr (str "tag does not include ") filter ||
      startsWithStr (str "tag do not include ") filter then
    let tagToExclude :=
      dropHash1 (trim (if startsWithStr (str "tag does not include ") filter then filter.drop 21
        else if startsWithStr (str "tag do not include ") filter then filter.drop 19 else filter))
    !task.tags.any (fun tag => containsSub (toLowerStr (dropHash1 tag)) tagToExclude)
  else if startsWithStr (str "path includes ") filter then
    let pathToFind := trim (replaceFirstStr (str "path includes ") filter)
    containsSub (toLowerStr task.filePath) (toLowerStr pathToFind)
  else if startsWithStr (str "path does not include ") filter then
    let pathToExclude := trim (replaceFirstStr (str "path does not include ") filter)
    !containsSub (toLowerStr task.filePath) (toLowerStr pathToExclude)
  else if startsWithStr (str "description includes ") filter then
    let textToFind := trim (replaceFirstStr (str "description includes ") filter)
    containsSub (toLowerStr task.description) (toLowerStr textToFind)
  else if startsWithStr (str "description does not include ") filter then
    let textToExclude := trim (replaceFirstStr (str "description does not include ") filter)
    !containsSub (toLowerStr task.description) (toLowerStr textToExclude)
  else if startsWithStr (str "priority is ") filter then
    let p := trim (replaceFirstStr (str "priority is ") filter)
    if p = str "none" then task.priority.isNone
    else decide (task.priority.map priorityName = some p)
  else if filter = str "is recurring" then task.recurrence.isSome
  else if filter = str "is not recurring" then task.recurrence.isNone
  else containsSub (toLowerStr task.description) filter

/-- The literal `' and '` combinator separator. -/
def andSep : Str := str " and "

/-- The literal `' or '` combinator separator. -/
def orSep : Str := str " or "

/-- One step of `TaskParser.applyFilter`: lowercase and trim the filter,
    then dispatch on `' and '`, `' or '`, the `'not '` prefix (with the
    `'not done'` exception) and finally the leaf predicates; `rec` is the
    recursive call on sub-filters. -/
def applyFilterGo (today : Str) (task : Task) (rec : Str → Bool) (filter0 : Str) : Bool :=
  let filter := trim (toLowerStr filter0)
  if containsSub filter andSep then
    (splitOnStr andSep filter).all (fun part => rec (trim part))
  else if containsSub filter orSep then
    (splitOnStr orSep filter).any (fun part => rec (trim part))
  else if startsWithStr (str "not ") filter && !decide (filter = str "not done") then
    !rec (filter.drop 4)
  else applyLeaf today task filter

/-- Fuel-indexed model of `TaskParser.applyFilter`.  The fuel only bounds
    the recursion depth; `applyFilter` instantiates it with the filter's
    length, which `applyFilterF_congr` below proves sufficient. -/
def applyFilterF (today : Str) (task : Task) : Nat → Str → Bool
  | 0, _ => false
  | fuel + 1, filter0 => applyFilterGo today task (applyFilterF today task fuel) filter0

/-- Model of `TaskParser.applyFilter`. -/
def applyFilter (today : Str) (task : Task) (filter : Str) : Bool :=
  applyFilterF today task (filter.length + 1) filter

/-- The predicate lines retained from a query text: split on newlines, trim
    each line, keep the non-empty ones that do not start with `#`. -/
def retainedFilterLines (queryText : Str) : List Str :=
  ((splitChar '\n' queryText).map trim).filter
    (fun line => !line.isEmpty && !startsWithStr ['#'] line)

/-- The `for (const filter of filters) { if (!applyFilter...) return false }`
    loop of `TaskParser.queryTasks`. -/
def passesAllFilters (today : Str) (task : Task) : List Str → Bool
  | [] => true
  | f :: fs => if applyFilter today task f then passesAllFilters today task fs else false

/-- Model of `TaskParser.queryTasks`. -/
def queryTasks (today : Str) (tasks : List Task) (queryText : Str) : List Task :=
  tasks.filter (fun task => passesAllFilters today task (retainedFilterLines queryText))

/-- A sample parsed task used in concrete checks. -/
def sampleTask : Task :=
  mkTask (str "f.md") 1 (str "- [ ] buy milk #home")
    ' ' (str "buy milk #home")

example : applyFilter (str "2025-01-01") sampleTask (str "done") = false := by decide

example : applyFilter (str "2025-01-01") sampleTask (str "not done") = true := by decide

example :
    applyFilter (str "2025-01-01") sampleTask (str "tag includes home") = true := by decide

/-- The retention loop is the conjunction of the individual filters. -/
theorem passesAllFilters_eq_true_iff (today : Str) (task : Task) (fs : List Str) :
    passesAllFilters today task fs = true ↔
      ∀ f ∈ fs, applyFilter today task f = true := by
  induction fs with
  | nil => simp [passesAllFilters]
  | cons f fs ih =>
    by_cases h : applyFilter today task f = true
    · simp [passesAllFilters, h, ih]
    · simp [passesAllFilters, h]

/-- Claim C2: the filter `done` evaluates true exactly on tasks with status
    `complete`, and `not done` evaluates true exactly on tasks with status
    `incomplete` or `in_progress`; in particular the generic `not `
    negation rule is not applied to the named leaf predicate `not done`
    (which is therefore false on `cancelled` tasks, unlike a negation of
    `done`). -/
theorem done_and_not_done_status (today : Str) (task : Task) :
    (applyFilter today task (str "done") = true ↔ task.status = Status.complete) ∧
    (applyFilter today task (str "not done") = true ↔
      (task.status = Status.incomplete ∨ task.status = Status.inProgress)) := by
  constructor
  · show decide (task.status = Status.complete) = true ↔ _
    exact decide_eq_true_iff
  · show decide (task.status = Status.incomplete ∨ task.status = Status.inProgress) = true ↔ _
    exact decide_eq_true_iff

/-- Claim C3: `queryTasks` returns exactly the tasks on which every
    retained predicate line evaluates true, and the result is a sublist of
    the input (the filter is stable: relative order is preserved, nothing
    is re-sorted). -/
theorem queryTasks_retained_and_order (today : Str) (tasks : List Task) (queryText : Str) :
    List.Sublist (queryTasks today tasks queryText) tasks ∧
    ∀ t, t ∈ queryTasks today tasks queryText ↔
      t ∈ tasks ∧ ∀ f ∈ retainedFilterLines queryText, applyFilter today t f = true := by
  constructor
  · exact List.filter_sublist tasks
  · intro t
    rw [queryTasks, List.mem_filter, passesAllFilters_eq_true_iff]

/-- Claim C10: a query text all of whose lines are blank or start with `#`
    (in particular the empty query) retains no predicate line, and
    `queryTasks` returns the input list unchanged. -/
theorem queryTasks_no_predicates_identity (today : Str) (tasks : List Task) (queryText : Str)
    (h : ∀ l ∈ splitChar '\n' queryText,
      trim l = [] ∨ (trim l).head? = some '#') :
    queryTasks today tasks queryText = tasks := by
  have hret : retainedFilterLines queryText = [] := by
    rw [retainedFilterLines, List.filter_eq_nil_iff]
    intro a ha
    rcases List.mem_map.mp ha with ⟨l, hl, rfl⟩
    rcases h l hl with h1 | h1
    · simp [h1]
    · rcases hq : trim l with _ | ⟨c, cs⟩
      · simp [hq]
      · rw [hq] at h1
        simp at h1
        simp [hq, startsWithStr, h1]
  rw [queryTasks, hret]
  have : ∀ task : Task, passesAllFilters today task [] = true := fun _ => rfl
  simp [this]

/-- Witness for C10 at a concrete query and task list. -/
theorem queryTasks_no_predicates_identity_witness :
    (∀ l ∈ splitChar '\n' (str "# only a comment\n\n  "),
      trim l = [] ∨ (trim l).head? = some '#') ∧
    queryTasks (str "2025-01-01") [sampleTask] (str "# only a comment\n\n  ") = [sampleTask] :=
  ⟨by decide, queryTasks_no_predicates_identity _ _ _ (by decide)⟩

/-- Model of `String.prototype.lastIndexOf` for a single character
    (`none` models the `-1` result). -/
def lastIndexOfChar (c : Char) : Str → Option Nat
  | [] => none
  | a :: rest =>
    match lastIndexOfChar c rest with
    | some i => some (i + 1)
    | none => if a = c then some 0 else none

/-- Value of a hexadecimal digit, if the character is one. -/
def hexDigitVal (c : Char) : Option Nat :=
  if isDigit c then some (c.val.toNat - 48)
  else if 'a' ≤ c && c ≤ 'f' then some (c.val.toNat - 87)
  else if 'A' ≤ c && c ≤ 'F' then some (c.val.toNat - 55)
  else none

/-- Hexadecimal digit test. -/
def isHexDigitB (c : Char) : Bool := (hexDigitVal c).isSome

/-- Value of a run of decimal digits. -/
def decDigitsVal (ds : Str) : Nat := ds.foldl (fun acc c => acc * 10 + (c.val.toNat - 48)) 0

/-- Value of a run of hexadecimal digits. -/
def hexDigitsVal (ds : Str) : Nat := ds.foldl (fun acc c => acc * 16 + (hexDigitVal c).getD 0) 0

/-- Model of JavaScript `parseInt(s)` with no radix argument: skip leading
    whitespace, read an optional sign, detect a `0x`/`0X` prefix (radix 16),
    then parse the longest digit prefix; `none` models `NaN`.  (JavaScript
    returns a float, so values above 2^53 lose precision; the claims under
    study never exercise that range.) -/
def parseIntJS (s : Str) : Option Int :=
  let s1 := trimLeft s
  let sign : Int := match s1 with
    | '-' :: _ => -1
    | _ => 1
  let s2 : Str := match s1 with
    | '-' :: r => r
    | '+' :: r => r
    | _ => s1
  match s2 with
  | '0' :: x :: r =>
    if x = 'x' || x = 'X' then
      let ds := r.takeWhile (fun c => isHexDigitB c)
      if ds.isEmpty then none else some (sign * (hexDigitsVal ds : Nat))
    else
      some (sign * (decDigitsVal (s2.takeWhile (fun c => isDigit c)) : Nat))
  | _ =>
    let ds := s2.takeWhile (fun c => isDigit c)
    if ds.isEmpty then none else some (sign * (decDigitsVal ds : Nat))

/-- The identifier decoding error of `TasksMcpPlugin.parseTaskId`
    (the spec's MalformedIdentifier). -/
inductive IdError where
  | malformed
deriving DecidableEq, Repr

/-- Equality on `Except` results is decidable when it is on both sides. -/
instance instDecEqExcept {e a : Type} [DecidableEq e] [DecidableEq a] :
    DecidableEq (Except e a) := fun x y =>
  match x, y with
  | Except.ok u, Except.ok v =>
    if h : u = v then isTrue (by rw [h]) else isFalse (fun hc => h (Except.ok.inj hc))
  | Except.error u, Except.error v =>
    if h : u = v then isTrue (by rw [h]) else isFalse (fun hc => h (Except.error.inj hc))
  | Except.ok _, Except.error _ => isFalse (fun hc => Except.noConfusion hc)
  | Except.error _, Except.ok _ => isFalse (fun hc => Except.noConfusion hc)

/-- Model of `TasksMcpPlugin.parseTaskId`: split on the last `:` and
    `parseInt` the trailing segment; `isNaN` rejects. -/
def parseTaskId (id : Str) : Except IdError (Str × Int) :=
  match lastIndexOfChar ':' id with
  | none => Except.error IdError.malformed
  | some i =>
    match parseIntJS (id.drop (i + 1)) with
    | none => Except.error IdError.malformed
    | some n => Except.ok (id.take i, n)

/-- The spec's words for the decode success condition: the trailing segment
    must be a (decimal representation of a) positive integer.  This
    definition follows §4.3 of the spec, for comparison with the code. -/
def specPositiveIntStr (s : Str) : Bool :=
  !s.isEmpty && s.all (fun c => isDigit c) && decide (0 < decDigitsVal s)

example : parseTaskId (str "notes/a.md:12") = Except.ok (str "notes/a.md", 12) := by decide

example : parseTaskId (str "a:b.md:7") = Except.ok (str "a:b.md", 7) := by decide

example : parseTaskId (str "nocolon") = Except.error IdError.malformed := by decide

/-- Counterexample to claim C5: the claim says decode fails whenever the
    trailing segment is not a positive integer, but on `"f:0"` the code
    succeeds and returns line number `0` (`parseInt` only rejects `NaN`). -/
theorem parseTaskId_accepts_nonpositive_cex :
    parseTaskId (str "f:0") = Except.ok (str "f", 0) ∧
    specPositiveIntStr (str "0") = false := by decide

/-- If a character does not occur in a string, `lastIndexOf` misses. -/
theorem lastIndexOfChar_eq_none (c : Char) (s : Str) (h : c ∉ s) :
    lastIndexOfChar c s = none := by
  induction s with
  | nil => rfl
  | cons a rest ih =>
    have hne : a ≠ c := fun hac => h (hac ▸ List.mem_cons_self a rest)
    have hrest : c ∉ rest := fun hm => h (List.mem_cons_of_mem a hm)
    simp [lastIndexOfChar, ih hrest, hne]

/-- `lastIndexOf` finds the last occurrence. -/
theorem lastIndexOfChar_last (c : Char) (pre seg : Str) (h : c ∉ seg) :
    lastIndexOfChar c (pre ++ c :: seg) = some pre.length := by
  induction pre with
  | nil => simp [lastIndexOfChar, lastIndexOfChar_eq_none c seg h]
  | cons a pre ih => simp [lastIndexOfChar, ih]

/-- Claim C5 (amended): decode splits on the last separator occurrence;
    it fails exactly when the identifier has no `:` or `parseInt` of the
    trailing segment is `NaN`, and otherwise returns the prefix before the
    last `:` (which may itself contain `:`) together with the `parseInt`
    value of the trailing segment — a value that may be zero, negative, or
    the numeric prefix of a segment with trailing garbage. -/
theorem parseTaskId_last_sep_and_parseInt :
    (∀ s : Str, ':' ∉ s → parseTaskId s = Except.error IdError.malformed) ∧
    (∀ pre seg : Str, ':' ∉ seg →
      parseTaskId (pre ++ ':' :: seg) =
        match parseIntJS seg with
        | none => Except.error IdError.malformed
        | some n => Except.ok (pre, n)) := by
  constructor
  · intro s hs
    rw [parseTaskId, lastIndexOfChar_eq_none ':' s hs]
  · intro pre seg hseg
    rw [parseTaskId, lastIndexOfChar_last ':' pre seg hseg]
    dsimp only
    have htake : (pre ++ ':' :: seg).take pre.length = pre := List.take_left pre _
    have hdrop : (pre ++ ':' :: seg).drop (pre.length + 1) = seg := by
      have : pre ++ ':' :: seg = (pre ++ [':']) ++ seg := by simp
      rw [this]
      have hlen : (pre ++ [':']).length = pre.length + 1 := by simp
      rw [← hlen]
      exact List.drop_left _ _
    rw [htake, hdrop]


/-- Witness for the amended C5 on a path that itself contains the
    separator, exercising the last-occurrence split. -/
theorem parseTaskId_last_sep_and_parseInt_witness :
    parseTaskId (str "a:b.md" ++ ':' :: str "12") =
      Except.ok (str "a:b.md", 12) := by
  have h := parseTaskId_last_sep_and_parseInt.2 (str "a:b.md") (str "12") (by decide)
  rw [h]
  decide

/-- Errors raised by the line-targeting operations of `TasksMcpPlugin`. -/
inductive LineOpError where
  | invalidLineNumber (n : Int)
  | noTaskAtLine
deriving DecidableEq, Repr

/-- The number of lines of a document, as the source computes it:
    the length of `content.split('\n')`. -/
def lineCount (content : Str) : Nat := (splitChar '\n' content).length

/-- Model of `TasksMcpPlugin.updateTaskInFile` on the document contents:
    replace line `lineNumber` (1-based) after the range check. -/
def updateTaskInFile (content : Str) (lineNumber : Int) (newTaskMarkdown : Str) :
    Except LineOpError Str :=
  let lines := splitChar '\n' content
  if lineNumber < 1 ∨ lineNumber > (lines.length : Int) then
    Except.error (LineOpError.invalidLineNumber lineNumber)
  else
    Except.ok (List.intercalate ['\n'] (lines.set (lineNumber - 1).toNat newTaskMarkdown))

/-- Model of `TasksMcpPlugin.removeTaskFromFile` on the document contents:
    splice out line `lineNumber` (1-based) after the range check. -/
def removeTaskFromFile (content : Str) (lineNumber : Int) : Except LineOpError Str :=
  let lines := splitChar '\n' content
  if lineNumber < 1 ∨ lineNumber > (lines.length : Int) then
    Except.error (LineOpError.invalidLineNumber lineNumber)
  else
    Except.ok (List.intercalate ['\n'] (lines.eraseIdx (lineNumber - 1).toNat))

/-- First match of `/\[.\]/` replaced by `[<nc>]`, as in the manual toggle. -/
def replaceFirstBracket : Str → Char → Str
  | '[' :: c :: ']' :: rest, nc =>
    if isLineTerm c then '[' :: replaceFirstBracket (c :: ']' :: rest) nc
    else '[' :: nc :: ']' :: rest
  | c :: rest, nc => c :: replaceFirstBracket rest nc
  | [], _ => []

/-- Model of the `toggle_task` handler's fallback path (no external Tasks
    API): range-check the line number, parse the line, swap the status
    marker.  The range check happens before either toggle path, so the
    rejection behaviour is shared with the API path. -/
def toggleTaskFallback (content : Str) (filePath : Str) (lineNumber : Int) :
    Except LineOpError Str :=
  let lines := splitChar '\n' content
  if lineNumber < 1 ∨ lineNumber > (lines.length : Int) then
    Except.error (LineOpError.invalidLineNumber lineNumber)
  else
    let taskLine := lines.getD (lineNumber - 1).toNat []
    match parseTaskLine taskLine filePath ((lineNumber - 1).toNat + 1) with
    | none => Except.error LineOpError.noTaskAtLine
    | some task =>
      let newStatusChar := if task.status = Status.complete then ' ' else 'x'
      let newTaskLine := replaceFirstBracket taskLine newStatusChar
      Except.ok (List.intercalate ['\n'] (lines.set (lineNumber - 1).toNat newTaskLine))

/-- Claim C8: every line-targeting operation (update, remove, toggle)
    rejects a line number outside `[1, lineCount]` — in particular `0` and
    `lineCount + 1` — with an InvalidLineNumber error instead of performing
    the operation. -/
theorem line_ops_reject_out_of_range (content newMd fp : Str) (n : Int)
    (h : n < 1 ∨ n > (lineCount content : Int)) :
    updateTaskInFile content n newMd = Except.error (LineOpError.invalidLineNumber n) ∧
    removeTaskFromFile content n = Except.error (LineOpError.invalidLineNumber n) ∧
    toggleTaskFallback content fp n = Except.error (LineOpError.invalidLineNumber n) := by
  rw [lineCount] at h
  refine ⟨?_, ?_, ?_⟩
  · rw [updateTaskInFile, if_pos h]
  · rw [removeTaskFromFile, if_pos h]
  · rw [toggleTaskFallback, if_pos h]

/-- Witness for C8: a two-line document rejects line numbers 0 and 3. -/
theorem line_ops_reject_out_of_range_witness :
    (updateTaskInFile (str "a\nb") 0 (str "x") =
      Except.error (LineOpError.invalidLineNumber 0)) ∧
    (removeTaskFromFile (str "a\nb") 3 =
      Except.error (LineOpError.invalidLineNumber 3)) :=
  ⟨(line_ops_reject_out_of_range (str "a\nb") (str "x") (str "f") 0 (by decide)).1,
   (line_ops_reject_out_of_range (str "a\nb") (str "x") (str "f") 3 (by decide)).2.1⟩

/-- Successful parses are exactly the `mkTask` results of a `taskRegex` match. -/
theorem parseTaskLine_eq_mkTask (line fp : Str) (ln : Nat) (t : Task)
    (h : parseTaskLine line fp ln = some t) :
    ∃ ind mk st content, taskRegexMatch line = some (ind, mk, st, content) ∧
      t = mkTask fp ln line st content := by
  rw [parseTaskLine] at h
  cases htm : taskRegexMatch line with
  | none => rw [htm] at h; exact absurd h (by simp)
  | some q =>
    obtain ⟨ind, mk, st, content⟩ := q
    rw [htm] at h
    refine ⟨ind, mk, st, content, rfl, ?_⟩
    injection h with h
    exact h.symm

/-- The recurrence field is the recurrence scan of the description. -/
theorem parseTaskLine_recurrence (line fp : Str) (ln : Nat) (t : Task)
    (h : parseTaskLine line fp ln = some t) :
    t.recurrence = findRecurrence t.description := by
  obtain ⟨ind, mk, st, content, -, rfl⟩ := parseTaskLine_eq_mkTask line fp ln t h
  rfl

/-- The due date field is the due-date scan of the description. -/
theorem parseTaskLine_dueDate (line fp : Str) (ln : Nat) (t : Task)
    (h : parseTaskLine line fp ln = some t) :
    t.dueDate = findGlyphDate dueClassChars t.description := by
  obtain ⟨ind, mk, st, content, -, rfl⟩ := parseTaskLine_eq_mkTask line fp ln t h
  rfl

/-- The tags field is the tag scan of the description. -/
theorem parseTaskLine_tags (line fp : Str) (ln : Nat) (t : Task)
    (h : parseTaskLine line fp ln = some t) :
    t.tags = ((rawHashTagMatches t.description).map trim).filter (fun x => !x.isEmpty) := by
  obtain ⟨ind, mk, st, content, -, rfl⟩ := parseTaskLine_eq_mkTask line fp ln t h
  rfl

/-- `takeWhile` collects a run of satisfying characters up to a stopper. -/
theorem takeWhile_append_stop (p : Char → Bool) (w : Str) (c : Char) (rest : Str)
    (hw : ∀ x ∈ w, p x = true) (hc : p c = false) :
    (w ++ c :: rest).takeWhile p = w := by
  induction w with
  | nil => simp [List.takeWhile, hc]
  | cons a w ih =>
    have ha : p a = true := hw a (List.mem_cons_self a w)
    simp only [List.cons_append, List.takeWhile, ha]
    exact congrArg (fun z => a :: z) (ih (fun x hx => hw x (List.mem_cons_of_mem a hx)))

/-- The recurrence scan skips glyph-free prefixes. -/
theorem findRecurrence_append_free (pre b : Str) (h : recGlyph ∉ pre) :
    findRecurrence (pre ++ b) = findRecurrence b := by
  induction pre with
  | nil => rfl
  | cons a pre ih =>
    have hne : ¬a = recGlyph := fun hac => h (hac ▸ List.mem_cons_self a pre)
    have hrest : recGlyph ∉ pre := fun hm => h (List.mem_cons_of_mem a hm)
    simp only [List.cons_append, findRecurrence, hne, if_false]
    exact ih hrest

/-- The recurrence scan at the glyph: `\s?` then the lazy capture, which is
    the run of non-whitespace characters. -/
theorem findRecurrence_at_glyph (tail : Str) :
    findRecurrence (recGlyph :: tail) =
      some ((skipOneWS tail).takeWhile (fun x => !isWS x)) := by
  simp [findRecurrence]

/-- Claim C6: when the recurrence glyph is followed (after the optional
    single whitespace consumed by `\s?`) by a word and then more whitespace,
    the parsed recurrence is only that first word — multi-word phrases are
    truncated at the first whitespace run after the glyph. -/
theorem recurrence_truncated_at_whitespace (line fp : Str) (ln : Nat) (t : Task)
    (pre sp w rest : Str) (c : Char)
    (hp : parseTaskLine line fp ln = some t)
    (hd : t.description = pre ++ recGlyph :: (sp ++ (w ++ c :: rest)))
    (hpre : recGlyph ∉ pre)
    (hsp : sp = [] ∨ ∃ u, sp = [u] ∧ isWS u = true)
    (hw : w ≠ []) (hwall : ∀ x ∈ w, isWS x = false)
    (hc : isWS c = true) :
    t.recurrence = some w := by
  rw [parseTaskLine_recurrence line fp ln t hp, hd,
    findRecurrence_append_free pre _ hpre, findRecurrence_at_glyph]
  have hskip : skipOneWS (sp ++ (w ++ c :: rest)) = w ++ c :: rest := by
    rcases hsp with rfl | ⟨u, rfl, hu⟩
    · cases w with
      | nil => exact absurd rfl hw
      | cons w0 w' =>
        have hw0 : isWS w0 = false := hwall w0 (List.mem_cons_self w0 w')
        simp [skipOneWS, hw0]
    · simp [skipOneWS, hu]
  rw [hskip, takeWhile_append_stop _ w c rest
    (fun x hx => by rw [hwall x hx]; rfl) (by rw [hc]; rfl)]

/-- Witness for C6: `- [ ] water plants 🔁 every 2 weeks` parses with
    recurrence `every`, not `every 2 weeks`. -/
theorem recurrence_truncated_at_whitespace_witness :
    parseTaskLine (str "- [ ] water plants 🔁 every 2 weeks") (str "f.md") 1 =
      some (mkTask (str "f.md") 1 (str "- [ ] water plants 🔁 every 2 weeks") ' '
        (str "water plants 🔁 every 2 weeks")) ∧
    (mkTask (str "f.md") 1 (str "- [ ] water plants 🔁 every 2 weeks") ' '
      (str "water plants 🔁 every 2 weeks")).recurrence = some (str "every") := by
  constructor
  · decide
  · exact recurrence_truncated_at_whitespace
      (str "- [ ] water plants 🔁 every 2 weeks") (str "f.md") 1 _
      (str "water plants ") [' '] (str "every") (str "2 weeks") ' '
      (by decide) (by decide) (by decide)
      (Or.inr ⟨' ', rfl, by decide⟩) (by decide) (by decide) (by decide)

/-- A digit-run parse splits the input. -/
theorem parseDigits_decomp (n : Nat) (s ds rest : Str)
    (h : parseDigits n s = some (ds, rest)) :
    s = ds ++ rest ∧ ds.length = n ∧ ∀ c ∈ ds, isDigit c = true := by
  induction n generalizing s ds rest with
  | zero =>
    rw [parseDigits] at h
    injection h with h
    obtain ⟨h1, h2⟩ := Prod.mk.inj h
    subst h1
    subst h2
    exact ⟨rfl, rfl, fun c hc => absurd hc (List.not_mem_nil c)⟩
  | succ n ih =>
    cases s with
    | nil => exact absurd h (by rw [parseDigits]; simp)
    | cons c r =>
      rw [parseDigits] at h
      by_cases hc : isDigit c = true
      · rw [if_pos hc] at h
        cases hr : parseDigits n r with
        | none => rw [hr] at h; exact absurd h (by simp)
        | some q =>
          obtain ⟨ds2, rest2⟩ := q
          rw [hr] at h
          dsimp only at h
          injection h with h
          obtain ⟨h1, h2⟩ := Prod.mk.inj h
          obtain ⟨hsr, hlen, hall⟩ := ih r ds2 rest2 hr
          refine ⟨?_, ?_, ?_⟩
          · rw [← h1, ← h2, hsr]
            rfl
          · rw [← h1]
            simp [hlen]
          · intro x hx
            rw [← h1] at hx
            rcases List.mem_cons.mp hx with rfl | hx2
            · exact hc
            · exact hall x hx2
      · rw [if_neg hc] at h
        exact absurd h (by simp)

/-- A digit-run parse extends over appended text. -/
theorem parseDigits_extend (n : Nat) (s ds rest r : Str)
    (h : parseDigits n s = some (ds, rest)) :
    parseDigits n (s ++ r) = some (ds, rest ++ r) := by
  induction n generalizing s ds rest with
  | zero =>
    rw [parseDigits] at h
    injection h with h
    obtain ⟨h1, h2⟩ := Prod.mk.inj h
    subst h1
    subst h2
    rfl
  | succ n ih =>
    cases s with
    | nil => exact absurd h (by rw [parseDigits]; simp)
    | cons c s2 =>
      rw [parseDigits] at h
      by_cases hc : isDigit c = true
      · rw [if_pos hc] at h
        cases hr : parseDigits n s2 with
        | none => rw [hr] at h; exact absurd h (by simp)
        | some q =>
          obtain ⟨ds2, rest2⟩ := q
          rw [hr] at h
          dsimp only at h
          injection h with h
          obtain ⟨h1, h2⟩ := Prod.mk.inj h
          show parseDigits (n + 1) (c :: (s2 ++ r)) = _
          rw [parseDigits, if_pos hc, ih s2 ds2 rest2 hr]
          dsimp only
          rw [← h1, ← h2]
      · rw [if_neg hc] at h
        exact absurd h (by simp)

/-- A dash parse extends over appended text. -/
theorem parseDash_extend (s rest r : Str) (h : parseDash s = some rest) :
    parseDash (s ++ r) = some (rest ++ r) := by
  cases s with
  | nil => exact absurd h (by rw [parseDash]; simp)
  | cons c s2 =>
    rw [parseDash] at h
    by_cases hc : c = '-'
    · rw [if_pos hc] at h
      injection h with h
      subst h
      show parseDash (c :: (s2 ++ r)) = _
      rw [parseDash, if_pos hc]
    · rw [if_neg hc] at h
      exact absurd h (by simp)

/-- A dash parse splits off a literal dash. -/
theorem parseDash_decomp (s rest : Str) (h : parseDash s = some rest) :
    s = '-' :: rest := by
  cases s with
  | nil => exact absurd h (by rw [parseDash]; simp)
  | cons c s2 =>
    rw [parseDash] at h
    by_cases hc : c = '-'
    · rw [if_pos hc] at h
      injection h with h
      rw [hc, h]
    · rw [if_neg hc] at h
      exact absurd h (by simp)

/-- A date parse extends over appended text. -/
theorem parseDate8_extend (s p rest r : Str) (h : parseDate8 s = some (p, rest)) :
    parseDate8 (s ++ r) = some (p, rest ++ r) := by
  rw [parseDate8] at h
  cases h4 : parseDigits 4 s with
  | none => rw [h4] at h; exact absurd h (by simp)
  | some q1 =>
    obtain ⟨d1, r1⟩ := q1
    rw [h4] at h
    dsimp only at h
    cases hd1 : parseDash r1 with
    | none => rw [hd1] at h; exact absurd h (by simp)
    | some r2 =>
      rw [hd1] at h
      dsimp only at h
      cases h2 : parseDigits 2 r2 with
      | none => rw [h2] at h; exact absurd h (by simp)
      | some q2 =>
        obtain ⟨d2, r3⟩ := q2
        rw [h2] at h
        dsimp only at h
        cases hd2 : parseDash r3 with
        | none => rw [hd2] at h; exact absurd h (by simp)
        | some r4 =>
          rw [hd2] at h
          dsimp only at h
          cases h3 : parseDigits 2 r4 with
          | none => rw [h3] at h; exact absurd h (by simp)
          | some q3 =>
            obtain ⟨d3, r5⟩ := q3
            rw [h3] at h
            dsimp only at h
            injection h with h
            obtain ⟨hp, hr⟩ := Prod.mk.inj h
            subst hp
            subst hr
            rw [parseDate8, parseDigits_extend 4 s d1 r1 r h4]
            dsimp only
            rw [parseDash_extend r1 r2 r hd1]
            dsimp only
            rw [parseDigits_extend 2 r2 d2 r3 r h2]
            dsimp only
            rw [parseDash_extend r3 r4 r hd2]
            dsimp only
            rw [parseDigits_extend 2 r4 d3 r5 r h3]

/-- A date parse splits the input. -/
theorem parseDate8_decomp (s p rest : Str) (h : parseDate8 s = some (p, rest)) :
    s = p ++ rest := by
  rw [parseDate8] at h
  cases h4 : parseDigits 4 s with
  | none => rw [h4] at h; exact absurd h (by simp)
  | some q1 =>
    obtain ⟨d1, r1⟩ := q1
    rw [h4] at h
    dsimp only at h
    cases hd1 : parseDash r1 with
    | none => rw [hd1] at h; exact absurd h (by simp)
    | some r2 =>
      rw [hd1] at h
      dsimp only at h
      cases h2 : parseDigits 2 r2 with
      | none => rw [h2] at h; exact absurd h (by simp)
      | some q2 =>
        obtain ⟨d2, r3⟩ := q2
        rw [h2] at h
        dsimp only at h
        cases hd2 : parseDash r3 with
        | none => rw [hd2] at h; exact absurd h (by simp)
        | some r4 =>
          rw [hd2] at h
          dsimp only at h
          cases h3 : parseDigits 2 r4 with
          | none => rw [h3] at h; exact absurd h (by simp)
          | some q3 =>
            obtain ⟨d3, r5⟩ := q3
            rw [h3] at h
            dsimp only at h
            injection h with h
            obtain ⟨hp, hr⟩ := Prod.mk.inj h
            subst hp
            subst hr
            obtain ⟨hs1, -, -⟩ := parseDigits_decomp 4 s d1 r1 h4
            have hr1 : r1 = '-' :: r2 := parseDash_decomp r1 r2 hd1
            obtain ⟨hs2, -, -⟩ := parseDigits_decomp 2 r2 d2 r3 h2
            have hr3 : r3 = '-' :: r4 := parseDash_decomp r3 r4 hd2
            obtain ⟨hs3, -, -⟩ := parseDigits_decomp 2 r4 d3 r5 h3
            rw [hs1, hr1, hs2, hr3, hs3]
            simp

/-- A well-shaped date at the front of a string parses to exactly itself. -/
theorem parseDate8_of_dateOk (d r : Str) (h : dateOk d = true) :
    parseDate8 (d ++ r) = some (d, r) := by
  rw [dateOk, beq_iff_eq] at h
  exact parseDate8_extend d d [] r h

/-- No date parse starts at a non-digit character. -/
theorem parseDate8_none_of_head (c : Char) (r : Str) (h : isDigit c = false) :
    parseDate8 (c :: r) = none := by
  have h4 : parseDigits 4 (c :: r) = none := by
    show parseDigits (3 + 1) (c :: r) = none
    rw [parseDigits, if_neg (by rw [h]; exact Bool.false_ne_true)]
  rw [parseDate8, h4]

/-- Whitespace characters are not digits. -/
theorem not_digit_of_isWS (c : Char) (h : isWS c = true) : isDigit c = false := by
  rw [isWS] at h
  simp only [Bool.or_eq_true, Bool.and_eq_true, decide_eq_true_eq] at h
  rw [isDigit, Bool.eq_false_iff]
  intro hd
  simp only [Bool.and_eq_true, decide_eq_true_eq] at hd
  obtain ⟨h1, h2⟩ := hd
  casesm* _ ∨ _ <;> omega

/-- The per-position attempt succeeds on an immediate date. -/
theorem glyphDateAt_of_date (rest d r : Str) (h : parseDate8 rest = some (d, r)) :
    glyphDateAt rest = some d := by
  rw [glyphDateAt.eq_def, h]

/-- The per-position attempt succeeds on one whitespace then a date. -/
theorem glyphDateAt_ws (u : Char) (r2 d r : Str) (hu : isWS u = true)
    (hnd : parseDate8 (u :: r2) = none) (h2 : parseDate8 r2 = some (d, r)) :
    glyphDateAt (u :: r2) = some d := by
  rw [glyphDateAt.eq_def, hnd]
  dsimp only
  rw [if_pos hu, h2]

/-- The per-position attempt fails on a non-whitespace, non-date head. -/
theorem glyphDateAt_none_nonws (u : Char) (r2 : Str) (hu : isWS u = false)
    (hnd : parseDate8 (u :: r2) = none) :
    glyphDateAt (u :: r2) = none := by
  rw [glyphDateAt.eq_def, hnd]
  dsimp only
  rw [if_neg (by rw [hu]; exact Bool.false_ne_true)]

/-- The glyph-date scan skips characters outside the glyph class. -/
theorem findGlyphDate_cons_free (glyphs : List Char) (c : Char) (rest : Str)
    (h : glyphs.contains c = false) :
    findGlyphDate glyphs (c :: rest) = findGlyphDate glyphs rest := by
  rw [findGlyphDate, if_neg (by rw [h]; exact Bool.false_ne_true)]

/-- The glyph-date scan skips glyph-free prefixes. -/
theorem findGlyphDate_append_free (glyphs : List Char) (pre b : Str)
    (h : ∀ ch ∈ pre, glyphs.contains ch = false) :
    findGlyphDate glyphs (pre ++ b) = findGlyphDate glyphs b := by
  induction pre with
  | nil => rfl
  | cons a pre ih =>
    rw [List.cons_append, findGlyphDate_cons_free glyphs a _ (h a (List.mem_cons_self a pre))]
    exact ih (fun x hx => h x (List.mem_cons_of_mem a hx))

/-- The glyph-date scan succeeds at a class glyph followed by an optional
    whitespace and a well-shaped date, capturing exactly the date. -/
theorem findGlyphDate_hit (glyphs : List Char) (g : Char) (sp d post : Str)
    (hg : glyphs.contains g = true) (hd : dateOk d = true)
    (hsp : sp = [] ∨ ∃ u, sp = [u] ∧ isWS u = true) :
    findGlyphDate glyphs (g :: (sp ++ (d ++ post))) = some d := by
  have hdp : parseDate8 (d ++ post) = some (d, post) := parseDate8_of_dateOk d post hd
  rcases hsp with rfl | ⟨u, rfl, hu⟩
  · rw [findGlyphDate, if_pos hg]
    rw [show ([] : Str) ++ (d ++ post) = d ++ post from rfl,
      glyphDateAt_of_date (d ++ post) d post hdp]
  · have hnd : parseDate8 (u :: (d ++ post)) = none :=
      parseDate8_none_of_head u _ (not_digit_of_isWS u hu)
    rw [findGlyphDate, if_pos hg]
    rw [show ([u] : Str) ++ (d ++ post) = u :: (d ++ post) from rfl,
      glyphDateAt_ws u (d ++ post) d post hu hnd hdp]

/-- Claim C7: both accepted due-date glyph variants — the single calendar
    glyph and the calendar-pad glyph followed by the variation selector —
    followed by an optional whitespace and an 8-digit hyphenated date set
    `dueDate` to that date (for the first due marker of the line). -/
theorem due_date_two_variants (line fp : Str) (ln : Nat) (t : Task)
    (pre variant sp d post : Str)
    (hp : parseTaskLine line fp ln = some t)
    (hv : variant = [dueGlyphA] ∨ variant = [dueGlyphB, varSel])
    (hd : t.description = pre ++ (variant ++ (sp ++ (d ++ post))))
    (hpre : ∀ ch ∈ pre, dueClassChars.contains ch = false)
    (hsp : sp = [] ∨ ∃ u, sp = [u] ∧ isWS u = true)
    (hdate : dateOk d = true) :
    t.dueDate = some d := by
  rw [parseTaskLine_dueDate line fp ln t hp, hd,
    findGlyphDate_append_free dueClassChars pre _ hpre]
  rcases hv with rfl | rfl
  · exact findGlyphDate_hit dueClassChars dueGlyphA sp d post (by decide) hdate hsp
  · have hnd : parseDate8 (varSel :: (sp ++ (d ++ post))) = none :=
      parseDate8_none_of_head varSel _ (by decide)
    have hga : glyphDateAt (varSel :: (sp ++ (d ++ post))) = none :=
      glyphDateAt_none_nonws varSel _ (by decide) hnd
    have step :
        findGlyphDate dueClassChars (dueGlyphB :: (varSel :: (sp ++ (d ++ post)))) =
          findGlyphDate dueClassChars (varSel :: (sp ++ (d ++ post))) := by
      rw [findGlyphDate, if_pos (by decide : dueClassChars.contains dueGlyphB = true), hga]
    have hshape :
        ([dueGlyphB, varSel] ++ (sp ++ (d ++ post))) =
          dueGlyphB :: (varSel :: (sp ++ (d ++ post))) := rfl
    rw [hshape, step]
    exact findGlyphDate_hit dueClassChars varSel sp d post (by decide) hdate hsp

/-- Witness for C7 on the calendar-pad variant:
    `- [ ] pay rent 🗓️ 2025-03-04` parses with due date `2025-03-04`. -/
theorem due_date_two_variants_witness :
    parseTaskLine (str "- [ ] pay rent 🗓️ 2025-03-04") (str "f.md") 1 =
      some (mkTask (str "f.md") 1 (str "- [ ] pay rent 🗓️ 2025-03-04") ' '
        (str "pay rent 🗓️ 2025-03-04")) ∧
    (mkTask (str "f.md") 1 (str "- [ ] pay rent 🗓️ 2025-03-04") ' '
      (str "pay rent 🗓️ 2025-03-04")).dueDate = some (str "2025-03-04") := by
  constructor
  · decide
  · exact due_date_two_variants (str "- [ ] pay rent 🗓️ 2025-03-04") (str "f.md") 1 _
      (str "pay rent ") [dueGlyphB, varSel] [' '] (str "2025-03-04") []
      (by decide) (Or.inr rfl) (by decide) (by decide)
      (Or.inr ⟨' ', rfl, by decide⟩) (by decide)

/-- The run `takeWhile` collects is an initial segment of the list. -/
theorem take_length_takeWhile (p : Char → Bool) (l : Str) :
    l.take (l.takeWhile p).length = l.takeWhile p := by
  induction l with
  | nil => rfl
  | cons c l ih =>
    by_cases hc : p c = true
    · rw [List.takeWhile_cons, if_pos hc, List.length_cons, List.take_succ_cons, ih]
    · rw [List.takeWhile_cons, if_neg hc]
      rfl

/-- A list splits at the end of its `takeWhile` run. -/
theorem takeWhile_drop_split (p : Char → Bool) (l : Str) :
    l = l.takeWhile p ++ l.drop (l.takeWhile p).length := by
  conv_lhs => rw [← List.take_append_drop (l.takeWhile p).length l]
  rw [take_length_takeWhile]

/-- A tag match is a prefix of the text it was matched against. -/
theorem tagMatcherMid_pre (t a : Str) (k : Nat) (h : tagMatcherMid t = some (a, k)) :
    ∃ w, t = a ++ w := by
  cases t with
  | nil => exact nomatch h
  | cons c t1 =>
    cases t1 with
    | nil => exact nomatch h
    | cons d r2 =>
      rw [tagMatcherMid] at h
      by_cases hcd : (isWS c && d = '#') = true
      · rw [if_pos hcd] at h
        dsimp only at h
        by_cases htg : (r2.takeWhile (fun x => tagChar x)).isEmpty = true
        · rw [if_pos htg] at h
          exact absurd h (by simp)
        · rw [if_neg htg] at h
          injection h with h
          obtain ⟨h1, -⟩ := Prod.mk.inj h
          refine ⟨r2.drop (r2.takeWhile (fun x => tagChar x)).length, ?_⟩
          rw [← h1]
          show c :: d :: r2 = c :: d :: (r2.takeWhile (fun x => tagChar x) ++
            r2.drop (r2.takeWhile (fun x => tagChar x)).length)
          rw [← takeWhile_drop_split]
      · rw [if_neg hcd] at h
        exact absurd h (by simp)

/-- Every string the global tag scan emits occurs inside the scanned text. -/
theorem scanEmitF_sub (fuel : Nat) (s a : Str)
    (h : a ∈ scanEmitF tagMatcherMid fuel s) : ∃ u v, s = u ++ (a ++ v) := by
  induction fuel generalizing s with
  | zero => exact absurd h (by rw [scanEmitF]; simp)
  | succ fuel ih =>
    cases s with
    | nil => exact absurd h (by rw [scanEmitF]; simp)
    | cons c rest =>
      rw [scanEmitF] at h
      cases hm : tagMatcherMid (c :: rest) with
      | none =>
        rw [hm] at h
        dsimp only at h
        obtain ⟨u, v, huv⟩ := ih rest h
        exact ⟨c :: u, v, by rw [huv]; rfl⟩
      | some q =>
        obtain ⟨a0, k⟩ := q
        rw [hm] at h
        dsimp only at h
        rcases List.mem_cons.mp h with rfl | h2
        · obtain ⟨w, hw⟩ := tagMatcherMid_pre (c :: rest) a k hm
          exact ⟨[], w, hw⟩
        · obtain ⟨u, v, huv⟩ := ih _ h2
          refine ⟨(c :: rest).take k ++ u, v, ?_⟩
          conv_lhs => rw [← List.take_append_drop k (c :: rest)]
          rw [huv]
          simp

/-- Every raw `hashTagsRegex` match occurs inside the scanned text. -/
theorem rawHashTagMatches_sub (s a : Str) (h : a ∈ rawHashTagMatches s) :
    ∃ u v, s = u ++ (a ++ v) := by
  cases s with
  | nil => exact absurd h (by rw [rawHashTagMatches]; simp)
  | cons c r2 =>
    rw [rawHashTagMatches] at h
    by_cases hc : c = '#'
    · rw [if_pos hc] at h
      dsimp only at h
      by_cases htg : (r2.takeWhile (fun x => tagChar x)).isEmpty = true
      · rw [if_pos htg] at h
        exact scanEmitF_sub _ _ _ h
      · rw [if_neg htg] at h
        rcases List.mem_cons.mp h with rfl | h2
        · refine ⟨[], r2.drop (r2.takeWhile (fun x => tagChar x)).length, ?_⟩
          show c :: r2 = c :: (r2.takeWhile (fun x => tagChar x) ++
            r2.drop (r2.takeWhile (fun x => tagChar x)).length)
          rw [← takeWhile_drop_split]
        · obtain ⟨u, v, huv⟩ := scanEmitF_sub _ _ _ h2
          refine ⟨c :: r2.takeWhile (fun x => tagChar x) ++ u, v, ?_⟩
          conv_lhs => rw [takeWhile_drop_split (fun x => tagChar x) r2]
          rw [huv]
          simp
    · rw [if_neg hc] at h
      exact scanEmitF_sub _ _ _ h

/-- A string splits around its left trim. -/
theorem trimLeft_split (s : Str) : s = s.takeWhile (fun c => isWS c) ++ trimLeft s := by
  rw [trimLeft]
  exact (List.takeWhile_append_dropWhile (p := fun c => isWS c) (l := s)).symm

/-- A string splits around its right trim. -/
theorem trimRight_split (s : Str) :
    s = trimRight s ++ (s.reverse.takeWhile (fun c => isWS c)).reverse := by
  conv_lhs => rw [← List.reverse_reverse s]
  conv_lhs =>
    rw [← List.takeWhile_append_dropWhile (p := fun c => isWS c) (l := s.reverse)]
  rw [List.reverse_append]
  rfl

/-- Trimming yields a part of the original string. -/
theorem trim_sub (m : Str) : ∃ u v, m = u ++ (trim m ++ v) := by
  refine ⟨m.takeWhile (fun c => isWS c),
    ((trimLeft m).reverse.takeWhile (fun c => isWS c)).reverse, ?_⟩
  conv_lhs => rw [trimLeft_split m]
  rw [trim]
  congr 1
  exact trimRight_split (trimLeft m)

/-- Inversion of a successful glyph-date scan: the scanned text contains a
    class glyph, an optional whitespace, and the captured date. -/
theorem findGlyphDate_some_inv (glyphs : List Char) (s d : Str)
    (h : findGlyphDate glyphs s = some d) :
    ∃ u g sp v, s = u ++ (g :: (sp ++ (d ++ v))) ∧ glyphs.contains g = true ∧
      (sp = [] ∨ ∃ w, sp = [w] ∧ isWS w = true) := by
  induction s with
  | nil => exact nomatch h
  | cons c rest ih =>
    rw [findGlyphDate] at h
    by_cases hc : glyphs.contains c = true
    · rw [if_pos hc] at h
      cases hga : glyphDateAt rest with
      | none =>
        rw [hga] at h
        dsimp only at h
        obtain ⟨u, g, sp, v, huv, hg, hsp⟩ := ih h
        exact ⟨c :: u, g, sp, v, by rw [huv]; rfl, hg, hsp⟩
      | some d0 =>
        rw [hga] at h
        dsimp only at h
        injection h with h
        subst h
        rw [glyphDateAt.eq_def] at hga
        cases hpd : parseDate8 rest with
        | some q =>
          obtain ⟨d1, r1⟩ := q
          rw [hpd] at hga
          dsimp only at hga
          injection hga with hga
          subst hga
          have hdec := parseDate8_decomp rest _ r1 hpd
          refine ⟨[], c, [], r1, ?_, hc, Or.inl rfl⟩
          rw [hdec]
          rfl
        | none =>
          rw [hpd] at hga
          dsimp only at hga
          cases rest with
          | nil => exact nomatch hga
          | cons w r2 =>
            dsimp only at hga
            by_cases hw : isWS w = true
            · rw [if_pos hw] at hga
              cases hpd2 : parseDate8 r2 with
              | none =>
                rw [hpd2] at hga
                exact nomatch hga
              | some q2 =>
                obtain ⟨d1, r1⟩ := q2
                rw [hpd2] at hga
                dsimp only at hga
                injection hga with hga
                subst hga
                have hdec := parseDate8_decomp r2 _ r1 hpd2
                refine ⟨[], c, [w], r1, ?_, hc, Or.inr ⟨w, rfl, hw⟩⟩
                rw [hdec]
                rfl
            · rw [if_neg hw] at hga
              exact nomatch hga
    · rw [if_neg hc] at h
      obtain ⟨u, g, sp, v, huv, hg, hsp⟩ := ih h
      exact ⟨c :: u, g, sp, v, by rw [huv]; rfl, hg, hsp⟩

/-- Counterexample to claim C1: the parser does not strip metadata from
    `description` — on `- [ ] buy milk 📅 2025-01-01 #home` the returned
    description still contains the due-date glyph with its date and the
    extracted tag `#home`. -/
theorem description_not_stripped_cex :
    (parseTaskLine (str "- [ ] buy milk 📅 2025-01-01 #home") (str "f.md") 1).map
        Task.description = some (str "buy milk 📅 2025-01-01 #home") ∧
    (parseTaskLine (str "- [ ] buy milk 📅 2025-01-01 #home") (str "f.md") 1).map
        Task.tags = some [str "#home"] ∧
    containsSub (str "buy milk 📅 2025-01-01 #home") (str "📅 2025-01-01") = true ∧
    containsSub (str "buy milk 📅 2025-01-01 #home") (str "#home") = true := by decide

/-- Claim C1 (amended): `description` is the raw task content (only
    surrounding whitespace is trimmed), with recognized metadata left in
    place rather than stripped: every extracted tag is a non-empty part of
    `description`, and whenever `dueDate` is set, `description` still
    contains a due glyph followed by the captured date. -/
theorem description_keeps_metadata (line fp : Str) (ln : Nat) (t : Task)
    (hp : parseTaskLine line fp ln = some t) :
    (∀ tag ∈ t.tags, ¬tag = [] ∧ ∃ u v, t.description = u ++ (tag ++ v)) ∧
    (∀ d, t.dueDate = some d →
      ∃ u g sp v, t.description = u ++ (g :: (sp ++ (d ++ v))) ∧
        dueClassChars.contains g = true ∧
        (sp = [] ∨ ∃ w, sp = [w] ∧ isWS w = true)) := by
  constructor
  · intro tag htag
    rw [parseTaskLine_tags line fp ln t hp] at htag
    obtain ⟨hmem, hne⟩ := List.mem_filter.mp htag
    obtain ⟨m, hmraw, rfl⟩ := List.mem_map.mp hmem
    refine ⟨by simpa using hne, ?_⟩
    obtain ⟨u1, v1, huv1⟩ := rawHashTagMatches_sub t.description m hmraw
    obtain ⟨u2, v2, huv2⟩ := trim_sub m
    refine ⟨u1 ++ u2, v2 ++ v1, ?_⟩
    rw [huv1]
    conv_lhs => rw [huv2]
    simp
  · intro d hd
    rw [parseTaskLine_dueDate line fp ln t hp] at hd
    exact findGlyphDate_some_inv dueClassChars t.description d hd

/-- Witness for the amended C1 at a concrete line: the extracted tag
    `#home` is still part of the returned description. -/
theorem description_keeps_metadata_witness :
    parseTaskLine (str "- [ ] buy milk 📅 2025-01-01 #home") (str "f.md") 1 =
      some (mkTask (str "f.md") 1 (str "- [ ] buy milk 📅 2025-01-01 #home") ' '
        (str "buy milk 📅 2025-01-01 #home")) ∧
    (¬str "#home" = [] ∧ ∃ u v,
      (mkTask (str "f.md") 1 (str "- [ ] buy milk 📅 2025-01-01 #home") ' '
        (str "buy milk 📅 2025-01-01 #home")).description = u ++ (str "#home" ++ v)) := by
  constructor
  · decide
  · exact (description_keeps_metadata (str "- [ ] buy milk 📅 2025-01-01 #home")
      (str "f.md") 1 _ (by decide)).1 (str "#home") (by decide)

/-- A successful `startsWith` splits the string. -/
theorem startsWithStr_decomp (p : Str) : ∀ s : Str, startsWithStr p s = true →
    s = p ++ s.drop p.length := by
  induction p with
  | nil => intro s _; rfl
  | cons a p ih =>
    intro s h
    cases s with
    | nil => exact nomatch h
    | cons c cs =>
      rw [startsWithStr, Bool.and_eq_true] at h
      obtain ⟨h1, h2⟩ := h
      have h1 : a = c := by simpa using h1
      subst h1
      show a :: cs = a :: (p ++ cs.drop p.length)
      rw [← ih cs h2]

/-- A first-occurrence split decomposes the string. -/
theorem firstSplit_decomp (sep : Str) : ∀ s pre post : Str,
    firstSplit sep s = some (pre, post) → s = pre ++ (sep ++ post) := by
  intro s
  induction s with
  | nil =>
    intro pre post h
    rw [firstSplit] at h
    by_cases hsw : startsWithStr sep [] = true
    · rw [if_pos hsw] at h
      cases sep with
      | nil =>
        injection h with h
        obtain ⟨h1, h2⟩ := Prod.mk.inj h
        rw [← h1, ← h2]
        rfl
      | cons a p => exact nomatch hsw
    · rw [if_neg hsw] at h
      exact nomatch h
  | cons c cs ih =>
    intro pre post h
    rw [firstSplit] at h
    by_cases hsw : startsWithStr sep (c :: cs) = true
    · rw [if_pos hsw] at h
      injection h with h
      obtain ⟨h1, h2⟩ := Prod.mk.inj h
      rw [← h1, ← h2]
      exact startsWithStr_decomp sep (c :: cs) hsw
    · rw [if_neg hsw] at h
      cases hfs : firstSplit sep cs with
      | none => rw [hfs] at h; exact nomatch h
      | some q =>
        obtain ⟨pre1, post1⟩ := q
        rw [hfs] at h
        dsimp only at h
        injection h with h
        obtain ⟨h1, h2⟩ := Prod.mk.inj h
        rw [← h1, ← h2]
        show c :: cs = c :: (pre1 ++ (sep ++ post1))
        rw [← ih pre1 post1 hfs]

/-- Dropping a `dropWhile` run never lengthens a list. -/
theorem dropWhile_length_le (p : Char → Bool) (l : Str) :
    (l.dropWhile p).length ≤ l.length := by
  induction l with
  | nil => exact Nat.le_refl 0
  | cons c l ih =>
    rw [List.dropWhile_cons]
    by_cases hc : p c = true
    · rw [if_pos hc]
      exact Nat.le_succ_of_le ih
    · rw [if_neg hc]

/-- Trimming never lengthens a string. -/
theorem trim_length_le (s : Str) : (trim s).length ≤ s.length := by
  rw [trim, trimRight, trimLeft]
  calc ((s.dropWhile (fun c => isWS c)).reverse.dropWhile (fun c => isWS c)).reverse.length
      = ((s.dropWhile (fun c => isWS c)).reverse.dropWhile (fun c => isWS c)).length :=
        List.length_reverse _
    _ ≤ (s.dropWhile (fun c => isWS c)).reverse.length := dropWhile_length_le _ _
    _ = (s.dropWhile (fun c => isWS c)).length := List.length_reverse _
    _ ≤ s.length := dropWhile_length_le _ _

/-- Lowercasing preserves length. -/
theorem toLowerStr_length (s : Str) : (toLowerStr s).length = s.length :=
  List.length_map s lowerChar

/-- Every part a split produces is no longer than the input. -/
theorem splitOnF_part_le (sep : Str) (fuel : Nat) : ∀ s p : Str,
    p ∈ splitOnF sep fuel s → p.length ≤ s.length := by
  induction fuel with
  | zero =>
    intro s p h
    rw [splitOnF] at h
    rcases List.mem_singleton.mp h with rfl
    exact Nat.le_refl _
  | succ fuel ih =>
    intro s p h
    rw [splitOnF] at h
    cases hfs : firstSplit sep s with
    | none =>
      rw [hfs] at h
      rcases List.mem_singleton.mp h with rfl
      exact Nat.le_refl _
    | some q =>
      obtain ⟨pre, post⟩ := q
      rw [hfs] at h
      dsimp only at h
      have hdec := firstSplit_decomp sep s pre post hfs
      have hlen : s.length = pre.length + (sep.length + post.length) := by
        rw [hdec]; simp
      rcases List.mem_cons.mp h with rfl | h2
      · omega
      · have := ih post p h2
        omega

/-- When the separator occurs, every split part is shorter than the input
    by at least the separator's length. -/
theorem splitOnStr_part_bound (sep s p : Str) (hc : containsSub s sep = true)
    (h : p ∈ splitOnStr sep s) : p.length + sep.length ≤ s.length := by
  rw [containsSub] at hc
  obtain ⟨q, hfs⟩ := Option.isSome_iff_exists.mp hc
  obtain ⟨pre, post⟩ := q
  rw [splitOnStr, splitOnF, hfs] at h
  dsimp only at h
  have hdec := firstSplit_decomp sep s pre post hfs
  have hlen : s.length = pre.length + (sep.length + post.length) := by
    rw [hdec]; simp
  rcases List.mem_cons.mp h with rfl | h2
  · omega
  · have := splitOnF_part_le sep s.length post p h2
    omega

/-- Pointwise-equal predicates give the same `all`. -/
theorem listAllCongr (l : List Str) (f g : Str → Bool) (h : ∀ x ∈ l, f x = g x) :
    l.all f = l.all g := by
  induction l with
  | nil => rfl
  | cons a l ih =>
    rw [List.all_cons, List.all_cons, h a (List.mem_cons_self a l),
      ih (fun x hx => h x (List.mem_cons_of_mem a hx))]

/-- Pointwise-equal predicates give the same `any`. -/
theorem listAnyCongr (l : List Str) (f g : Str → Bool) (h : ∀ x ∈ l, f x = g x) :
    l.any f = l.any g := by
  induction l with
  | nil => rfl
  | cons a l ih =>
    rw [List.any_cons, List.any_cons, h a (List.mem_cons_self a l),
      ih (fun x hx => h x (List.mem_cons_of_mem a hx))]

/-- One evaluator step only calls the recursive evaluator on strictly
    shorter filters, so any two recursions that agree below the filter's
    length give the same step result. -/
theorem applyFilterGo_congr (today : Str) (task : Task) (rec1 rec2 : Str → Bool) (f : Str)
    (h : ∀ s : Str, s.length < f.length → rec1 s = rec2 s) :
    applyFilterGo today task rec1 f = applyFilterGo today task rec2 f := by
  rw [applyFilterGo, applyFilterGo]
  have hgle : (trim (toLowerStr f)).length ≤ f.length := by
    calc (trim (toLowerStr f)).length ≤ (toLowerStr f).length := trim_length_le _
      _ = f.length := toLowerStr_length f
  by_cases h1 : containsSub (trim (toLowerStr f)) andSep = true
  · rw [if_pos h1, if_pos h1]
    apply listAllCongr
    intro p hp
    apply h
    have hb := splitOnStr_part_bound andSep _ p h1 hp
    have ht := trim_length_le p
    have h5 : andSep.length = 5 := rfl
    omega
  · rw [if_neg h1, if_neg h1]
    by_cases h2 : containsSub (trim (toLowerStr f)) orSep = true
    · rw [if_pos h2, if_pos h2]
      apply listAnyCongr
      intro p hp
      apply h
      have hb := splitOnStr_part_bound orSep _ p h2 hp
      have ht := trim_length_le p
      have h4 : orSep.length = 4 := rfl
      omega
    · rw [if_neg h2, if_neg h2]
      by_cases h3 : (startsWithStr (str "not ") (trim (toLowerStr f)) &&
          !decide (trim (toLowerStr f) = str "not done")) = true
      · rw [if_pos h3, if_pos h3]
        rw [Bool.and_eq_true] at h3
        have hsw := h3.1
        have hdec := startsWithStr_decomp (str "not ") _ hsw
        have hlen4 : 4 ≤ (trim (toLowerStr f)).length := by
          rw [hdec]
          simp [str]
        have hdl : ((trim (toLowerStr f)).drop 4).length =
            (trim (toLowerStr f)).length - 4 := List.length_drop 4 _
        rw [h _ (by omega)]
      · rw [if_neg h3, if_neg h3]

/-- Fuel irrelevance: any fuel exceeding the filter's length computes the
    same value, so `applyFilter`'s choice of `length + 1` is sufficient. -/
theorem applyFilterF_congr (today : Str) (task : Task) (k : Nat) :
    ∀ f : Str, f.length ≤ k → ∀ n m : Nat, f.length < n → f.length < m →
      applyFilterF today task n f = applyFilterF today task m f := by
  induction k with
  | zero =>
    intro f hf n m hn hm
    cases n with
    | zero => omega
    | succ n1 =>
      cases m with
      | zero => omega
      | succ m1 =>
        show applyFilterGo today task (applyFilterF today task n1) f =
          applyFilterGo today task (applyFilterF today task m1) f
        apply applyFilterGo_congr
        intro s hs
        omega
  | succ k ih =>
    intro f hf n m hn hm
    cases n with
    | zero => omega
    | succ n1 =>
      cases m with
      | zero => omega
      | succ m1 =>
        show applyFilterGo today task (applyFilterF today task n1) f =
          applyFilterGo today task (applyFilterF today task m1) f
        apply applyFilterGo_congr
        intro s hs
        exact ih s (by omega) n1 m1 (by omega) (by omega)

/-- Any sufficient fuel computes `applyFilter`. -/
theorem applyFilterF_eq_applyFilter (today : Str) (task : Task) (f : Str) (n : Nat)
    (h : f.length < n) : applyFilterF today task n f = applyFilter today task f :=
  applyFilterF_congr today task f.length f (Nat.le_refl _) n (f.length + 1) h
    (Nat.lt_succ_self _)

/-- A task used in the mixed `and`/`or` counterexample: description `x`. -/
def andOrCexTask : Task := mkTask (str "g.md") 1 (str "- [ ] x") ' ' (str "x")

/-- Counterexample to claim C4 as stated: the filter `' and x or y'`
    contains both `' and '` and `' or '`, but after the evaluator's own
    lowercasing and trimming the `' and '` occurrence is destroyed, so the
    evaluator splits on `' or '` instead: its result differs from the
    and-split-first evaluation of the filter. -/
theorem and_before_or_dispatch_cex :
    containsSub (str " and x or y") andSep = true ∧
    containsSub (str " and x or y") orSep = true ∧
    applyFilter (str "2025-01-01") andOrCexTask (str " and x or y") = false ∧
    (splitOnStr andSep (str " and x or y")).all
      (fun p => applyFilter (str "2025-01-01") andOrCexTask (trim p)) = true := by decide

/-- Claim C4 (amended): for every filter whose lowercased, trimmed form
    still contains both `' and '` and `' or '`, the evaluator splits that
    normalized form on `' and '` first — the fixed dispatch priority is
    `and` before `or` before `not` — and evaluates each and-separated part
    recursively; no conventional boolean operator precedence is applied. -/
theorem and_before_or_dispatch (today : Str) (task : Task) (f : Str)
    (h1 : containsSub (trim (toLowerStr f)) andSep = true)
    (_h2 : containsSub (trim (toLowerStr f)) orSep = true) :
    applyFilter today task f =
      (splitOnStr andSep (trim (toLowerStr f))).all
        (fun p => applyFilter today task (trim p)) := by
  rw [applyFilter]
  show applyFilterGo today task (applyFilterF today task f.length) f = _
  rw [applyFilterGo]
  rw [if_pos h1]
  apply listAllCongr
  intro p hp
  have hb := splitOnStr_part_bound andSep _ p h1 hp
  have hgle : (trim (toLowerStr f)).length ≤ f.length := by
    calc (trim (toLowerStr f)).length ≤ (toLowerStr f).length := trim_length_le _
      _ = f.length := toLowerStr_length f
  have ht := trim_length_le p
  have h5 : andSep.length = 5 := rfl
  exact applyFilterF_eq_applyFilter today task (trim p) f.length (by omega)

/-- Witness for the amended C4 on a mixed filter. -/
theorem and_before_or_dispatch_witness :
    containsSub (trim (toLowerStr (str "not done and due today or done"))) andSep = true ∧
    containsSub (trim (toLowerStr (str "not done and due today or done"))) orSep = true ∧
    applyFilter (str "2025-01-01") sampleTask (str "not done and due today or done") =
      (splitOnStr andSep (trim (toLowerStr (str "not done and due today or done")))).all
        (fun p => applyFilter (str "2025-01-01") sampleTask (trim p)) :=
  ⟨by decide, by decide,
    and_before_or_dispatch (str "2025-01-01") sampleTask
      (str "not done and due today or done") (by decide) (by decide)⟩

/-- The field set accepted by `TasksMcpPlugin.buildTaskMarkdown`
    (`add_task`'s arguments). -/
structure BuildArgs where
  description : Str
  dueDate : Option Str := none
  scheduledDate : Option Str := none
  startDate : Option Str := none
  priority : Option Str := none
  tags : Option (List Str) := none
  recurrence : Option Str := none
deriving DecidableEq, Repr

/-- The `priorityEmojis` record lookup of the serializers. -/
def priorityEmoji (p : Str) : Option Str :=
  if p = str "highest" then some [hiGlyph, hiGlyph]
  else if p = str "high" then some [hiGlyph]
  else if p = str "medium" then some [medGlyph]
  else if p = str "low" then some [lowGlyph]
  else if p = str "lowest" then some [lowestGlyph]
  else none

/-- `Array.prototype.join(' ')`. -/
def joinSpace (l : List Str) : Str := List.intercalate [' '] l

/-- One optional `glyph value` suffix of the serialized line; empty-string
    values are skipped, as JavaScript's truthiness check does. -/
def optField (glyph : Char) (o : Option Str) : Str :=
  match o with
  | some d => if d.isEmpty then [] else ' ' :: glyph :: ' ' :: d
  | none => []

/-- The optional priority-glyph suffix of the serialized line. -/
def priorityField (o : Option Str) : Str :=
  match o with
  | some p =>
    if p.isEmpty then []
    else
      match priorityEmoji p with
      | some e => ' ' :: e
      | none => []
  | none => []

/-- The optional tag-list suffix of the serialized line: tags lacking a
    `#` prefix get one, already-prefixed tags are left untouched. -/
def tagsField (o : Option (List Str)) : Str :=
  match o with
  | some tags =>
    if tags.isEmpty then []
    else ' ' :: joinSpace (tags.map (fun tg => if startsWithStr ['#'] tg then tg else '#' :: tg))
  | none => []

/-- Model of `TasksMcpPlugin.buildTaskMarkdown`: `- [ ] <description>`
    followed by the optional priority, recurrence, start, scheduled, due
    and tag fields, in that order. -/
def buildTaskMarkdown (args : BuildArgs) : Str :=
  str "- [ ] " ++ args.description ++ priorityField args.priority ++
    optField recGlyph args.recurrence ++ optField startGlyph args.startDate ++
    optField schedGlyph args.scheduledDate ++ optField dueGlyphA args.dueDate ++
    tagsField args.tags

/-- The arguments of the `update_task` tool; `none` is an omitted field. -/
structure UpdateArgs where
  description : Option Str := none
  status : Option Str := none
  dueDate : Option Str := none
  scheduledDate : Option Str := none
  startDate : Option Str := none
  priority : Option Str := none
  tags : Option (List Str) := none
  recurrence : Option Str := none
deriving DecidableEq, Repr

/-- An update with no field arguments supplied. -/
def noOverrideArgs : UpdateArgs := {}

/-- The `statusMap` of the `update_task` handler. -/
def statusMapLookup (st : Str) : Option Char :=
  if st = str "incomplete" then some ' '
  else if st = str "complete" then some 'x'
  else if st = str "cancelled" then some '-'
  else if st = str "in_progress" then some '/'
  else none

/-- The per-field merge of `update_task`: a provided empty string removes
    the field, a provided value replaces it, omission keeps the current. -/
def mergeOptField (arg cur : Option Str) : Option Str :=
  match arg with
  | some v => if v.isEmpty then none else some v
  | none => cur

/-- The `/^([\s\t>]*)([-*+]|[0-9]+[.)])/` match of `update_task`:
    indentation and list marker of the rewritten line, with the source's
    fallbacks `''` and `'-'` when the regex does not match. -/
def indentMarkerMatch (line : Str) : Str × Str :=
  match parseMarkerM (line.dropWhile (fun c => isIndentChar c)) with
  | some (mk, _) => (line.takeWhile (fun c => isIndentChar c), mk)
  | none => ([], ['-'])

/-- Fuel-indexed scanner for a global regex `replace(..., '')`: at each
    position the matcher either consumes `k > 0` characters (deleting
    them) or the scan keeps one character and advances. -/
def replaceScanF (m : Str → Option Nat) : Nat → Str → Str
  | 0, s => s
  | _ + 1, [] => []
  | fuel + 1, c :: rest =>
    match m (c :: rest) with
    | some k => replaceScanF m fuel ((c :: rest).drop k)
    | none => c :: replaceScanF m fuel rest

/-- Matcher of `[<glyphs>]\s?\d{4}-\d{2}-\d{2}` for the date strips of
    `update_task`; returns the number of characters the match consumes. -/
def glyphDateStripM (glyphs : List Char) (s : Str) : Option Nat :=
  match s with
  | c :: rest =>
    if glyphs.contains c then
      match parseDate8 rest with
      | some (d, _) => some (1 + d.length)
      | none =>
        match rest with
        | w :: r2 =>
          if isWS w then
            match parseDate8 r2 with
            | some (d, _) => some (2 + d.length)
            | none => none
          else none
        | [] => none
    else none
  | [] => none

/-- Matcher of the recurrence strip `🔁\s?[^\s]*`. -/
def recStripM (s : Str) : Option Nat :=
  match s with
  | c :: rest =>
    if c = recGlyph then
      match rest with
      | w :: r2 =>
        if isWS w then some (2 + (r2.takeWhile (fun x => !isWS x)).length)
        else some (1 + (rest.takeWhile (fun x => !isWS x)).length)
      | [] => some 1
    else none
  | [] => none

/-- Matcher of the priority strip `⏫⏫|⏫|🔼|🔽|⏬`. -/
def prioStripM (s : Str) : Option Nat :=
  match s with
  | c :: rest =>
    if c = hiGlyph then
      match rest with
      | c2 :: _ => if c2 = hiGlyph then some 2 else some 1
      | [] => some 1
    else if c = medGlyph || c = lowGlyph || c = lowestGlyph then some 1
    else none
  | [] => none

/-- Matcher of the tag strip `\s#[^\s]+` away from the string start. -/
def tagStripMidM (s : Str) : Option Nat :=
  match s with
  | c :: d :: r2 =>
    if isWS c && d = '#' then
      let run := r2.takeWhile (fun x => !isWS x)
      if run.isEmpty then none else some (2 + run.length)
    else none
  | _ => none

/-- The due-date strip `replace(/[📅🗓️]\s?\d{4}-\d{2}-\d{2}/gu, '')`. -/
def stripDue (s : Str) : Str := replaceScanF (glyphDateStripM dueClassChars) (s.length + 1) s

/-- The scheduled-date strip. -/
def stripScheduled (s : Str) : Str := replaceScanF (glyphDateStripM [schedGlyph]) (s.length + 1) s

/-- The start-date strip. -/
def stripStart (s : Str) : Str := replaceScanF (glyphDateStripM [startGlyph]) (s.length + 1) s

/-- The created-date strip. -/
def stripCreated (s : Str) : Str := replaceScanF (glyphDateStripM [createdGlyph]) (s.length + 1) s

/-- The recurrence strip `replace(/🔁\s?[^\s]*/gu, '')`. -/
def stripRec (s : Str) : Str := replaceScanF recStripM (s.length + 1) s

/-- The priority strip `replace(/⏫⏫|⏫|🔼|🔽|⏬/gu, '')`. -/
def stripPriority (s : Str) : Str := replaceScanF prioStripM (s.length + 1) s

/-- The tag strip `replace(/(^|\s)#[^\s]+/g, '')`; the `^` alternative only
    applies at position zero. -/
def stripTags (s : Str) : Str :=
  match s with
  | c :: r2 =>
    if c = '#' then
      let run := r2.takeWhile (fun x => !isWS x)
      if run.isEmpty then replaceScanF tagStripMidM (s.length + 1) s
      else replaceScanF tagStripMidM (s.length + 1) (r2.drop run.length)
    else replaceScanF tagStripMidM (s.length + 1) s
  | [] => []

/-- Model of the `update_task` handler's line rebuild, on the current line
    contents: parse the line, strip all recognized metadata from the
    description unless a new description is supplied, merge each field
    (omitted → keep, empty string → remove, `'none'` priority → remove,
    provided → replace, tags replace wholesale), preserve the original
    indentation and marker, and serialize in the canonical field order.
    `none` models the handler's "No task found" error response. -/
def buildUpdatedTaskLine (currentLine fp : Str) (ln : Nat) (args : UpdateArgs) :
    Option Str :=
  match parseTaskLine currentLine fp ln with
  | none => none
  | some currentTask =>
    let newDescription :=
      match args.description with
      | some dsc => dsc
      | none =>
        trim (stripTags (stripPriority (stripRec (stripCreated (stripStart
          (stripScheduled (stripDue currentTask.description)))))))
    let statusChar :=
      match args.status with
      | some st => (statusMapLookup st).getD currentTask.statusSymbol
      | none => currentTask.statusSymbol
    let dueDate := mergeOptField args.dueDate currentTask.dueDate
    let scheduledDate := mergeOptField args.scheduledDate currentTask.scheduledDate
    let startDate := mergeOptField args.startDate currentTask.startDate
    let priorityS :=
      match args.priority with
      | some p => if p = str "none" then none else some p
      | none => currentTask.priority.map priorityName
    let tags :=
      match args.tags with
      | some ts => ts
      | none => currentTask.tags
    let recurrence := mergeOptField args.recurrence currentTask.recurrence
    let im := indentMarkerMatch currentLine
    some (im.1 ++ im.2 ++ (' ' :: '[' :: statusChar :: ']' :: ' ' :: newDescription) ++
      priorityField priorityS ++ optField recGlyph recurrence ++
      optField startGlyph startDate ++ optField schedGlyph scheduledDate ++
      optField dueGlyphA dueDate ++ tagsField (some tags))

/-- The multi-word-recurrence field set of the C9 counterexample. -/
def cexArgs9 : BuildArgs := { description := str "task", recurrence := some (str "every week") }

/-- Counterexample to claim C9: serializing `description "task"` with the
    multi-word recurrence `"every week"` and re-serializing the parsed Task
    with no overrides is not byte-identical — the rebuilt line is
    `- [ ] task  week 🔁 every`, because the recurrence parse truncates at
    the first whitespace and the recurrence strip removes only `🔁 every`. -/
theorem build_update_not_idempotent_cex :
    buildTaskMarkdown cexArgs9 = str "- [ ] task " ++ recGlyph :: str " every week" ∧
    buildUpdatedTaskLine (buildTaskMarkdown cexArgs9) (str "f.md") 1 noOverrideArgs =
      some (str "- [ ] task  week " ++ recGlyph :: str " every") ∧
    buildUpdatedTaskLine (buildTaskMarkdown cexArgs9) (str "f.md") 1 noOverrideArgs ≠
      some (buildTaskMarkdown cexArgs9) := by decide

/-- A fully-featured field set used as a sanity check. -/
def fullArgs9 : BuildArgs :=
  { description := str "pay the rent"
    dueDate := some (str "2025-05-01")
    scheduledDate := some (str "2025-04-28")
    startDate := some (str "2025-04-20")
    priority := some (str "highest")
    tags := some [str "#home", str "bills"]
    recurrence := some (str "monthly") }

example :
    buildUpdatedTaskLine (buildTaskMarkdown fullArgs9) (str "f.md") 1 noOverrideArgs =
      some (buildTaskMarkdown fullArgs9) := by decide

example :
    buildUpdatedTaskLine (buildTaskMarkdown { description := str "plain" }) (str "f.md") 1
      noOverrideArgs = some (buildTaskMarkdown { description := str "plain" }) := by decide

/-- A replacing scan of the empty string is empty. -/
theorem replaceScanF_nil (m : Str → Option Nat) (fuel : Nat) :
    replaceScanF m fuel [] = [] := by
  cases fuel <;> rfl

/-- An emitting scan of the empty string is empty. -/
theorem scanEmitF_nil (m : Str → Option (Str × Nat)) (fuel : Nat) :
    scanEmitF m fuel [] = [] := by
  cases fuel <;> rfl

/-- Fuel irrelevance for replacing scans with a progress-making matcher. -/
theorem replaceScanF_congr (m : Str → Option Nat) (hm : ∀ s k, m s = some k → 0 < k)
    (bound : Nat) : ∀ s : Str, s.length ≤ bound → ∀ n1 n2 : Nat,
      s.length < n1 → s.length < n2 → replaceScanF m n1 s = replaceScanF m n2 s := by
  induction bound with
  | zero =>
    intro s hs n1 n2 h1 h2
    cases s with
    | nil => rw [replaceScanF_nil, replaceScanF_nil]
    | cons c rest => simp at hs
  | succ bound ih =>
    intro s hs n1 n2 h1 h2
    cases s with
    | nil => rw [replaceScanF_nil, replaceScanF_nil]
    | cons c rest =>
      cases n1 with
      | zero => omega
      | succ a =>
        cases n2 with
        | zero => omega
        | succ b =>
          rw [replaceScanF, replaceScanF]
          cases hmv : m (c :: rest) with
          | none =>
            dsimp only
            rw [ih rest (by simp at hs ⊢; omega) a b (by simp at h1; omega)
              (by simp at h2; omega)]
          | some k =>
            dsimp only
            have hk := hm (c :: rest) k hmv
            have hd : ((c :: rest).drop k).length = (c :: rest).length - k :=
              List.length_drop k _
            exact ih ((c :: rest).drop k) (by simp at hs ⊢; omega) a b
              (by simp at h1 hd ⊢; omega) (by simp at h2 hd ⊢; omega)

/-- One consuming step of a replacing scan. -/
theorem replaceScanF_step (m : Str → Option Nat) (c : Char) (rest : Str) (k fuel : Nat)
    (h : m (c :: rest) = some k) :
    replaceScanF m (fuel + 1) (c :: rest) = replaceScanF m fuel ((c :: rest).drop k) := by
  rw [replaceScanF, h]

/-- A replacing scan is the identity when the matcher fails at every
    position of the string. -/
theorem replaceScanF_id (m : Str → Option Nat) : ∀ s : Str,
    (∀ (c : Char) (q r : Str), s = q ++ c :: r → m (c :: r) = none) →
    ∀ fuel, replaceScanF m fuel s = s := by
  intro s
  induction s with
  | nil => intro _ fuel; exact replaceScanF_nil m fuel
  | cons c rest ih =>
    intro hs fuel
    cases fuel with
    | zero => rfl
    | succ f =>
      rw [replaceScanF, hs c [] rest rfl]
      dsimp only
      rw [ih (fun c2 q r h => hs c2 (c :: q) r (by rw [h]; rfl)) f]

/-- A replacing scan passes over a prefix where the matcher never fires. -/
theorem replaceScanF_pass (m : Str → Option Nat) (hm : ∀ s k, m s = some k → 0 < k) :
    ∀ P T : Str,
      (∀ (c : Char) (q r : Str), P = q ++ c :: r → m (c :: (r ++ T)) = none) →
      ∀ fuel, P.length + T.length < fuel →
        replaceScanF m fuel (P ++ T) = P ++ replaceScanF m (T.length + 1) T := by
  intro P
  induction P with
  | nil =>
    intro T hP fuel hf
    rw [List.nil_append, List.nil_append]
    exact replaceScanF_congr m hm T.length T (Nat.le_refl _) fuel (T.length + 1)
      (by omega) (by omega)
  | cons c P ih =>
    intro T hP fuel hf
    cases fuel with
    | zero => omega
    | succ f =>
      show replaceScanF m (f + 1) (c :: (P ++ T)) = _
      rw [replaceScanF, hP c [] P rfl]
      dsimp only
      rw [ih T (fun c2 q r h => hP c2 (c :: q) r (by rw [h]; rfl)) f (by simp at hf ⊢; omega)]
      rfl

/-- Fuel irrelevance for emitting scans with a progress-making matcher. -/
theorem scanEmitF_congr (m : Str → Option (Str × Nat))
    (hm : ∀ s a k, m s = some (a, k) → 0 < k)
    (bound : Nat) : ∀ s : Str, s.length ≤ bound → ∀ n1 n2 : Nat,
      s.length < n1 → s.length < n2 → scanEmitF m n1 s = scanEmitF m n2 s := by
  induction bound with
  | zero =>
    intro s hs n1 n2 h1 h2
    cases s with
    | nil => rw [scanEmitF_nil, scanEmitF_nil]
    | cons c rest => simp at hs
  | succ bound ih =>
    intro s hs n1 n2 h1 h2
    cases s with
    | nil => rw [scanEmitF_nil, scanEmitF_nil]
    | cons c rest =>
      cases n1 with
      | zero => omega
      | succ a =>
        cases n2 with
        | zero => omega
        | succ b =>
          rw [scanEmitF, scanEmitF]
          cases hmv : m (c :: rest) with
          | none =>
            dsimp only
            rw [ih rest (by simp at hs ⊢; omega) a b (by simp at h1; omega)
              (by simp at h2; omega)]
          | some q =>
            obtain ⟨a0, k⟩ := q
            dsimp only
            have hk := hm (c :: rest) a0 k hmv
            have hd : ((c :: rest).drop k).length = (c :: rest).length - k :=
              List.length_drop k _
            rw [ih ((c :: rest).drop k) (by simp at hs ⊢; omega) a b
              (by simp at h1 hd ⊢; omega) (by simp at h2 hd ⊢; omega)]

/-- One emitting step of an emitting scan. -/
theorem scanEmitF_step (m : Str → Option (Str × Nat)) (c : Char) (rest a : Str)
    (k fuel : Nat) (h : m (c :: rest) = some (a, k)) :
    scanEmitF m (fuel + 1) (c :: rest) = a :: scanEmitF m fuel ((c :: rest).drop k) := by
  rw [scanEmitF, h]

/-- An emitting scan emits nothing when the matcher fails at every
    position of the string. -/
theorem scanEmitF_none_all (m : Str → Option (Str × Nat)) : ∀ s : Str,
    (∀ (c : Char) (q r : Str), s = q ++ c :: r → m (c :: r) = none) →
    ∀ fuel, scanEmitF m fuel s = [] := by
  intro s
  induction s with
  | nil => intro _ fuel; exact scanEmitF_nil m fuel
  | cons c rest ih =>
    intro hs fuel
    cases fuel with
    | zero => rfl
    | succ f =>
      rw [scanEmitF, hs c [] rest rfl]
      dsimp only
      exact ih (fun c2 q r h => hs c2 (c :: q) r (by rw [h]; rfl)) f

/-- An emitting scan passes over a prefix where the matcher never fires. -/
theorem scanEmitF_pass (m : Str → Option (Str × Nat))
    (hm : ∀ s a k, m s = some (a, k) → 0 < k) :
    ∀ P T : Str,
      (∀ (c : Char) (q r : Str), P = q ++ c :: r → m (c :: (r ++ T)) = none) →
      ∀ fuel, P.length + T.length < fuel →
        scanEmitF m fuel (P ++ T) = scanEmitF m (T.length + 1) T := by
  intro P
  induction P with
  | nil =>
    intro T hP fuel hf
    rw [List.nil_append]
    exact scanEmitF_congr m hm T.length T (Nat.le_refl _) fuel (T.length + 1)
      (by omega) (by omega)
  | cons c P ih =>
    intro T hP fuel hf
    cases fuel with
    | zero => omega
    | succ f =>
      show scanEmitF m (f + 1) (c :: (P ++ T)) = _
      rw [scanEmitF, hP c [] P rfl]
      dsimp only
      exact ih T (fun c2 q r h => hP c2 (c :: q) r (by rw [h]; rfl)) f (by simp at hf ⊢; omega)

/-- Characters with no metadata role: not whitespace, not `#`, and none of
    the recognized glyphs.  Field sets built from such characters (plus
    spaces in the description) round-trip through parse and re-serialize. -/
def plainChar (c : Char) : Bool :=
  !isWS c && !(c = '#') && !(c = dueGlyphA) && !(c = dueGlyphB) && !(c = varSel) &&
  !(c = schedGlyph) && !(c = startGlyph) && !(c = createdGlyph) && !(c = recGlyph) &&
  !(c = hiGlyph) && !(c = medGlyph) && !(c = lowGlyph) && !(c = lowestGlyph)

/-- What `plainChar` guarantees, unpacked. -/
theorem plainChar_spec (c : Char) (h : plainChar c = true) :
    isWS c = false ∧ ¬c = '#' ∧ ¬c = dueGlyphA ∧ ¬c = dueGlyphB ∧ ¬c = varSel ∧
    ¬c = schedGlyph ∧ ¬c = startGlyph ∧ ¬c = createdGlyph ∧ ¬c = recGlyph ∧
    ¬c = hiGlyph ∧ ¬c = medGlyph ∧ ¬c = lowGlyph ∧ ¬c = lowestGlyph := by
  rw [plainChar] at h
  simp only [Bool.and_eq_true, Bool.not_eq_true', decide_eq_false_iff_not] at h
  tauto

/-- Description characters: spaces are also allowed. -/
def plainOrSpace (c : Char) : Bool := c = ' ' || plainChar c

/-- A well-formed tag argument: after the optional `#` prefix, a non-empty
    body of metadata-free tag characters. -/
def goodTag (tg : Str) : Bool :=
  let body := if startsWithStr ['#'] tg then tg.drop 1 else tg
  !body.isEmpty && body.all (fun c => plainChar c && tagChar c)

/-- A well-formed optional date argument. -/
def goodOptDate (o : Option Str) : Bool :=
  match o with
  | none => true
  | some ds => dateOk ds

/-- A well-formed optional recurrence argument: one non-empty
    whitespace-free token of metadata-free characters. -/
def goodOptRec (o : Option Str) : Bool :=
  match o with
  | none => true
  | some r => !r.isEmpty && r.all (fun c => plainChar c)

/-- A well-formed optional priority argument: absent or one of the five
    recognized names. -/
def goodOptPriority (o : Option Str) : Bool :=
  match o with
  | none => true
  | some p =>
    p = str "highest" || p = str "high" || p = str "medium" || p = str "low" ||
      p = str "lowest"

/-- A well-formed optional tag-list argument. -/
def goodTags (o : Option (List Str)) : Bool :=
  match o with
  | none => true
  | some ts => ts.all (fun tg => goodTag tg)

/-- The field sets for which re-serialization is byte-identical: a
    non-empty, trimmed, metadata-free description; a valid priority name;
    a single-token recurrence; shape-valid dates; well-formed tags. -/
def goodArgs (F : BuildArgs) : Bool :=
  !F.description.isEmpty && decide (trim F.description = F.description) &&
  F.description.all (fun c => plainOrSpace c) &&
  goodOptPriority F.priority && goodOptRec F.recurrence && goodOptDate F.startDate &&
  goodOptDate F.scheduledDate && goodOptDate F.dueDate && goodTags F.tags

/-- The characters of a well-shaped date are digits and dashes. -/
theorem parseDate8_chars (s p rest : Str) (h : parseDate8 s = some (p, rest)) :
    ∀ c ∈ p, isDigit c = true ∨ c = '-' := by
  rw [parseDate8] at h
  cases h4 : parseDigits 4 s with
  | none => rw [h4] at h; exact absurd h (by simp)
  | some q1 =>
    obtain ⟨d1, r1⟩ := q1
    rw [h4] at h
    dsimp only at h
    cases hd1 : parseDash r1 with
    | none => rw [hd1] at h; exact absurd h (by simp)
    | some r2 =>
      rw [hd1] at h
      dsimp only at h
      cases h2 : parseDigits 2 r2 with
      | none => rw [h2] at h; exact absurd h (by simp)
      | some q2 =>
        obtain ⟨d2, r3⟩ := q2
        rw [h2] at h
        dsimp only at h
        cases hd2 : parseDash r3 with
        | none => rw [hd2] at h; exact absurd h (by simp)
        | some r4 =>
          rw [hd2] at h
          dsimp only at h
          cases h3 : parseDigits 2 r4 with
          | none => rw [h3] at h; exact absurd h (by simp)
          | some q3 =>
            obtain ⟨d3, r5⟩ := q3
            rw [h3] at h
            dsimp only at h
            injection h with h
            obtain ⟨hp, -⟩ := Prod.mk.inj h
            obtain ⟨-, -, hall1⟩ := parseDigits_decomp 4 s d1 r1 h4
            obtain ⟨-, -, hall2⟩ := parseDigits_decomp 2 r2 d2 r3 h2
            obtain ⟨-, -, hall3⟩ := parseDigits_decomp 2 r4 d3 r5 h3
            intro c hc
            rw [← hp] at hc
            rcases List.mem_append.mp hc with hcl | hcr
            · rcases List.mem_append.mp hcl with hc1 | hc2
              · exact Or.inl (hall1 c hc1)
              · rcases List.mem_cons.mp hc2 with rfl | hc3
                · exact Or.inr rfl
                · exact Or.inl (hall2 c hc3)
            · rcases List.mem_cons.mp hcr with rfl | hc6
              · exact Or.inr rfl
              · exact Or.inl (hall3 c hc6)

/-- Digits and dashes are metadata-free characters. -/
theorem plainChar_digit_dash (c : Char) (h : isDigit c = true ∨ c = '-') :
    plainChar c = true := by
  have hv : c.toNat = 45 ∨ (48 ≤ c.toNat ∧ c.toNat ≤ 57) := by
    rcases h with h | h
    · rw [isDigit] at h
      simp only [Bool.and_eq_true, decide_eq_true_eq] at h
      exact Or.inr h
    · rw [h]
      exact Or.inl rfl
  rw [plainChar]
  simp only [Bool.and_eq_true, Bool.not_eq_true', decide_eq_false_iff_not]
  have hws : isWS c = false := by
    rw [isWS, Bool.eq_false_iff]
    intro hcon
    simp only [Bool.or_eq_true, Bool.and_eq_true, decide_eq_true_eq] at hcon
    omega
  have hne : ∀ X : Char, c.toNat ≠ X.toNat → ¬c = X :=
    fun X h hc => h (congrArg Char.toNat hc)
  refine ⟨⟨⟨⟨⟨⟨⟨⟨⟨⟨⟨⟨hws, ?_⟩, ?_⟩, ?_⟩, ?_⟩, ?_⟩, ?_⟩, ?_⟩, ?_⟩, ?_⟩, ?_⟩, ?_⟩, ?_⟩
  · exact hne '#' (by rw [show ('#' : Char).toNat = 35 from by decide]; omega)
  · exact hne dueGlyphA (by rw [show dueGlyphA.toNat = 0x1F4C5 from by decide]; omega)
  · exact hne dueGlyphB (by rw [show dueGlyphB.toNat = 0x1F5D3 from by decide]; omega)
  · exact hne varSel (by rw [show varSel.toNat = 0xFE0F from by decide]; omega)
  · exact hne schedGlyph (by rw [show schedGlyph.toNat = 0x23F3 from by decide]; omega)
  · exact hne startGlyph (by rw [show startGlyph.toNat = 0x1F6EB from by decide]; omega)
  · exact hne createdGlyph (by rw [show createdGlyph.toNat = 0x2795 from by decide]; omega)
  · exact hne recGlyph (by rw [show recGlyph.toNat = 0x1F501 from by decide]; omega)
  · exact hne hiGlyph (by rw [show hiGlyph.toNat = 0x23EB from by decide]; omega)
  · exact hne medGlyph (by rw [show medGlyph.toNat = 0x1F53C from by decide]; omega)
  · exact hne lowGlyph (by rw [show lowGlyph.toNat = 0x1F53D from by decide]; omega)
  · exact hne lowestGlyph (by rw [show lowestGlyph.toNat = 0x23EC from by decide]; omega)

/-- All-satisfying lists are fixed by `takeWhile`. -/
theorem takeWhile_all (p : Char → Bool) (l : Str) (h : ∀ x ∈ l, p x = true) :
    l.takeWhile p = l := by
  induction l with
  | nil => rfl
  | cons c l ih =>
    rw [List.takeWhile_cons, if_pos (h c (List.mem_cons_self c l)),
      ih (fun x hx => h x (List.mem_cons_of_mem c hx))]

/-- `dropWhile` skips an all-satisfying prefix. -/
theorem dropWhile_append_all (p : Char → Bool) (a b : Str) (h : ∀ x ∈ a, p x = true) :
    (a ++ b).dropWhile p = b.dropWhile p := by
  induction a with
  | nil => rfl
  | cons c a ih =>
    rw [List.cons_append, List.dropWhile_cons, if_pos (h c (List.mem_cons_self c a))]
    exact ih (fun x hx => h x (List.mem_cons_of_mem c hx))

/-- `dropWhile` keeps a list whose head fails the predicate. -/
theorem dropWhile_cons_neg (p : Char → Bool) (c : Char) (l : Str) (h : p c = false) :
    (c :: l).dropWhile p = c :: l := by
  rw [List.dropWhile_cons, if_neg (by rw [h]; exact Bool.false_ne_true)]

/-- A `dropWhile` of unchanged length dropped nothing. -/
theorem dropWhile_eq_self_of_length (p : Char → Bool) (l : Str)
    (h : (l.dropWhile p).length = l.length) : l.dropWhile p = l := by
  cases l with
  | nil => rfl
  | cons c l =>
    by_cases hc : p c = true
    · exfalso
      rw [List.dropWhile_cons, if_pos hc] at h
      have := dropWhile_length_le p l
      simp at h
      omega
    · rw [List.dropWhile_cons, if_neg hc]

/-- `trimRight` never lengthens. -/
theorem trimRight_length_le (s : Str) : (trimRight s).length ≤ s.length := by
  rw [trimRight]
  calc (s.reverse.dropWhile (fun c => isWS c)).reverse.length
      = (s.reverse.dropWhile (fun c => isWS c)).length := List.length_reverse _
    _ ≤ s.reverse.length := dropWhile_length_le _ _
    _ = s.length := List.length_reverse _

/-- A trim-fixed string is also fixed by `trimLeft` alone. -/
theorem trimLeft_eq_of_trim (s : Str) (h : trim s = s) : trimLeft s = s := by
  apply dropWhile_eq_self_of_length
  have h1 : (trim s).length = s.length := by rw [h]
  rw [trim] at h1
  have h2 := trimRight_length_le (trimLeft s)
  have h3 := dropWhile_length_le (fun c => isWS c) s
  rw [trimLeft] at h1 h2
  omega

/-- A trim-fixed string is also fixed by `trimRight` alone. -/
theorem trimRight_eq_of_trim (s : Str) (h : trim s = s) : trimRight s = s := by
  have h1 := trimLeft_eq_of_trim s h
  rw [trim, h1] at h
  exact h

/-- The head of a non-empty trim-fixed string is not whitespace. -/
theorem trim_fixed_head (s : Str) (c : Char) (rest : Str) (hs : trim s = s)
    (he : s = c :: rest) : isWS c = false := by
  by_contra hws
  rw [Bool.not_eq_false] at hws
  have h1 := trimLeft_eq_of_trim s hs
  rw [he, trimLeft, List.dropWhile_cons, if_pos hws] at h1
  have := dropWhile_length_le (fun x => isWS x) rest
  have h2 := congrArg List.length h1
  simp at h2
  omega

/-- The last character of a trim-fixed string is not whitespace. -/
theorem trim_fixed_last (s : Str) (e : Char) (hs : trim s = s)
    (hl : s.getLast? = some e) : isWS e = false := by
  by_contra hws
  rw [Bool.not_eq_false] at hws
  have hne : s ≠ [] := by
    intro hnil
    rw [hnil] at hl
    exact nomatch hl
  have hsplit : s.dropLast ++ [e] = s := by
    have := List.dropLast_append_getLast hne
    rw [List.getLast?_eq_getLast s hne] at hl
    injection hl with hl
    rw [hl] at this
    exact this
  have h1 := trimRight_eq_of_trim s hs
  have hx : trimRight (s.dropLast ++ [e]) = trimRight s.dropLast := by
    rw [trimRight, trimRight, List.reverse_append]
    simp only [List.reverse_cons, List.reverse_nil, List.nil_append, List.singleton_append]
    rw [List.dropWhile_cons, if_pos hws]
  rw [← hsplit, hx] at h1
  have h2 := congrArg List.length h1
  rw [List.length_append, List.length_singleton] at h2
  have h3 := trimRight_length_le s.dropLast
  omega

/-- `trimLeft` keeps a string with a non-whitespace head. -/
theorem trimLeft_cons_nonws (c : Char) (x : Str) (h : isWS c = false) :
    trimLeft (c :: x) = c :: x := by
  rw [trimLeft]
  exact dropWhile_cons_neg _ c x h

/-- `trimRight` keeps a string with a non-whitespace last character. -/
theorem trimRight_append_nonws (x : Str) (e : Char) (h : isWS e = false) :
    trimRight (x ++ [e]) = x ++ [e] := by
  rw [trimRight, List.reverse_append]
  simp only [List.reverse_cons, List.reverse_nil, List.nil_append, List.singleton_append]
  rw [dropWhile_cons_neg _ e x.reverse h]
  simp

/-- A string with non-whitespace head and last character is trim-fixed. -/
theorem trim_eq_self (s : Str) (hh : ∀ c, s.head? = some c → isWS c = false)
    (hl : ∀ c, s.getLast? = some c → isWS c = false) : trim s = s := by
  cases s with
  | nil => rfl
  | cons a rest =>
    have ha : isWS a = false := hh a rfl
    rw [trim, trimLeft_cons_nonws a rest ha]
    have hne : (a :: rest) ≠ [] := by simp
    have hsplit : (a :: rest).dropLast ++ [(a :: rest).getLast hne] = a :: rest :=
      List.dropLast_append_getLast hne
    have hlast : isWS ((a :: rest).getLast hne) = false :=
      hl _ (List.getLast?_eq_getLast _ hne)
    rw [← hsplit]
    exact trimRight_append_nonws _ _ hlast

/-- Appending trailing whitespace does not change the trim of a non-empty
    trim-fixed string. -/
theorem trim_append_ws (d spc : Str) (hd : trim d = d) (hne : d ≠ [])
    (hws : ∀ c ∈ spc, isWS c = true) : trim (d ++ spc) = d := by
  obtain ⟨a, rest, rfl⟩ : ∃ a rest, d = a :: rest := by
    cases d with
    | nil => exact absurd rfl hne
    | cons a rest => exact ⟨a, rest, rfl⟩
  have ha : isWS a = false := trim_fixed_head _ a rest hd rfl
  rw [trim, List.cons_append, trimLeft_cons_nonws a _ ha, ← List.cons_append]
  rw [trimRight, List.reverse_append]
  rw [dropWhile_append_all _ spc.reverse _ (fun x hx => hws x (List.mem_reverse.mp hx))]
  have : (a :: rest).reverse.dropWhile (fun c => isWS c) = (a :: rest).reverse := by
    have h1 := trimRight_eq_of_trim _ hd
    rw [trimRight] at h1
    have h2 := congrArg List.reverse h1
    rw [List.reverse_reverse] at h2
    exact h2
  rw [this, List.reverse_reverse]

/-- `getLast?` of an append with a non-empty right part. -/
theorem getLast?_append_right (a b : Str) (hb : b ≠ []) :
    (a ++ b).getLast? = b.getLast? := by
  rw [List.getLast?_append, List.getLast?_eq_getLast b hb]
  rfl

/-- Line terminators are whitespace. -/
theorem ws_of_lineTerm (c : Char) (h : isLineTerm c = true) : isWS c = true := by
  rw [isLineTerm] at h
  rw [isWS]
  simp only [Bool.or_eq_true, Bool.and_eq_true, decide_eq_true_eq] at h ⊢
  omega

/-- Non-whitespace characters are not line terminators. -/
theorem not_lineTerm_of_not_ws (c : Char) (h : isWS c = false) : isLineTerm c = false := by
  by_contra hc
  rw [Bool.not_eq_false] at hc
  rw [ws_of_lineTerm c hc] at h
  exact absurd h (by decide)

/-- Matching `taskRegex` against a canonical `- [ ] <content>` line whose
    content neither starts with whitespace nor contains a line terminator
    captures no indentation, the `-` marker, the space status and exactly
    the content. -/
theorem taskRegexMatch_canonical (D0 : Str)
    (hh : ∀ c, D0.head? = some c → isWS c = false)
    (hlt : ∀ c ∈ D0, isLineTerm c = false) :
    taskRegexMatch (str "- [ ] " ++ D0) = some ([], ['-'], ' ', D0) := by
  have hdrop : List.dropWhile (fun x => decide (x = ' ')) D0 = D0 := by
    cases D0 with
    | nil => rfl
    | cons c r =>
      apply dropWhile_cons_neg
      have hc := hh c rfl
      simp only [decide_eq_false_iff_not]
      intro hceq
      rw [hceq] at hc
      exact absurd hc (by decide)
  have htake : List.takeWhile (fun x => !isLineTerm x) D0 = D0 :=
    takeWhile_all _ _ (fun x hx => by rw [hlt x hx]; rfl)
  show taskRegexMatch ('-' :: ' ' :: '[' :: ' ' :: ']' :: ' ' :: D0) = _
  rw [taskRegexMatch]
  rw [show List.takeWhile (fun c => isIndentChar c)
    ('-' :: ' ' :: '[' :: ' ' :: ']' :: ' ' :: D0) = [] from by
      rw [List.takeWhile_cons, if_neg (by decide)]]
  rw [show List.dropWhile (fun c => isIndentChar c)
    ('-' :: ' ' :: '[' :: ' ' :: ']' :: ' ' :: D0) =
      '-' :: ' ' :: '[' :: ' ' :: ']' :: ' ' :: D0 from
        dropWhile_cons_neg _ _ _ (by decide)]
  rw [show parseMarkerM ('-' :: ' ' :: '[' :: ' ' :: ']' :: ' ' :: D0) =
      some (['-'], ' ' :: '[' :: ' ' :: ']' :: ' ' :: D0) from by
        rw [parseMarkerM, if_pos (by decide)]]
  dsimp only
  rw [show List.takeWhile (fun c => decide (c = ' '))
    (' ' :: '[' :: ' ' :: ']' :: ' ' :: D0) = [' '] from by
      rw [List.takeWhile_cons, if_pos (by decide), List.takeWhile_cons, if_neg (by decide)]]
  rw [show List.dropWhile (fun c => decide (c = ' '))
    (' ' :: '[' :: ' ' :: ']' :: ' ' :: D0) = '[' :: ' ' :: ']' :: ' ' :: D0 from by
      rw [List.dropWhile_cons, if_pos (by decide)]
      exact dropWhile_cons_neg _ _ _ (by decide)]
  rw [if_neg (by decide : ¬List.isEmpty [' '] = true)]
  split
  · rename_i c r4 heq
    simp only [List.cons.injEq, true_and] at heq
    obtain ⟨hc, hr⟩ := heq
    subst hc
    subst hr
    rw [if_neg (by decide : ¬isLineTerm ' ' = true)]
    rw [show List.dropWhile (fun x => decide (x = ' ')) (' ' :: D0) = D0 from by
      rw [List.dropWhile_cons, if_pos (by decide)]
      exact hdrop]
    rw [htake]
  · rename_i hno
    exact (hno ' ' (' ' :: D0) rfl).elim

/-- Parsing a canonical `- [ ] <content>` line succeeds with the expected
    `mkTask` result. -/
theorem parseTaskLine_canonical (D0 fp : Str) (ln : Nat)
    (hh : ∀ c, D0.head? = some c → isWS c = false)
    (hlt : ∀ c ∈ D0, isLineTerm c = false) :
    parseTaskLine (str "- [ ] " ++ D0) fp ln =
      some (mkTask fp ln (str "- [ ] " ++ D0) ' ' D0) := by
  rw [parseTaskLine, taskRegexMatch_canonical D0 hh hlt]

/-- The indent/marker match of `update_task` on a canonical line. -/
theorem indentMarkerMatch_dash (rest : Str) :
    indentMarkerMatch ('-' :: rest) = ([], ['-']) := by
  rw [indentMarkerMatch]
  rw [show List.dropWhile (fun c => isIndentChar c) ('-' :: rest) = '-' :: rest from
    dropWhile_cons_neg _ _ _ (by decide)]
  rw [show parseMarkerM ('-' :: rest) = some (['-'], rest) from by
    rw [parseMarkerM, if_pos (by decide)]]
  rw [show List.takeWhile (fun c => isIndentChar c) ('-' :: rest) = [] from by
    rw [List.takeWhile_cons, if_neg (by decide)]]

/-- The priority scan skips characters that are no priority glyph. -/
theorem findPriority_cons_free (c : Char) (rest : Str)
    (h1 : ¬c = hiGlyph) (h2 : ¬c = medGlyph) (h3 : ¬c = lowGlyph) (h4 : ¬c = lowestGlyph) :
    findPriority (c :: rest) = findPriority rest := by
  rw [findPriority, if_neg h1, if_neg h2, if_neg h3, if_neg h4]

/-- The priority scan skips prefixes free of priority glyphs. -/
theorem findPriority_append_free (a b : Str)
    (h : ∀ c ∈ a, ¬c = hiGlyph ∧ ¬c = medGlyph ∧ ¬c = lowGlyph ∧ ¬c = lowestGlyph) :
    findPriority (a ++ b) = findPriority b := by
  induction a with
  | nil => rfl
  | cons x a ih =>
    obtain ⟨x1, x2, x3, x4⟩ := h x (List.mem_cons_self x a)
    rw [List.cons_append, findPriority_cons_free x _ x1 x2 x3 x4]
    exact ih (fun c hc => h c (List.mem_cons_of_mem x hc))

/-- The priority scan finds nothing in a glyph-free string. -/
theorem findPriority_eq_none (s : Str)
    (h : ∀ c ∈ s, ¬c = hiGlyph ∧ ¬c = medGlyph ∧ ¬c = lowGlyph ∧ ¬c = lowestGlyph) :
    findPriority s = none := by
  have := findPriority_append_free s [] h
  simpa using this

/-- The recurrence scan finds nothing in a glyph-free string. -/
theorem findRecurrence_eq_none (s : Str) (h : recGlyph ∉ s) :
    findRecurrence s = none := by
  have := findRecurrence_append_free s [] h
  simpa using this

/-- The glyph-date scan finds nothing in a glyph-free string. -/
theorem findGlyphDate_eq_none (glyphs : List Char) (s : Str)
    (h : ∀ c ∈ s, glyphs.contains c = false) :
    findGlyphDate glyphs s = none := by
  have := findGlyphDate_append_free glyphs s [] h
  simpa using this

/-- The `#`-normalization applied to each tag by the serializers. -/
def formatTag (tg : Str) : Str := if startsWithStr ['#'] tg then tg else '#' :: tg

/-- The serialized tag section as a direct recursion: a space before every
    formatted tag. -/
def tagsStr : List Str → Str
  | [] => []
  | t :: rest => ' ' :: (t ++ tagsStr rest)

/-- The joined tag section equals the direct recursion. -/
theorem joinSpace_cons_eq_tagsStr : ∀ l : List Str, l ≠ [] →
    ' ' :: joinSpace l = tagsStr l := by
  intro l
  induction l with
  | nil => intro h; exact absurd rfl h
  | cons t rest ih =>
    intro _
    cases rest with
    | nil => rfl
    | cons t2 rest2 =>
      show ' ' :: joinSpace (t :: t2 :: rest2) = ' ' :: (t ++ tagsStr (t2 :: rest2))
      rw [show joinSpace (t :: t2 :: rest2) = t ++ ' ' :: joinSpace (t2 :: rest2) from rfl]
      rw [← ih (by simp)]

/-- A good tag formats to `#` followed by a non-empty metadata-free body. -/
theorem formatTag_spec (tg : Str) (h : goodTag tg = true) :
    ∃ body, formatTag tg = '#' :: body ∧ body ≠ [] ∧
      ∀ c ∈ body, plainChar c = true ∧ tagChar c = true := by
  rw [goodTag] at h
  by_cases hs : startsWithStr ['#'] tg = true
  · rw [if_pos hs] at h
    rw [Bool.and_eq_true] at h
    obtain ⟨h1, h2⟩ := h
    refine ⟨tg.drop 1, ?_, ?_, ?_⟩
    · rw [formatTag, if_pos hs]
      exact startsWithStr_decomp ['#'] tg hs
    · intro hnil
      rw [hnil] at h1
      exact absurd h1 (by decide)
    · intro c hc
      have := List.all_eq_true.mp h2 c hc
      rw [Bool.and_eq_true] at this
      exact this
  · rw [if_neg hs] at h
    rw [Bool.and_eq_true] at h
    obtain ⟨h1, h2⟩ := h
    refine ⟨tg, ?_, ?_, ?_⟩
    · rw [formatTag, if_neg hs]
    · intro hnil
      rw [hnil] at h1
      exact absurd h1 (by decide)
    · intro c hc
      have := List.all_eq_true.mp h2 c hc
      rw [Bool.and_eq_true] at this
      exact this

/-- A formatted good tag starts with `#`. -/
theorem formatTag_starts (tg : Str) : startsWithStr ['#'] (formatTag tg) = true := by
  rw [formatTag]
  by_cases hs : startsWithStr ['#'] tg = true
  · rw [if_pos hs]
    exact hs
  · rw [if_neg hs]
    rw [startsWithStr]
    simp [startsWithStr]

/-- Formatting is the identity on already-`#`-prefixed tags. -/
theorem map_formatTag_id (ft : List Str) (h : ∀ t ∈ ft, startsWithStr ['#'] t = true) :
    ft.map formatTag = ft := by
  induction ft with
  | nil => rfl
  | cons t rest ih =>
    rw [List.map_cons, ih (fun x hx => h x (List.mem_cons_of_mem t hx))]
    rw [formatTag, if_pos (h t (List.mem_cons_self t rest))]

/-- Characters of the serialized tag section. -/
theorem mem_tagsStr (ft : List Str) (c : Char)
    (hft : ∀ t ∈ ft, ∃ body, t = '#' :: body ∧ body ≠ [] ∧
      ∀ x ∈ body, plainChar x = true ∧ tagChar x = true)
    (hc : c ∈ tagsStr ft) :
    c = ' ' ∨ c = '#' ∨ (plainChar c = true ∧ tagChar c = true) := by
  induction ft with
  | nil => exact absurd hc (List.not_mem_nil c)
  | cons t rest ih =>
    rw [tagsStr] at hc
    rcases List.mem_cons.mp hc with rfl | hc2
    · exact Or.inl rfl
    · rcases List.mem_append.mp hc2 with hc3 | hc4
      · obtain ⟨body, rfl, -, hbody⟩ := hft t (List.mem_cons_self t rest)
        rcases List.mem_cons.mp hc3 with rfl | hc5
        · exact Or.inr (Or.inl rfl)
        · exact Or.inr (Or.inr (hbody c hc5))
      · exact ih (fun x hx => hft x (List.mem_cons_of_mem t hx)) hc4

/-- The last character of a non-empty serialized tag section is not
    whitespace. -/
theorem tagsStr_last (ft : List Str)
    (hft : ∀ t ∈ ft, ∃ body, t = '#' :: body ∧ body ≠ [] ∧
      ∀ x ∈ body, plainChar x = true ∧ tagChar x = true) :
    ∀ c, (tagsStr ft).getLast? = some c → isWS c = false := by
  induction ft with
  | nil => intro c hc; exact nomatch hc
  | cons t rest ih =>
    intro c hc
    obtain ⟨body, hteq, hbne, hbody⟩ := hft t (List.mem_cons_self t rest)
    rw [tagsStr] at hc
    cases rest with
    | cons r1 rest2 =>
      rw [show (' ' :: (t ++ tagsStr (r1 :: rest2))) = (' ' :: t) ++ tagsStr (r1 :: rest2)
        from by simp, getLast?_append_right _ _ (by rw [tagsStr]; simp)] at hc
      exact ih (fun x hx => hft x (List.mem_cons_of_mem t hx)) c hc
    | nil =>
      rw [tagsStr] at hc
      rw [show (' ' :: (t ++ [])) = (' ' :: '#' :: body) from by rw [hteq]; simp] at hc
      rw [show (' ' :: '#' :: body) = (' ' :: '#' :: []) ++ body from by simp,
        getLast?_append_right _ _ hbne] at hc
      have hmem : c ∈ body := by
        cases body with
        | nil => exact absurd rfl hbne
        | cons b0 brest =>
          have := List.getLast?_eq_getLast (b0 :: brest) (by simp)
          rw [this] at hc
          injection hc with hc
          rw [← hc]
          exact List.getLast_mem _
      exact (plainChar_spec c (hbody c hmem).1).1

/-- Digits are characters of code point at most 57. -/
theorem digit_toNat_le (c : Char) (h : isDigit c = true) : c.toNat ≤ 57 := by
  rw [isDigit] at h
  simp only [Bool.and_eq_true, decide_eq_true_eq] at h
  exact h.2

/-- A digit never equals a character beyond code point 57. -/
theorem digit_ne (c g : Char) (hc : isDigit c = true) (hg : 57 < g.toNat) : ¬c = g := by
  intro h
  subst h
  have := digit_toNat_le c hc
  omega

/-- The optional last element of a list is a member. -/
theorem mem_of_getLast? (l : Str) (c : Char) (h : l.getLast? = some c) : c ∈ l := by
  cases l with
  | nil => exact nomatch h
  | cons a rest =>
    rw [List.getLast?_eq_getLast (a :: rest) (by simp)] at h
    injection h with h
    rw [← h]
    exact List.getLast_mem _

/-- The serialized tag field of a non-empty tag list. -/
theorem tagsField_some (ts : List Str) (h : ts ≠ []) :
    tagsField (some ts) = tagsStr (ts.map formatTag) := by
  have hm : ts.map formatTag ≠ [] := by
    cases ts with
    | nil => exact absurd rfl h
    | cons a l => simp
  rw [show tagsField (some ts) =
    if ts.isEmpty then [] else ' ' :: joinSpace (ts.map formatTag) from rfl]
  rw [if_neg (by simp [List.isEmpty_iff, h])]
  exact joinSpace_cons_eq_tagsStr _ hm

/-- The priority scan at a doubled high glyph yields `highest`. -/
theorem findPriority_hi2 (rest : Str) :
    findPriority (hiGlyph :: hiGlyph :: rest) = some Priority.highest := by
  rw [findPriority, if_pos rfl,
    if_pos (show (hiGlyph :: rest).head? = some hiGlyph from rfl)]

/-- The priority scan at a single high glyph yields `high`. -/
theorem findPriority_hi1 (rest : Str) (h : ¬rest.head? = some hiGlyph) :
    findPriority (hiGlyph :: rest) = some Priority.high := by
  rw [findPriority, if_pos rfl, if_neg h]

/-- The priority scan at a medium glyph. -/
theorem findPriority_med (rest : Str) :
    findPriority (medGlyph :: rest) = some Priority.medium := by
  rw [findPriority, if_neg (by decide), if_pos rfl]

/-- The priority scan at a low glyph. -/
theorem findPriority_low (rest : Str) :
    findPriority (lowGlyph :: rest) = some Priority.low := by
  rw [findPriority, if_neg (by decide), if_neg (by decide), if_pos rfl]

/-- The priority scan at a lowest glyph. -/
theorem findPriority_lowest (rest : Str) :
    findPriority (lowestGlyph :: rest) = some Priority.lowest := by
  rw [findPriority, if_neg (by decide), if_neg (by decide), if_neg (by decide), if_pos rfl]

/-- Characters of an optional serialized field. -/
theorem mem_optField (g : Char) (o : Option Str) (c : Char) (h : c ∈ optField g o) :
    c = ' ' ∨ c = g ∨ ∃ v, o = some v ∧ c ∈ v := by
  cases o with
  | none => exact absurd h (List.not_mem_nil c)
  | some v =>
    rw [optField] at h
    by_cases hv : v.isEmpty = true
    · rw [if_pos hv] at h
      exact absurd h (List.not_mem_nil c)
    · rw [if_neg hv] at h
      rcases List.mem_cons.mp h with rfl | h2
      · exact Or.inl rfl
      rcases List.mem_cons.mp h2 with rfl | h3
      · exact Or.inr (Or.inl rfl)
      rcases List.mem_cons.mp h3 with rfl | h4
      · exact Or.inl rfl
      · exact Or.inr (Or.inr ⟨v, rfl, h4⟩)

/-- Characters of the serialized priority field of a valid priority name. -/
theorem mem_priorityField (o : Option Str) (c : Char) (hgood : goodOptPriority o = true)
    (h : c ∈ priorityField o) :
    c = ' ' ∨ c = hiGlyph ∨ c = medGlyph ∨ c = lowGlyph ∨ c = lowestGlyph := by
  cases o with
  | none => exact absurd h (List.not_mem_nil c)
  | some p =>
    rw [goodOptPriority] at hgood
    simp only [Bool.or_eq_true, decide_eq_true_eq] at hgood
    rcases hgood with (((rfl | rfl) | rfl) | rfl) | rfl
    · rw [show priorityField (some (str "highest")) = [' ', hiGlyph, hiGlyph] from by decide] at h
      simp only [List.mem_cons, List.not_mem_nil, or_false] at h
      tauto
    · rw [show priorityField (some (str "high")) = [' ', hiGlyph] from by decide] at h
      simp only [List.mem_cons, List.not_mem_nil, or_false] at h
      tauto
    · rw [show priorityField (some (str "medium")) = [' ', medGlyph] from by decide] at h
      simp only [List.mem_cons, List.not_mem_nil, or_false] at h
      tauto
    · rw [show priorityField (some (str "low")) = [' ', lowGlyph] from by decide] at h
      simp only [List.mem_cons, List.not_mem_nil, or_false] at h
      tauto
    · rw [show priorityField (some (str "lowest")) = [' ', lowestGlyph] from by decide] at h
      simp only [List.mem_cons, List.not_mem_nil, or_false] at h
      tauto

/-- Trimming a space-prefixed well-formed tag only removes the space. -/
theorem trim_space_tag (body : Str) (hbne : body ≠ [])
    (hbody : ∀ c ∈ body, plainChar c = true) :
    trim (' ' :: '#' :: body) = '#' :: body := by
  have h2 : trimLeft ('#' :: body) = '#' :: body :=
    trimLeft_cons_nonws '#' body (by decide)
  have h3 : trim ('#' :: body) = '#' :: body := by
    apply trim_eq_self
    · intro c hc
      have : '#' = c := by injection hc
      rw [← this]
      decide
    · intro c hc
      rw [show ('#' :: body) = ['#'] ++ body from rfl,
        getLast?_append_right _ _ hbne] at hc
      exact (plainChar_spec c (hbody c (mem_of_getLast? body c hc))).1
  rw [trim, trimLeft, List.dropWhile_cons, if_pos (by decide)]
  rw [show List.dropWhile (fun c => isWS c) ('#' :: body) = '#' :: body from
    dropWhile_cons_neg _ _ _ (by decide)]
  rw [trim, h2] at h3
  exact h3

/-- The mid-string tag matcher fails when the second character is not `#`. -/
theorem tagMatcherMid_none_second (c c2 : Char) (r : Str) (h : ¬c2 = '#') :
    tagMatcherMid (c :: c2 :: r) = none := by
  rw [tagMatcherMid]
  rw [if_neg (by simp [h] : ¬(isWS c && c2 = '#') = true)]

/-- The mid-string tag matcher fails on a single character. -/
theorem tagMatcherMid_single (c : Char) : tagMatcherMid [c] = none := rfl

/-- The mid-string tag matcher at a space-then-tag position. -/
theorem tagMatcherMid_at (body tail : Str) (hbne : body ≠ [])
    (hchars : ∀ c ∈ body, tagChar c = true)
    (hstop : tail = [] ∨ ∃ w r, tail = w :: r ∧ tagChar w = false) :
    tagMatcherMid (' ' :: '#' :: (body ++ tail)) =
      some (' ' :: '#' :: body, 2 + body.length) := by
  have hrun : (body ++ tail).takeWhile (fun x => tagChar x) = body := by
    rcases hstop with rfl | ⟨w, r, rfl, hw⟩
    · rw [List.append_nil]
      exact takeWhile_all _ _ hchars
    · exact takeWhile_append_stop _ _ _ _ hchars hw
  rw [tagMatcherMid, if_pos (by decide : (isWS ' ' && '#' = '#') = true)]
  dsimp only
  rw [hrun]
  rw [if_neg (by simp [List.isEmpty_iff, hbne])]

/-- The mid-string tag matcher consumes at least one character. -/
theorem tagMatcherMid_pos (s a : Str) (k : Nat) (h : tagMatcherMid s = some (a, k)) :
    0 < k := by
  cases s with
  | nil => exact nomatch h
  | cons c t1 =>
    cases t1 with
    | nil => exact nomatch h
    | cons d r2 =>
      rw [tagMatcherMid] at h
      by_cases hcd : (isWS c && d = '#') = true
      · rw [if_pos hcd] at h
        dsimp only at h
        by_cases htg : ((r2.takeWhile (fun x => tagChar x)).isEmpty = true)
        · rw [if_pos htg] at h
          exact nomatch h
        · rw [if_neg htg] at h
          injection h with h
          obtain ⟨-, h2⟩ := Prod.mk.inj h
          omega
      · rw [if_neg hcd] at h
        exact nomatch h

/-- The global tag scan over a serialized tag section emits exactly the
    space-prefixed tags. -/
theorem scanEmit_tagsStr : ∀ ft : List Str,
    (∀ t ∈ ft, ∃ body, t = '#' :: body ∧ body ≠ [] ∧
      ∀ c ∈ body, plainChar c = true ∧ tagChar c = true) →
    ∀ fuel, (tagsStr ft).length < fuel →
    scanEmitF tagMatcherMid fuel (tagsStr ft) = ft.map (fun t => ' ' :: t) := by
  intro ft
  induction ft with
  | nil =>
    intro _ fuel _
    exact scanEmitF_nil tagMatcherMid fuel
  | cons t rest ih =>
    intro hft fuel hfuel
    obtain ⟨body, hteq, hbne, hbody⟩ := hft t (List.mem_cons_self t rest)
    have hstop : tagsStr rest = [] ∨ ∃ w r, tagsStr rest = w :: r ∧ tagChar w = false := by
      cases rest with
      | nil => exact Or.inl rfl
      | cons r1 rest2 => exact Or.inr ⟨' ', _, rfl, by decide⟩
    have hshape : tagsStr (t :: rest) = ' ' :: '#' :: (body ++ tagsStr rest) := by
      rw [tagsStr, hteq]
      rfl
    have hlen : (tagsStr (t :: rest)).length = 2 + body.length + (tagsStr rest).length := by
      rw [hshape]
      simp [List.length_append]
      omega
    cases fuel with
    | zero => omega
    | succ f =>
      rw [hshape]
      have hmatch : tagMatcherMid (' ' :: '#' :: (body ++ tagsStr rest)) =
          some (' ' :: '#' :: body, 2 + body.length) :=
        tagMatcherMid_at body (tagsStr rest) hbne (fun c hc => (hbody c hc).2) hstop
      rw [scanEmitF_step _ _ _ _ _ f hmatch]
      have hdrop : (' ' :: '#' :: (body ++ tagsStr rest)).drop (2 + body.length) =
          tagsStr rest := by
        rw [show 2 + body.length = body.length + 1 + 1 from by omega]
        rw [List.drop_succ_cons, List.drop_succ_cons]
        exact List.drop_left body (tagsStr rest)
      rw [hdrop]
      rw [ih (fun x hx => hft x (List.mem_cons_of_mem t hx)) f (by omega)]
      rw [List.map_cons, hteq]

/-- The raw tag matches of a `#`-free prefix followed by the serialized
    tag section are exactly the space-prefixed tags. -/
theorem rawHashTagMatches_canonical (B : Str) (ft : List Str)
    (hBne : B ≠ []) (hBhash : ∀ c ∈ B, ¬c = '#')
    (hft : ∀ t ∈ ft, ∃ body, t = '#' :: body ∧ body ≠ [] ∧
      ∀ c ∈ body, plainChar c = true ∧ tagChar c = true) :
    rawHashTagMatches (B ++ tagsStr ft) = ft.map (fun t => ' ' :: t) := by
  obtain ⟨c0, Brest, rfl⟩ : ∃ c0 Brest, B = c0 :: Brest := by
    cases B with
    | nil => exact absurd rfl hBne
    | cons a l => exact ⟨a, l, rfl⟩
  have hP : ∀ (c : Char) (q r : Str), c0 :: Brest = q ++ c :: r →
      tagMatcherMid (c :: (r ++ tagsStr ft)) = none := by
    intro c q r heq
    cases r with
    | cons c2 r2 =>
      have hc2 : c2 ∈ c0 :: Brest := by
        rw [heq]
        exact List.mem_append_right q (List.mem_cons_of_mem c (List.mem_cons_self c2 r2))
      exact tagMatcherMid_none_second c c2 (r2 ++ tagsStr ft) (hBhash c2 hc2)
    | nil =>
      cases ft with
      | nil => exact tagMatcherMid_single c
      | cons t rest => exact tagMatcherMid_none_second c ' ' _ (by decide)
  rw [show (c0 :: Brest) ++ tagsStr ft = c0 :: (Brest ++ tagsStr ft) from rfl]
  rw [rawHashTagMatches]
  rw [if_neg (hBhash c0 (List.mem_cons_self c0 Brest))]
  rw [show c0 :: (Brest ++ tagsStr ft) = (c0 :: Brest) ++ tagsStr ft from rfl]
  rw [scanEmitF_pass tagMatcherMid tagMatcherMid_pos (c0 :: Brest) (tagsStr ft) hP
    (((c0 :: Brest) ++ tagsStr ft).length + 1)
    (by rw [List.length_append]; omega)]
  exact scanEmit_tagsStr ft hft _ (by omega)

/-- Trimming and filtering the space-prefixed tags recovers the tags. -/
theorem filter_trim_spaced (ft : List Str)
    (hft : ∀ t ∈ ft, ∃ body, t = '#' :: body ∧ body ≠ [] ∧
      ∀ c ∈ body, plainChar c = true ∧ tagChar c = true) :
    ((ft.map (fun t => ' ' :: t)).map trim).filter (fun t => !t.isEmpty) = ft := by
  induction ft with
  | nil => rfl
  | cons t rest ih =>
    obtain ⟨body, hteq, hbne, hbody⟩ := hft t (List.mem_cons_self t rest)
    have htrim : trim (' ' :: t) = t := by
      rw [hteq]
      exact trim_space_tag body hbne (fun c hc => (hbody c hc).1)
    rw [List.map_cons, List.map_cons, htrim, List.filter_cons]
    rw [if_pos (by rw [hteq]; rfl)]
    rw [ih (fun x hx => hft x (List.mem_cons_of_mem t hx))]

/-- `contains` is false for a non-member. -/
theorem contains_false_of_not_mem (l : List Char) (c : Char) (h : c ∉ l) :
    l.contains c = false := by
  rw [Bool.eq_false_iff]
  intro hc
  exact h (List.elem_iff.mp hc)

/-- `contains` is false when the candidate differs from every element. -/
theorem contains_false_of_ne (l : List Char) (c : Char) (h : ∀ g ∈ l, ¬c = g) :
    l.contains c = false :=
  contains_false_of_not_mem l c (fun hm => h c hm rfl)

/-- Metadata-free characters are outside the due-date glyph class. -/
theorem plain_due_false (c : Char) (h : plainChar c = true) :
    dueClassChars.contains c = false := by
  obtain ⟨-, -, h3, h4, h5, -⟩ := plainChar_spec c h
  apply contains_false_of_ne
  intro g hg
  rcases show g = dueGlyphA ∨ g = dueGlyphB ∨ g = varSel from by
    simpa [dueClassChars] using hg with rfl | rfl | rfl
  · exact h3
  · exact h4
  · exact h5

/-- A singleton glyph class misses any differing character. -/
theorem single_contains_false (g c : Char) (h : ¬c = g) : [g].contains c = false := by
  apply contains_false_of_ne
  intro x hx
  rcases show x = g from by simpa using hx with rfl
  exact h

/-- Digits are outside the due-date glyph class. -/
theorem digit_due_false (c : Char) (h : isDigit c = true) :
    dueClassChars.contains c = false := by
  apply contains_false_of_ne
  intro g hg
  rcases show g = dueGlyphA ∨ g = dueGlyphB ∨ g = varSel from by
    simpa [dueClassChars] using hg with rfl | rfl | rfl
  · exact digit_ne c dueGlyphA h (by decide)
  · exact digit_ne c dueGlyphB h (by decide)
  · exact digit_ne c varSel h (by decide)

/-- Digits are outside any high-code-point singleton glyph class. -/
theorem digit_single_false (g c : Char) (h : isDigit c = true) (hg : 57 < g.toNat) :
    [g].contains c = false :=
  single_contains_false g c (digit_ne c g h hg)

/-- A shape-valid date string is non-empty. -/
theorem dateOk_ne_nil (v : Str) (h : dateOk v = true) : v ≠ [] := by
  intro hv
  rw [hv] at h
  exact absurd h (by decide)

/-- A list with `isEmpty = false` is non-empty. -/
theorem ne_nil_of_isEmpty_false (l : Str) (h : l.isEmpty = false) : l ≠ [] := by
  intro hl
  rw [hl] at h
  exact absurd h (by decide)

/-- The serialized optional field of a non-empty value, unfolded. -/
theorem optField_some_eq (g : Char) (v : Str) (hv : v ≠ []) :
    optField g (some v) = ' ' :: g :: ' ' :: v := by
  rw [optField, if_neg (by simp [List.isEmpty_iff, hv])]

/-- Last-character whitespace-freedom composes across concatenation. -/
theorem lastNonWS_cascade (a b : Str)
    (hb : ∀ c, b.getLast? = some c → isWS c = false)
    (hbnil : b = [] → ∀ c, a.getLast? = some c → isWS c = false) :
    ∀ c, (a ++ b).getLast? = some c → isWS c = false := by
  intro c hc
  cases hbe : b with
  | nil =>
    rw [hbe, List.append_nil] at hc
    exact hbnil hbe c hc
  | cons x xs =>
    rw [hbe, getLast?_append_right a (x :: xs) (by simp)] at hc
    rw [← hbe] at hc
    exact hb c hc

/-- The last character of a shape-valid date is not whitespace. -/
theorem date_last_nonws (v : Str) (hv : dateOk v = true) :
    ∀ c, v.getLast? = some c → isWS c = false := by
  intro c hc
  have hv2 : parseDate8 v = some (v, []) := by
    rw [dateOk, beq_iff_eq] at hv
    exact hv
  rcases parseDate8_chars v v [] hv2 c (mem_of_getLast? v c hc) with hd | rfl
  · rw [Bool.eq_false_iff]
    intro hws
    rw [not_digit_of_isWS c hws] at hd
    exact absurd hd (by decide)
  · decide

/-- Merging with an omitted argument keeps the current value. -/
theorem mergeOptField_none (cur : Option Str) : mergeOptField none cur = cur := rfl

/-- `mkTask` projections, unfolded. -/
theorem mkTask_description (fp : Str) (ln : Nat) (line : Str) (st : Char) (content : Str) :
    (mkTask fp ln line st content).description = trim content := rfl

/-- `mkTask` keeps the captured status character. -/
theorem mkTask_statusSymbol (fp : Str) (ln : Nat) (line : Str) (st : Char) (content : Str) :
    (mkTask fp ln line st content).statusSymbol = st := rfl

/-- `mkTask` extracts the due date from the trimmed description. -/
theorem mkTask_dueDate (fp : Str) (ln : Nat) (line : Str) (st : Char) (content : Str) :
    (mkTask fp ln line st content).dueDate = findGlyphDate dueClassChars (trim content) := rfl

/-- `mkTask` extracts the scheduled date from the trimmed description. -/
theorem mkTask_scheduledDate (fp : Str) (ln : Nat) (line : Str) (st : Char) (content : Str) :
    (mkTask fp ln line st content).scheduledDate =
      findGlyphDate [schedGlyph] (trim content) := rfl

/-- `mkTask` extracts the start date from the trimmed description. -/
theorem mkTask_startDate (fp : Str) (ln : Nat) (line : Str) (st : Char) (content : Str) :
    (mkTask fp ln line st content).startDate = findGlyphDate [startGlyph] (trim content) := rfl

/-- `mkTask` extracts the priority from the trimmed description. -/
theorem mkTask_priority (fp : Str) (ln : Nat) (line : Str) (st : Char) (content : Str) :
    (mkTask fp ln line st content).priority = findPriority (trim content) := rfl

/-- `mkTask` extracts the recurrence from the trimmed description. -/
theorem mkTask_recurrence (fp : Str) (ln : Nat) (line : Str) (st : Char) (content : Str) :
    (mkTask fp ln line st content).recurrence = findRecurrence (trim content) := rfl

/-- `mkTask` extracts the tags from the trimmed description. -/
theorem mkTask_tags (fp : Str) (ln : Nat) (line : Str) (st : Char) (content : Str) :
    (mkTask fp ln line st content).tags =
      ((rawHashTagMatches (trim content)).map trim).filter (fun t => !t.isEmpty) := rfl

/-- A replacing scan over a free prefix, one match, and a free remainder. -/
theorem replaceScanF_strip_one (m : Str → Option Nat)
    (hm : ∀ s k, m s = some k → 0 < k)
    (P T R : Str) (k : Nat)
    (hP : ∀ (c : Char) (q r : Str), P = q ++ c :: r → m (c :: (r ++ T)) = none)
    (hT : m T = some k) (hdrop : T.drop k = R)
    (hR : ∀ (c : Char) (q r : Str), R = q ++ c :: r → m (c :: r) = none)
    (fuel : Nat) (hfuel : P.length + T.length < fuel) :
    replaceScanF m fuel (P ++ T) = P ++ R := by
  rw [replaceScanF_pass m hm P T hP fuel hfuel]
  cases T with
  | nil =>
    rw [replaceScanF_nil]
    rw [← hdrop, List.drop_nil]
  | cons c rest =>
    rw [replaceScanF_step m c rest k _ hT]
    rw [hdrop]
    rw [replaceScanF_id m R hR _]

/-- The glyph-date strip matcher fails off the glyph class. -/
theorem glyphDateStripM_none_head (glyphs : List Char) (c : Char) (t : Str)
    (h : glyphs.contains c = false) : glyphDateStripM glyphs (c :: t) = none := by
  rw [glyphDateStripM.eq_def]
  dsimp only
  rw [if_neg (by rw [h]; decide)]

/-- The glyph-date strip matcher at a glyph-space-date position. -/
theorem glyphDateStripM_at (glyphs : List Char) (g : Char) (v post : Str)
    (hg : glyphs.contains g = true) (hv : dateOk v = true) :
    glyphDateStripM glyphs (g :: ' ' :: (v ++ post)) = some (2 + v.length) := by
  rw [glyphDateStripM.eq_def]
  dsimp only
  rw [if_pos hg]
  rw [parseDate8_none_of_head ' ' (v ++ post) (by decide)]
  dsimp only
  rw [if_pos (by decide : isWS ' ' = true)]
  rw [parseDate8_of_dateOk v post hv]

/-- The glyph-date strip matcher consumes at least one character. -/
theorem glyphDateStripM_pos (glyphs : List Char) (s : Str) (k : Nat)
    (h : glyphDateStripM glyphs s = some k) : 0 < k := by
  cases s with
  | nil => exact nomatch h
  | cons c rest =>
    rw [glyphDateStripM.eq_def] at h
    dsimp only at h
    by_cases hc : glyphs.contains c = true
    · rw [if_pos hc] at h
      cases hp : parseDate8 rest with
      | some q =>
        obtain ⟨dd, r⟩ := q
        rw [hp] at h
        dsimp only at h
        injection h with h
        omega
      | none =>
        rw [hp] at h
        dsimp only at h
        cases rest with
        | nil => exact nomatch h
        | cons w r2 =>
          dsimp only at h
          by_cases hw : isWS w = true
          · rw [if_pos hw] at h
            cases hp2 : parseDate8 r2 with
            | some q =>
              obtain ⟨dd, r⟩ := q
              rw [hp2] at h
              dsimp only at h
              injection h with h
              omega
            | none =>
              rw [hp2] at h
              exact nomatch h
          · rw [if_neg hw] at h
            exact nomatch h
    · rw [if_neg hc] at h
      exact nomatch h

/-- The recurrence strip matcher fails off the glyph. -/
theorem recStripM_none_head (c : Char) (t : Str) (h : ¬c = recGlyph) :
    recStripM (c :: t) = none := by
  rw [recStripM.eq_def]
  dsimp only
  rw [if_neg h]

/-- The recurrence strip matcher at a glyph-space-token position. -/
theorem recStripM_at (r post : Str) (hr : ∀ c ∈ r, isWS c = false)
    (hstop : post = [] ∨ ∃ w p2, post = w :: p2 ∧ isWS w = true) :
    recStripM (recGlyph :: ' ' :: (r ++ post)) = some (2 + r.length) := by
  have hrun : (r ++ post).takeWhile (fun x => !isWS x) = r := by
    rcases hstop with rfl | ⟨w, p2, rfl, hw⟩
    · rw [List.append_nil]
      exact takeWhile_all _ _ (fun x hx => by rw [hr x hx]; rfl)
    · exact takeWhile_append_stop _ _ _ _ (fun x hx => by rw [hr x hx]; rfl)
        (by rw [hw]; rfl)
  rw [recStripM.eq_def]
  dsimp only
  rw [if_pos rfl, if_pos (by decide : isWS ' ' = true), hrun]

/-- The recurrence strip matcher consumes at least one character. -/
theorem recStripM_pos (s : Str) (k : Nat) (h : recStripM s = some k) : 0 < k := by
  cases s with
  | nil => exact nomatch h
  | cons c rest =>
    rw [recStripM.eq_def] at h
    dsimp only at h
    by_cases hc : c = recGlyph
    · rw [if_pos hc] at h
      cases rest with
      | nil =>
        injection h with h
        omega
      | cons w r2 =>
        dsimp only at h
        by_cases hw : isWS w = true
        · rw [if_pos hw] at h
          injection h with h
          omega
        · rw [if_neg hw] at h
          injection h with h
          omega
    · rw [if_neg hc] at h
      exact nomatch h

/-- The priority strip matcher fails off the priority glyphs. -/
theorem prioStripM_none_head (c : Char) (t : Str) (h1 : ¬c = hiGlyph)
    (h2 : ¬c = medGlyph) (h3 : ¬c = lowGlyph) (h4 : ¬c = lowestGlyph) :
    prioStripM (c :: t) = none := by
  rw [prioStripM.eq_def]
  dsimp only
  rw [if_neg h1, if_neg (by simp [h2, h3, h4])]

/-- The priority strip matcher at a doubled high glyph. -/
theorem prioStripM_hi2 (t : Str) : prioStripM (hiGlyph :: hiGlyph :: t) = some 2 := by
  rw [prioStripM.eq_def]
  dsimp only
  rw [if_pos rfl, if_pos rfl]

/-- The priority strip matcher at a single high glyph. -/
theorem prioStripM_hi1 (c2 : Char) (t : Str) (h : ¬c2 = hiGlyph) :
    prioStripM (hiGlyph :: c2 :: t) = some 1 := by
  rw [prioStripM.eq_def]
  dsimp only
  rw [if_pos rfl, if_neg h]

/-- The priority strip matcher at a final high glyph. -/
theorem prioStripM_hi_end : prioStripM [hiGlyph] = some 1 := by
  rw [prioStripM.eq_def]
  dsimp only
  rw [if_pos rfl]

/-- The priority strip matcher at a medium glyph. -/
theorem prioStripM_med (t : Str) : prioStripM (medGlyph :: t) = some 1 := by
  rw [prioStripM.eq_def]
  dsimp only
  rw [if_neg (by decide), if_pos (by decide)]

/-- The priority strip matcher at a low glyph. -/
theorem prioStripM_low (t : Str) : prioStripM (lowGlyph :: t) = some 1 := by
  rw [prioStripM.eq_def]
  dsimp only
  rw [if_neg (by decide), if_pos (by decide)]

/-- The priority strip matcher at a lowest glyph. -/
theorem prioStripM_lowest (t : Str) : prioStripM (lowestGlyph :: t) = some 1 := by
  rw [prioStripM.eq_def]
  dsimp only
  rw [if_neg (by decide), if_pos (by decide)]

/-- The priority strip matcher consumes at least one character. -/
theorem prioStripM_pos (s : Str) (k : Nat) (h : prioStripM s = some k) : 0 < k := by
  cases s with
  | nil => exact nomatch h
  | cons c rest =>
    rw [prioStripM.eq_def] at h
    dsimp only at h
    by_cases hc : c = hiGlyph
    · rw [if_pos hc] at h
      cases rest with
      | nil =>
        injection h with h
        omega
      | cons c2 r2 =>
        dsimp only at h
        by_cases hc2 : c2 = hiGlyph
        · rw [if_pos hc2] at h
          injection h with h
          omega
        · rw [if_neg hc2] at h
          injection h with h
          omega
    · rw [if_neg hc] at h
      by_cases hm : (c = medGlyph || c = lowGlyph || c = lowestGlyph) = true
      · rw [if_pos hm] at h
        injection h with h
        omega
      · rw [if_neg hm] at h
        exact nomatch h

/-- The mid-string tag strip matcher fails when the second character is
    not `#`. -/
theorem tagStripMidM_none_second (c c2 : Char) (r : Str) (h : ¬c2 = '#') :
    tagStripMidM (c :: c2 :: r) = none := by
  rw [tagStripMidM, if_neg (by simp [h])]

/-- The mid-string tag strip matcher fails on a single character. -/
theorem tagStripMidM_single (c : Char) : tagStripMidM [c] = none := rfl

/-- The mid-string tag strip matcher at a space-then-tag position. -/
theorem tagStripMidM_at (body tail : Str) (hbne : body ≠ [])
    (hbody : ∀ c ∈ body, isWS c = false)
    (hstop : tail = [] ∨ ∃ w p2, tail = w :: p2 ∧ isWS w = true) :
    tagStripMidM (' ' :: '#' :: (body ++ tail)) = some (2 + body.length) := by
  have hrun : (body ++ tail).takeWhile (fun x => !isWS x) = body := by
    rcases hstop with rfl | ⟨w, p2, rfl, hw⟩
    · rw [List.append_nil]
      exact takeWhile_all _ _ (fun x hx => by rw [hbody x hx]; rfl)
    · exact takeWhile_append_stop _ _ _ _ (fun x hx => by rw [hbody x hx]; rfl)
        (by rw [hw]; rfl)
  rw [tagStripMidM, if_pos (by decide : (isWS ' ' && '#' = '#') = true)]
  dsimp only
  rw [hrun]
  rw [if_neg (by simp [List.isEmpty_iff, hbne])]

/-- The mid-string tag strip matcher consumes at least one character. -/
theorem tagStripMidM_pos (s : Str) (k : Nat) (h : tagStripMidM s = some k) : 0 < k := by
  cases s with
  | nil => exact nomatch h
  | cons c t1 =>
    cases t1 with
    | nil => exact nomatch h
    | cons d2 r2 =>
      rw [tagStripMidM] at h
      by_cases hcd : (isWS c && d2 = '#') = true
      · rw [if_pos hcd] at h
        dsimp only at h
        by_cases htg : ((r2.takeWhile (fun x => !isWS x)).isEmpty = true)
        · rw [if_pos htg] at h
          exact nomatch h
        · rw [if_neg htg] at h
          injection h with h
          omega
      · rw [if_neg hcd] at h
        exact nomatch h

/-- The tag strip on a string not starting with `#` is the plain
    mid-string scan. -/
theorem stripTags_not_hash (c : Char) (r : Str) (h : ¬c = '#') :
    stripTags (c :: r) = replaceScanF tagStripMidM ((c :: r).length + 1) (c :: r) := by
  rw [stripTags, if_neg h]

/-- Digits are not whitespace. -/
theorem digit_ws_false (c : Char) (h : isDigit c = true) : isWS c = false := by
  rw [Bool.eq_false_iff]
  intro hws
  rw [not_digit_of_isWS c hws] at h
  exact absurd h (by decide)

/-- Metadata-free characters are not the scheduled glyph. -/
theorem plain_sched_false (c : Char) (h : plainChar c = true) :
    [schedGlyph].contains c = false := by
  obtain ⟨-, -, -, -, -, h6, -⟩ := plainChar_spec c h
  exact single_contains_false _ c h6

/-- Metadata-free characters are not the start glyph. -/
theorem plain_start_false (c : Char) (h : plainChar c = true) :
    [startGlyph].contains c = false := by
  obtain ⟨-, -, -, -, -, -, h7, -⟩ := plainChar_spec c h
  exact single_contains_false _ c h7

/-- Metadata-free characters are not the created glyph. -/
theorem plain_created_false (c : Char) (h : plainChar c = true) :
    [createdGlyph].contains c = false := by
  obtain ⟨-, -, -, -, -, -, -, h8, -⟩ := plainChar_spec c h
  exact single_contains_false _ c h8

/-- Concatenation preserves being empty-or-space-headed. -/
theorem ws_head_append (a b : Str) (ha : a = [] ∨ ∃ t, a = ' ' :: t)
    (hb : b = [] ∨ ∃ t, b = ' ' :: t) :
    a ++ b = [] ∨ ∃ t, a ++ b = ' ' :: t := by
  rcases ha with rfl | ⟨t, rfl⟩
  · simpa using hb
  · exact Or.inr ⟨t ++ b, by simp⟩

/-- Empty-or-space-headed strings start with whitespace when non-empty. -/
theorem ws_head_to_stop (X : Str) (h : X = [] ∨ ∃ t, X = ' ' :: t) :
    X = [] ∨ ∃ w p2, X = w :: p2 ∧ isWS w = true := by
  rcases h with rfl | ⟨t, rfl⟩
  · exact Or.inl rfl
  · exact Or.inr ⟨' ', t, rfl, by decide⟩

/-- The tag strip deletes a serialized tag section entirely. -/
theorem tagStrip_tagsStr : ∀ ft : List Str,
    (∀ t ∈ ft, ∃ body, t = '#' :: body ∧ body ≠ [] ∧
      ∀ c ∈ body, plainChar c = true ∧ tagChar c = true) →
    ∀ fuel, (tagsStr ft).length < fuel →
    replaceScanF tagStripMidM fuel (tagsStr ft) = [] := by
  intro ft
  induction ft with
  | nil =>
    intro _ fuel _
    exact replaceScanF_nil _ fuel
  | cons t rest ih =>
    intro hft fuel hfuel
    obtain ⟨body, hteq, hbne, hbody⟩ := hft t (List.mem_cons_self t rest)
    have hstop : tagsStr rest = [] ∨ ∃ w p2, tagsStr rest = w :: p2 ∧ isWS w = true := by
      cases rest with
      | nil => exact Or.inl rfl
      | cons r1 rest2 => exact Or.inr ⟨' ', _, rfl, by decide⟩
    have hshape : tagsStr (t :: rest) = ' ' :: '#' :: (body ++ tagsStr rest) := by
      rw [tagsStr, hteq]
      rfl
    have hlen : (tagsStr (t :: rest)).length = 2 + body.length + (tagsStr rest).length := by
      rw [hshape]
      simp [List.length_append]
      omega
    cases fuel with
    | zero => omega
    | succ f =>
      rw [hshape]
      have hmatch : tagStripMidM (' ' :: '#' :: (body ++ tagsStr rest)) =
          some (2 + body.length) :=
        tagStripMidM_at body (tagsStr rest) hbne
          (fun c hc => (plainChar_spec c (hbody c hc).1).1) hstop
      rw [replaceScanF_step _ _ _ _ f hmatch]
      have hdrop : (' ' :: '#' :: (body ++ tagsStr rest)).drop (2 + body.length) =
          tagsStr rest := by
        rw [show 2 + body.length = body.length + 1 + 1 from by omega]
        rw [List.drop_succ_cons, List.drop_succ_cons]
        exact List.drop_left body (tagsStr rest)
      rw [hdrop]
      exact ih (fun x hx => hft x (List.mem_cons_of_mem t hx)) f (by omega)

/-- Claim C9 (amended): for every field set accepted by the Markdown Builder
    whose description is non-empty, trimmed and metadata-free, whose priority
    is one of the five recognized names, whose recurrence is a single
    whitespace-free token of metadata-free characters, whose dates are
    shape-valid `\d{4}-\d{2}-\d{2}` strings and whose tags are well-formed,
    serializing the fields, parsing the line and re-serializing the resulting
    Task with no overrides yields byte-identical text.  (The unamended claim
    is refuted by a multi-word recurrence.) -/
theorem build_update_idempotent (fp : Str) (ln : Nat) (F : BuildArgs)
    (hF : goodArgs F = true) :
    buildUpdatedTaskLine (buildTaskMarkdown F) fp ln noOverrideArgs =
      some (buildTaskMarkdown F) := by
  rw [goodArgs] at hF
  simp only [Bool.and_eq_true] at hF
  obtain ⟨⟨⟨⟨⟨⟨⟨⟨hA, hB⟩, hC⟩, hD⟩, hE⟩, hG⟩, hH⟩, hI⟩, hJ⟩ := hF
  have hd1 : F.description ≠ [] := ne_nil_of_isEmpty_false _ (by simpa using hA)
  have hd2 : trim F.description = F.description := of_decide_eq_true hB
  have hd3 : ∀ c ∈ F.description, plainOrSpace c = true := List.all_eq_true.mp hC
  have hBM : buildTaskMarkdown F =
      str "- [ ] " ++ (F.description ++ (priorityField F.priority ++
        (optField recGlyph F.recurrence ++ (optField startGlyph F.startDate ++
        (optField schedGlyph F.scheduledDate ++ (optField dueGlyphA F.dueDate ++
        tagsField F.tags)))))) := by
    rw [buildTaskMarkdown]
    simp [List.append_assoc]
  rw [hBM]
  set d := F.description with hdEq
  set PR := priorityField F.priority with hPREq
  set RC := optField recGlyph F.recurrence with hRCEq
  set ST := optField startGlyph F.startDate with hSTEq
  set SC := optField schedGlyph F.scheduledDate with hSCEq
  set DU := optField dueGlyphA F.dueDate with hDUEq
  set TG := tagsField F.tags with hTGEq
  set D0 := d ++ (PR ++ (RC ++ (ST ++ (SC ++ (DU ++ TG))))) with hD0Eq
  have hdchar : ∀ c ∈ d, c = ' ' ∨ plainChar c = true := by
    intro c hc
    have h2 := hd3 c hc
    rw [plainOrSpace] at h2
    simp only [Bool.or_eq_true, decide_eq_true_eq] at h2
    exact h2
  have hPRchar : ∀ c ∈ PR, c = ' ' ∨ c = hiGlyph ∨ c = medGlyph ∨ c = lowGlyph ∨
      c = lowestGlyph := fun c hc => mem_priorityField F.priority c hD hc
  have hRCchar : ∀ c ∈ RC, c = ' ' ∨ c = recGlyph ∨ plainChar c = true := by
    intro c hc
    rcases mem_optField recGlyph F.recurrence c hc with h | h | ⟨v, hv, hcv⟩
    · exact Or.inl h
    · exact Or.inr (Or.inl h)
    · rw [hv, goodOptRec] at hE
      rw [Bool.and_eq_true] at hE
      exact Or.inr (Or.inr (List.all_eq_true.mp hE.2 c hcv))
  have hSTchar : ∀ c ∈ ST, c = ' ' ∨ c = startGlyph ∨ isDigit c = true ∨ c = '-' := by
    intro c hc
    rcases mem_optField startGlyph F.startDate c hc with h | h | ⟨v, hv, hcv⟩
    · exact Or.inl h
    · exact Or.inr (Or.inl h)
    · rw [hv, goodOptDate] at hG
      have hv2 : parseDate8 v = some (v, []) := by
        rw [dateOk, beq_iff_eq] at hG
        exact hG
      rcases parseDate8_chars v v [] hv2 c hcv with hdg | rfl
      · exact Or.inr (Or.inr (Or.inl hdg))
      · exact Or.inr (Or.inr (Or.inr rfl))
  have hSCchar : ∀ c ∈ SC, c = ' ' ∨ c = schedGlyph ∨ isDigit c = true ∨ c = '-' := by
    intro c hc
    rcases mem_optField schedGlyph F.scheduledDate c hc with h | h | ⟨v, hv, hcv⟩
    · exact Or.inl h
    · exact Or.inr (Or.inl h)
    · rw [hv, goodOptDate] at hH
      have hv2 : parseDate8 v = some (v, []) := by
        rw [dateOk, beq_iff_eq] at hH
        exact hH
      rcases parseDate8_chars v v [] hv2 c hcv with hdg | rfl
      · exact Or.inr (Or.inr (Or.inl hdg))
      · exact Or.inr (Or.inr (Or.inr rfl))
  have hDUchar : ∀ c ∈ DU, c = ' ' ∨ c = dueGlyphA ∨ isDigit c = true ∨ c = '-' := by
    intro c hc
    rcases mem_optField dueGlyphA F.dueDate c hc with h | h | ⟨v, hv, hcv⟩
    · exact Or.inl h
    · exact Or.inr (Or.inl h)
    · rw [hv, goodOptDate] at hI
      have hv2 : parseDate8 v = some (v, []) := by
        rw [dateOk, beq_iff_eq] at hI
        exact hI
      rcases parseDate8_chars v v [] hv2 c hcv with hdg | rfl
      · exact Or.inr (Or.inr (Or.inl hdg))
      · exact Or.inr (Or.inr (Or.inr rfl))
  have hTGfacts : TG = [] ∨ ∃ ts, F.tags = some ts ∧ ts ≠ [] ∧
      TG = tagsStr (ts.map formatTag) ∧
      ∀ t ∈ ts.map formatTag, ∃ body, t = '#' :: body ∧ body ≠ [] ∧
        ∀ c ∈ body, plainChar c = true ∧ tagChar c = true := by
    cases hts : F.tags with
    | none => exact Or.inl (by rw [hTGEq, hts]; rfl)
    | some ts =>
      cases ts with
      | nil => exact Or.inl (by rw [hTGEq, hts]; rfl)
      | cons t0 ts2 =>
        refine Or.inr ⟨t0 :: ts2, rfl, by simp, ?_, ?_⟩
        · rw [hTGEq, hts]
          exact tagsField_some (t0 :: ts2) (by simp)
        · intro t ht
          obtain ⟨tg, htg, rfl⟩ := List.mem_map.mp ht
          have hgood : goodTag tg = true := by
            rw [hts, goodTags] at hJ
            exact List.all_eq_true.mp hJ tg htg
          exact formatTag_spec tg hgood
  have hTGchar : ∀ c ∈ TG, c = ' ' ∨ c = '#' ∨ (plainChar c = true ∧ tagChar c = true) := by
    rcases hTGfacts with hnil | ⟨ts, -, -, hTGeq, hspec⟩
    · intro c hc
      rw [hnil] at hc
      exact absurd hc (List.not_mem_nil c)
    · intro c hc
      rw [hTGeq] at hc
      exact mem_tagsStr _ c hspec hc
  have hmemD0 : ∀ c ∈ D0, c ∈ d ∨ c ∈ PR ∨ c ∈ RC ∨ c ∈ ST ∨ c ∈ SC ∨ c ∈ DU ∨ c ∈ TG := by
    intro c hc
    rw [hD0Eq] at hc
    simp only [List.mem_append] at hc
    tauto
  clear_value D0
  clear_value TG
  clear_value DU
  clear_value SC
  clear_value ST
  clear_value RC
  clear_value PR
  clear_value d
  have hd_due : ∀ c ∈ d, dueClassChars.contains c = false := by
    intro c hc
    rcases hdchar c hc with rfl | hp
    · decide
    · exact plain_due_false c hp
  have hPR_due : ∀ c ∈ PR, dueClassChars.contains c = false := by
    intro c hc
    rcases hPRchar c hc with rfl | rfl | rfl | rfl | rfl <;> decide
  have hRC_due : ∀ c ∈ RC, dueClassChars.contains c = false := by
    intro c hc
    rcases hRCchar c hc with rfl | rfl | hp
    · decide
    · decide
    · exact plain_due_false c hp
  have hST_due : ∀ c ∈ ST, dueClassChars.contains c = false := by
    intro c hc
    rcases hSTchar c hc with rfl | rfl | hdg | rfl
    · decide
    · decide
    · exact digit_due_false c hdg
    · decide
  have hSC_due : ∀ c ∈ SC, dueClassChars.contains c = false := by
    intro c hc
    rcases hSCchar c hc with rfl | rfl | hdg | rfl
    · decide
    · decide
    · exact digit_due_false c hdg
    · decide
  have hTG_due : ∀ c ∈ TG, dueClassChars.contains c = false := by
    intro c hc
    rcases hTGchar c hc with rfl | rfl | ⟨hp, -⟩
    · decide
    · decide
    · exact plain_due_false c hp
  have hd_sched : ∀ c ∈ d, [schedGlyph].contains c = false := by
    intro c hc
    rcases hdchar c hc with rfl | hp
    · decide
    · exact plain_sched_false c hp
  have hPR_sched : ∀ c ∈ PR, [schedGlyph].contains c = false := by
    intro c hc
    rcases hPRchar c hc with rfl | rfl | rfl | rfl | rfl <;> decide
  have hRC_sched : ∀ c ∈ RC, [schedGlyph].contains c = false := by
    intro c hc
    rcases hRCchar c hc with rfl | rfl | hp
    · decide
    · decide
    · exact plain_sched_false c hp
  have hST_sched : ∀ c ∈ ST, [schedGlyph].contains c = false := by
    intro c hc
    rcases hSTchar c hc with rfl | rfl | hdg | rfl
    · decide
    · decide
    · exact digit_single_false schedGlyph c hdg (by decide)
    · decide
  have hDU_sched : ∀ c ∈ DU, [schedGlyph].contains c = false := by
    intro c hc
    rcases hDUchar c hc with rfl | rfl | hdg | rfl
    · decide
    · decide
    · exact digit_single_false schedGlyph c hdg (by decide)
    · decide
  have hTG_sched : ∀ c ∈ TG, [schedGlyph].contains c = false := by
    intro c hc
    rcases hTGchar c hc with rfl | rfl | ⟨hp, -⟩
    · decide
    · decide
    · exact plain_sched_false c hp
  have hd_start : ∀ c ∈ d, [startGlyph].contains c = false := by
    intro c hc
    rcases hdchar c hc with rfl | hp
    · decide
    · exact plain_start_false c hp
  have hPR_start : ∀ c ∈ PR, [startGlyph].contains c = false := by
    intro c hc
    rcases hPRchar c hc with rfl | rfl | rfl | rfl | rfl <;> decide
  have hRC_start : ∀ c ∈ RC, [startGlyph].contains c = false := by
    intro c hc
    rcases hRCchar c hc with rfl | rfl | hp
    · decide
    · decide
    · exact plain_start_false c hp
  have hSC_start : ∀ c ∈ SC, [startGlyph].contains c = false := by
    intro c hc
    rcases hSCchar c hc with rfl | rfl | hdg | rfl
    · decide
    · decide
    · exact digit_single_false startGlyph c hdg (by decide)
    · decide
  have hDU_start : ∀ c ∈ DU, [startGlyph].contains c = false := by
    intro c hc
    rcases hDUchar c hc with rfl | rfl | hdg | rfl
    · decide
    · decide
    · exact digit_single_false startGlyph c hdg (by decide)
    · decide
  have hTG_start : ∀ c ∈ TG, [startGlyph].contains c = false := by
    intro c hc
    rcases hTGchar c hc with rfl | rfl | ⟨hp, -⟩
    · decide
    · decide
    · exact plain_start_false c hp
  have hD0_created : ∀ c ∈ D0, [createdGlyph].contains c = false := by
    intro c hc
    rcases hmemD0 c hc with h | h | h | h | h | h | h
    · rcases hdchar c h with rfl | hp
      · decide
      · exact plain_created_false c hp
    · rcases hPRchar c h with rfl | rfl | rfl | rfl | rfl <;> decide
    · rcases hRCchar c h with rfl | rfl | hp
      · decide
      · decide
      · exact plain_created_false c hp
    · rcases hSTchar c h with rfl | rfl | hdg | rfl
      · decide
      · decide
      · exact digit_single_false createdGlyph c hdg (by decide)
      · decide
    · rcases hSCchar c h with rfl | rfl | hdg | rfl
      · decide
      · decide
      · exact digit_single_false createdGlyph c hdg (by decide)
      · decide
    · rcases hDUchar c h with rfl | rfl | hdg | rfl
      · decide
      · decide
      · exact digit_single_false createdGlyph c hdg (by decide)
      · decide
    · rcases hTGchar c h with rfl | rfl | ⟨hp, -⟩
      · decide
      · decide
      · exact plain_created_false c hp
  have hd_rec : ∀ c ∈ d, ¬c = recGlyph := by
    intro c hc
    rcases hdchar c hc with rfl | hp
    · decide
    · obtain ⟨-, -, -, -, -, -, -, -, h9, -⟩ := plainChar_spec c hp
      exact h9
  have hPR_rec : ∀ c ∈ PR, ¬c = recGlyph := by
    intro c hc
    rcases hPRchar c hc with rfl | rfl | rfl | rfl | rfl <;> decide
  have hST_rec : ∀ c ∈ ST, ¬c = recGlyph := by
    intro c hc
    rcases hSTchar c hc with rfl | rfl | hdg | rfl
    · decide
    · decide
    · exact digit_ne c recGlyph hdg (by decide)
    · decide
  have hSC_rec : ∀ c ∈ SC, ¬c = recGlyph := by
    intro c hc
    rcases hSCchar c hc with rfl | rfl | hdg | rfl
    · decide
    · decide
    · exact digit_ne c recGlyph hdg (by decide)
    · decide
  have hDU_rec : ∀ c ∈ DU, ¬c = recGlyph := by
    intro c hc
    rcases hDUchar c hc with rfl | rfl | hdg | rfl
    · decide
    · decide
    · exact digit_ne c recGlyph hdg (by decide)
    · decide
  have hTG_rec : ∀ c ∈ TG, ¬c = recGlyph := by
    intro c hc
    rcases hTGchar c hc with rfl | rfl | ⟨hp, -⟩
    · decide
    · decide
    · obtain ⟨-, -, -, -, -, -, -, -, h9, -⟩ := plainChar_spec c hp
      exact h9
  have hd_prio : ∀ c ∈ d, ¬c = hiGlyph ∧ ¬c = medGlyph ∧ ¬c = lowGlyph ∧
      ¬c = lowestGlyph := by
    intro c hc
    rcases hdchar c hc with rfl | hp
    · exact ⟨by decide, by decide, by decide, by decide⟩
    · obtain ⟨-, -, -, -, -, -, -, -, -, h10, h11, h12, h13⟩ := plainChar_spec c hp
      exact ⟨h10, h11, h12, h13⟩
  have hRC_prio : ∀ c ∈ RC, ¬c = hiGlyph ∧ ¬c = medGlyph ∧ ¬c = lowGlyph ∧
      ¬c = lowestGlyph := by
    intro c hc
    rcases hRCchar c hc with rfl | rfl | hp
    · exact ⟨by decide, by decide, by decide, by decide⟩
    · exact ⟨by decide, by decide, by decide, by decide⟩
    · obtain ⟨-, -, -, -, -, -, -, -, -, h10, h11, h12, h13⟩ := plainChar_spec c hp
      exact ⟨h10, h11, h12, h13⟩
  have hST_prio : ∀ c ∈ ST, ¬c = hiGlyph ∧ ¬c = medGlyph ∧ ¬c = lowGlyph ∧
      ¬c = lowestGlyph := by
    intro c hc
    rcases hSTchar c hc with rfl | rfl | hdg | rfl
    · exact ⟨by decide, by decide, by decide, by decide⟩
    · exact ⟨by decide, by decide, by decide, by decide⟩
    · exact ⟨digit_ne c hiGlyph hdg (by decide), digit_ne c medGlyph hdg (by decide),
        digit_ne c lowGlyph hdg (by decide), digit_ne c lowestGlyph hdg (by decide)⟩
    · exact ⟨by decide, by decide, by decide, by decide⟩
  have hSC_prio : ∀ c ∈ SC, ¬c = hiGlyph ∧ ¬c = medGlyph ∧ ¬c = lowGlyph ∧
      ¬c = lowestGlyph := by
    intro c hc
    rcases hSCchar c hc with rfl | rfl | hdg | rfl
    · exact ⟨by decide, by decide, by decide, by decide⟩
    · exact ⟨by decide, by decide, by decide, by decide⟩
    · exact ⟨digit_ne c hiGlyph hdg (by decide), digit_ne c medGlyph hdg (by decide),
        digit_ne c lowGlyph hdg (by decide), digit_ne c lowestGlyph hdg (by decide)⟩
    · exact ⟨by decide, by decide, by decide, by decide⟩
  have hDU_prio : ∀ c ∈ DU, ¬c = hiGlyph ∧ ¬c = medGlyph ∧ ¬c = lowGlyph ∧
      ¬c = lowestGlyph := by
    intro c hc
    rcases hDUchar c hc with rfl | rfl | hdg | rfl
    · exact ⟨by decide, by decide, by decide, by decide⟩
    · exact ⟨by decide, by decide, by decide, by decide⟩
    · exact ⟨digit_ne c hiGlyph hdg (by decide), digit_ne c medGlyph hdg (by decide),
        digit_ne c lowGlyph hdg (by decide), digit_ne c lowestGlyph hdg (by decide)⟩
    · exact ⟨by decide, by decide, by decide, by decide⟩
  have hTG_prio : ∀ c ∈ TG, ¬c = hiGlyph ∧ ¬c = medGlyph ∧ ¬c = lowGlyph ∧
      ¬c = lowestGlyph := by
    intro c hc
    rcases hTGchar c hc with rfl | rfl | ⟨hp, -⟩
    · exact ⟨by decide, by decide, by decide, by decide⟩
    · exact ⟨by decide, by decide, by decide, by decide⟩
    · obtain ⟨-, -, -, -, -, -, -, -, -, h10, h11, h12, h13⟩ := plainChar_spec c hp
      exact ⟨h10, h11, h12, h13⟩
  have hd_hash : ∀ c ∈ d, ¬c = '#' := by
    intro c hc
    rcases hdchar c hc with rfl | hp
    · decide
    · exact (plainChar_spec c hp).2.1
  have hPR_hash : ∀ c ∈ PR, ¬c = '#' := by
    intro c hc
    rcases hPRchar c hc with rfl | rfl | rfl | rfl | rfl <;> decide
  have hRC_hash : ∀ c ∈ RC, ¬c = '#' := by
    intro c hc
    rcases hRCchar c hc with rfl | rfl | hp
    · decide
    · decide
    · exact (plainChar_spec c hp).2.1
  have hST_hash : ∀ c ∈ ST, ¬c = '#' := by
    intro c hc
    rcases hSTchar c hc with rfl | rfl | hdg | rfl
    · decide
    · decide
    · intro hceq
      rw [hceq] at hdg
      exact absurd hdg (by decide)
    · decide
  have hSC_hash : ∀ c ∈ SC, ¬c = '#' := by
    intro c hc
    rcases hSCchar c hc with rfl | rfl | hdg | rfl
    · decide
    · decide
    · intro hceq
      rw [hceq] at hdg
      exact absurd hdg (by decide)
    · decide
  have hDU_hash : ∀ c ∈ DU, ¬c = '#' := by
    intro c hc
    rcases hDUchar c hc with rfl | rfl | hdg | rfl
    · decide
    · decide
    · intro hceq
      rw [hceq] at hdg
      exact absurd hdg (by decide)
    · decide
  obtain ⟨d0, drest, hdcons⟩ : ∃ a l, d = a :: l := by
    obtain ⟨a, l, hal⟩ := List.exists_cons_of_ne_nil hd1
    exact ⟨a, l, hal⟩
  have hd0nonws : isWS d0 = false := trim_fixed_head d d0 drest hd2 hdcons
  have hh : ∀ c, D0.head? = some c → isWS c = false := by
    intro c hc
    rw [hD0Eq, hdcons, List.cons_append, List.head?_cons] at hc
    injection hc with hc
    rw [← hc]
    exact hd0nonws
  have hdlast : ∀ c, d.getLast? = some c → isWS c = false := fun c hc =>
    trim_fixed_last d c hd2 hc
  have hPRlast : ∀ c, PR.getLast? = some c → isWS c = false := by
    cases hpo : F.priority with
    | none =>
      intro c hc
      rw [hPREq, hpo] at hc
      exact nomatch hc
    | some p =>
      have hD2 := hD
      rw [hpo, goodOptPriority] at hD2
      simp only [Bool.or_eq_true, decide_eq_true_eq] at hD2
      rcases hD2 with (((rfl | rfl) | rfl) | rfl) | rfl
      · intro c hc
        rw [hPREq, hpo,
          show (priorityField (some (str "highest"))).getLast? = some hiGlyph from by
            decide] at hc
        injection hc with hc
        rw [← hc]
        decide
      · intro c hc
        rw [hPREq, hpo,
          show (priorityField (some (str "high"))).getLast? = some hiGlyph from by
            decide] at hc
        injection hc with hc
        rw [← hc]
        decide
      · intro c hc
        rw [hPREq, hpo,
          show (priorityField (some (str "medium"))).getLast? = some medGlyph from by
            decide] at hc
        injection hc with hc
        rw [← hc]
        decide
      · intro c hc
        rw [hPREq, hpo,
          show (priorityField (some (str "low"))).getLast? = some lowGlyph from by
            decide] at hc
        injection hc with hc
        rw [← hc]
        decide
      · intro c hc
        rw [hPREq, hpo,
          show (priorityField (some (str "lowest"))).getLast? = some lowestGlyph from by
            decide] at hc
        injection hc with hc
        rw [← hc]
        decide
  have hRClast : ∀ c, RC.getLast? = some c → isWS c = false := by
    cases hro : F.recurrence with
    | none =>
      intro c hc
      rw [hRCEq, hro] at hc
      exact nomatch hc
    | some r =>
      have hE2 := hE
      rw [hro, goodOptRec] at hE2
      rw [Bool.and_eq_true] at hE2
      have hrne : r ≠ [] := ne_nil_of_isEmpty_false r (by simpa using hE2.1)
      have hrall : ∀ c ∈ r, plainChar c = true := List.all_eq_true.mp hE2.2
      intro c hc
      rw [hRCEq, hro, optField_some_eq recGlyph r hrne,
        show (' ' :: recGlyph :: ' ' :: r) = [' ', recGlyph, ' '] ++ r from rfl,
        getLast?_append_right _ _ hrne] at hc
      exact (plainChar_spec c (hrall c (mem_of_getLast? r c hc))).1
  have hSTlast : ∀ c, ST.getLast? = some c → isWS c = false := by
    cases hso : F.startDate with
    | none =>
      intro c hc
      rw [hSTEq, hso] at hc
      exact nomatch hc
    | some v =>
      have hG2 := hG
      rw [hso, goodOptDate] at hG2
      have hvne := dateOk_ne_nil v hG2
      intro c hc
      rw [hSTEq, hso, optField_some_eq startGlyph v hvne,
        show (' ' :: startGlyph :: ' ' :: v) = [' ', startGlyph, ' '] ++ v from rfl,
        getLast?_append_right _ _ hvne] at hc
      exact date_last_nonws v hG2 c hc
  have hSClast : ∀ c, SC.getLast? = some c → isWS c = false := by
    cases hso : F.scheduledDate with
    | none =>
      intro c hc
      rw [hSCEq, hso] at hc
      exact nomatch hc
    | some v =>
      have hH2 := hH
      rw [hso, goodOptDate] at hH2
      have hvne := dateOk_ne_nil v hH2
      intro c hc
      rw [hSCEq, hso, optField_some_eq schedGlyph v hvne,
        show (' ' :: schedGlyph :: ' ' :: v) = [' ', schedGlyph, ' '] ++ v from rfl,
        getLast?_append_right _ _ hvne] at hc
      exact date_last_nonws v hH2 c hc
  have hDUlast : ∀ c, DU.getLast? = some c → isWS c = false := by
    cases hso : F.dueDate with
    | none =>
      intro c hc
      rw [hDUEq, hso] at hc
      exact nomatch hc
    | some v =>
      have hI2 := hI
      rw [hso, goodOptDate] at hI2
      have hvne := dateOk_ne_nil v hI2
      intro c hc
      rw [hDUEq, hso, optField_some_eq dueGlyphA v hvne,
        show (' ' :: dueGlyphA :: ' ' :: v) = [' ', dueGlyphA, ' '] ++ v from rfl,
        getLast?_append_right _ _ hvne] at hc
      exact date_last_nonws v hI2 c hc
  have hTGlast : ∀ c, TG.getLast? = some c → isWS c = false := by
    rcases hTGfacts with hnil | ⟨ts, -, -, hTGeq, hspec⟩
    · intro c hc
      rw [hnil] at hc
      exact nomatch hc
    · intro c hc
      rw [hTGeq] at hc
      exact tagsStr_last _ hspec c hc
  have hlast : ∀ c, D0.getLast? = some c → isWS c = false := by
    have h7 := lastNonWS_cascade DU TG hTGlast (fun _ => hDUlast)
    have h6 := lastNonWS_cascade SC (DU ++ TG) h7 (fun _ => hSClast)
    have h5 := lastNonWS_cascade ST (SC ++ (DU ++ TG)) h6 (fun _ => hSTlast)
    have h4 := lastNonWS_cascade RC (ST ++ (SC ++ (DU ++ TG))) h5 (fun _ => hRClast)
    have h3 := lastNonWS_cascade PR (RC ++ (ST ++ (SC ++ (DU ++ TG)))) h4 (fun _ => hPRlast)
    have h2 := lastNonWS_cascade d (PR ++ (RC ++ (ST ++ (SC ++ (DU ++ TG))))) h3
      (fun _ => hdlast)
    intro c hc
    rw [hD0Eq] at hc
    exact h2 c hc
  have htrimD0 : trim D0 = D0 := trim_eq_self D0 hh hlast
  have hlt : ∀ c ∈ D0, isLineTerm c = false := by
    intro c hc
    rcases hmemD0 c hc with h | h | h | h | h | h | h
    · rcases hdchar c h with rfl | hp
      · decide
      · exact not_lineTerm_of_not_ws c (plainChar_spec c hp).1
    · rcases hPRchar c h with rfl | rfl | rfl | rfl | rfl <;> decide
    · rcases hRCchar c h with rfl | rfl | hp
      · decide
      · decide
      · exact not_lineTerm_of_not_ws c (plainChar_spec c hp).1
    · rcases hSTchar c h with rfl | rfl | hdg | rfl
      · decide
      · decide
      · exact not_lineTerm_of_not_ws c (digit_ws_false c hdg)
      · decide
    · rcases hSCchar c h with rfl | rfl | hdg | rfl
      · decide
      · decide
      · exact not_lineTerm_of_not_ws c (digit_ws_false c hdg)
      · decide
    · rcases hDUchar c h with rfl | rfl | hdg | rfl
      · decide
      · decide
      · exact not_lineTerm_of_not_ws c (digit_ws_false c hdg)
      · decide
    · rcases hTGchar c h with rfl | rfl | ⟨hp, -⟩
      · decide
      · decide
      · exact not_lineTerm_of_not_ws c (plainChar_spec c hp).1
  have hparse := parseTaskLine_canonical D0 fp ln hh hlt
  have hPRhead : PR = [] ∨ ∃ t, PR = ' ' :: t := by
    cases hpo : F.priority with
    | none => exact Or.inl (by rw [hPREq, hpo]; rfl)
    | some p =>
      have hD2 := hD
      rw [hpo, goodOptPriority] at hD2
      simp only [Bool.or_eq_true, decide_eq_true_eq] at hD2
      rcases hD2 with (((rfl | rfl) | rfl) | rfl) | rfl
      · exact Or.inr ⟨[hiGlyph, hiGlyph], by rw [hPREq, hpo]; decide⟩
      · exact Or.inr ⟨[hiGlyph], by rw [hPREq, hpo]; decide⟩
      · exact Or.inr ⟨[medGlyph], by rw [hPREq, hpo]; decide⟩
      · exact Or.inr ⟨[lowGlyph], by rw [hPREq, hpo]; decide⟩
      · exact Or.inr ⟨[lowestGlyph], by rw [hPREq, hpo]; decide⟩
  have hRChead : RC = [] ∨ ∃ t, RC = ' ' :: t := by
    cases hro : F.recurrence with
    | none => exact Or.inl (by rw [hRCEq, hro]; rfl)
    | some r =>
      have hE2 := hE
      rw [hro, goodOptRec] at hE2
      rw [Bool.and_eq_true] at hE2
      have hrne : r ≠ [] := ne_nil_of_isEmpty_false r (by simpa using hE2.1)
      exact Or.inr ⟨recGlyph :: ' ' :: r, by
        rw [hRCEq, hro, optField_some_eq recGlyph r hrne]⟩
  have hSThead : ST = [] ∨ ∃ t, ST = ' ' :: t := by
    cases hso : F.startDate with
    | none => exact Or.inl (by rw [hSTEq, hso]; rfl)
    | some v =>
      have hG2 := hG
      rw [hso, goodOptDate] at hG2
      exact Or.inr ⟨startGlyph :: ' ' :: v, by
        rw [hSTEq, hso, optField_some_eq startGlyph v (dateOk_ne_nil v hG2)]⟩
  have hSChead : SC = [] ∨ ∃ t, SC = ' ' :: t := by
    cases hso : F.scheduledDate with
    | none => exact Or.inl (by rw [hSCEq, hso]; rfl)
    | some v =>
      have hH2 := hH
      rw [hso, goodOptDate] at hH2
      exact Or.inr ⟨schedGlyph :: ' ' :: v, by
        rw [hSCEq, hso, optField_some_eq schedGlyph v (dateOk_ne_nil v hH2)]⟩
  have hDUhead : DU = [] ∨ ∃ t, DU = ' ' :: t := by
    cases hso : F.dueDate with
    | none => exact Or.inl (by rw [hDUEq, hso]; rfl)
    | some v =>
      have hI2 := hI
      rw [hso, goodOptDate] at hI2
      exact Or.inr ⟨dueGlyphA :: ' ' :: v, by
        rw [hDUEq, hso, optField_some_eq dueGlyphA v (dateOk_ne_nil v hI2)]⟩
  have hTGhead : TG = [] ∨ ∃ t, TG = ' ' :: t := by
    rcases hTGfacts with hnil | ⟨ts, -, htsne, hTGeq, -⟩
    · exact Or.inl hnil
    · obtain ⟨t0, ts2, rfl⟩ := List.exists_cons_of_ne_nil htsne
      exact Or.inr ⟨formatTag t0 ++ tagsStr (ts2.map formatTag), by rw [hTGeq]; rfl⟩
  have hdueV : findGlyphDate dueClassChars D0 = F.dueDate := by
    cases hdo : F.dueDate with
    | none =>
      have hDUnil : DU = [] := by rw [hDUEq, hdo]; rfl
      apply findGlyphDate_eq_none
      intro c hc
      rcases hmemD0 c hc with h | h | h | h | h | h | h
      · exact hd_due c h
      · exact hPR_due c h
      · exact hRC_due c h
      · exact hST_due c h
      · exact hSC_due c h
      · rw [hDUnil] at h
        exact absurd h (List.not_mem_nil c)
      · exact hTG_due c h
    | some du =>
      have hI2 := hI
      rw [hdo, goodOptDate] at hI2
      have hsplit : D0 = (d ++ (PR ++ (RC ++ (ST ++ (SC ++ [' ']))))) ++
          (dueGlyphA :: ([' '] ++ (du ++ TG))) := by
        rw [hD0Eq, hDUEq, hdo, optField_some_eq dueGlyphA du (dateOk_ne_nil du hI2)]
        simp [List.append_assoc]
      have hfree : ∀ ch ∈ d ++ (PR ++ (RC ++ (ST ++ (SC ++ [' '])))),
          dueClassChars.contains ch = false := by
        intro c hc
        simp only [List.mem_append, List.mem_singleton] at hc
        rcases hc with h | h | h | h | h | rfl
        · exact hd_due c h
        · exact hPR_due c h
        · exact hRC_due c h
        · exact hST_due c h
        · exact hSC_due c h
        · decide
      rw [hsplit, findGlyphDate_append_free dueClassChars _ _ hfree,
        findGlyphDate_hit dueClassChars dueGlyphA [' '] du TG (by decide) hI2
          (Or.inr ⟨' ', rfl, by decide⟩)]
  have hschedV : findGlyphDate [schedGlyph] D0 = F.scheduledDate := by
    cases hso : F.scheduledDate with
    | none =>
      have hSCnil : SC = [] := by rw [hSCEq, hso]; rfl
      apply findGlyphDate_eq_none
      intro c hc
      rcases hmemD0 c hc with h | h | h | h | h | h | h
      · exact hd_sched c h
      · exact hPR_sched c h
      · exact hRC_sched c h
      · exact hST_sched c h
      · rw [hSCnil] at h
        exact absurd h (List.not_mem_nil c)
      · exact hDU_sched c h
      · exact hTG_sched c h
    | some sc =>
      have hH2 := hH
      rw [hso, goodOptDate] at hH2
      have hsplit : D0 = (d ++ (PR ++ (RC ++ (ST ++ [' '])))) ++
          (schedGlyph :: ([' '] ++ (sc ++ (DU ++ TG)))) := by
        rw [hD0Eq, hSCEq, hso, optField_some_eq schedGlyph sc (dateOk_ne_nil sc hH2)]
        simp [List.append_assoc]
      have hfree : ∀ ch ∈ d ++ (PR ++ (RC ++ (ST ++ [' ']))),
          ([schedGlyph] : List Char).contains ch = false := by
        intro c hc
        simp only [List.mem_append, List.mem_singleton] at hc
        rcases hc with h | h | h | h | rfl
        · exact hd_sched c h
        · exact hPR_sched c h
        · exact hRC_sched c h
        · exact hST_sched c h
        · decide
      rw [hsplit, findGlyphDate_append_free [schedGlyph] _ _ hfree,
        findGlyphDate_hit [schedGlyph] schedGlyph [' '] sc (DU ++ TG) (by decide) hH2
          (Or.inr ⟨' ', rfl, by decide⟩)]
  have hstartV : findGlyphDate [startGlyph] D0 = F.startDate := by
    cases hso : F.startDate with
    | none =>
      have hSTnil : ST = [] := by rw [hSTEq, hso]; rfl
      apply findGlyphDate_eq_none
      intro c hc
      rcases hmemD0 c hc with h | h | h | h | h | h | h
      · exact hd_start c h
      · exact hPR_start c h
      · exact hRC_start c h
      · rw [hSTnil] at h
        exact absurd h (List.not_mem_nil c)
      · exact hSC_start c h
      · exact hDU_start c h
      · exact hTG_start c h
    | some st =>
      have hG2 := hG
      rw [hso, goodOptDate] at hG2
      have hsplit : D0 = (d ++ (PR ++ (RC ++ [' ']))) ++
          (startGlyph :: ([' '] ++ (st ++ (SC ++ (DU ++ TG))))) := by
        rw [hD0Eq, hSTEq, hso, optField_some_eq startGlyph st (dateOk_ne_nil st hG2)]
        simp [List.append_assoc]
      have hfree : ∀ ch ∈ d ++ (PR ++ (RC ++ [' '])),
          ([startGlyph] : List Char).contains ch = false := by
        intro c hc
        simp only [List.mem_append, List.mem_singleton] at hc
        rcases hc with h | h | h | rfl
        · exact hd_start c h
        · exact hPR_start c h
        · exact hRC_start c h
        · decide
      rw [hsplit, findGlyphDate_append_free [startGlyph] _ _ hfree,
        findGlyphDate_hit [startGlyph] startGlyph [' '] st (SC ++ (DU ++ TG)) (by decide)
          hG2 (Or.inr ⟨' ', rfl, by decide⟩)]
  have hcreatedV : findGlyphDate [createdGlyph] D0 = none :=
    findGlyphDate_eq_none [createdGlyph] D0 hD0_created
  have hrecV : findRecurrence D0 = F.recurrence := by
    cases hro : F.recurrence with
    | none =>
      have hRCnil : RC = [] := by rw [hRCEq, hro]; rfl
      apply findRecurrence_eq_none
      intro hcon
      rcases hmemD0 recGlyph hcon with h | h | h | h | h | h | h
      · exact hd_rec recGlyph h rfl
      · exact hPR_rec recGlyph h rfl
      · rw [hRCnil] at h
        exact absurd h (List.not_mem_nil recGlyph)
      · exact hST_rec recGlyph h rfl
      · exact hSC_rec recGlyph h rfl
      · exact hDU_rec recGlyph h rfl
      · exact hTG_rec recGlyph h rfl
    | some r =>
      have hE2 := hE
      rw [hro, goodOptRec] at hE2
      rw [Bool.and_eq_true] at hE2
      have hrne : r ≠ [] := ne_nil_of_isEmpty_false r (by simpa using hE2.1)
      have hrall : ∀ c ∈ r, plainChar c = true := List.all_eq_true.mp hE2.2
      have hsplit : D0 = (d ++ (PR ++ [' '])) ++
          (recGlyph :: (' ' :: (r ++ (ST ++ (SC ++ (DU ++ TG)))))) := by
        rw [hD0Eq, hRCEq, hro, optField_some_eq recGlyph r hrne]
        simp [List.append_assoc]
      have hfree : recGlyph ∉ d ++ (PR ++ [' ']) := by
        intro hcon
        simp only [List.mem_append, List.mem_singleton] at hcon
        rcases hcon with h | h | h
        · exact hd_rec recGlyph h rfl
        · exact hPR_rec recGlyph h rfl
        · exact absurd h (by decide)
      have hstop : (ST ++ (SC ++ (DU ++ TG))) = [] ∨
          ∃ w p2, (ST ++ (SC ++ (DU ++ TG))) = w :: p2 ∧ isWS w = true :=
        ws_head_to_stop _ (ws_head_append _ _ hSThead
          (ws_head_append _ _ hSChead (ws_head_append _ _ hDUhead hTGhead)))
      have hcap : (r ++ (ST ++ (SC ++ (DU ++ TG)))).takeWhile (fun x => !isWS x) = r := by
        rcases hstop with hnil | ⟨w, p2, heq, hw⟩
        · rw [hnil, List.append_nil]
          exact takeWhile_all _ _ (fun x hx => by
            rw [(plainChar_spec x (hrall x hx)).1]; rfl)
        · rw [heq]
          exact takeWhile_append_stop _ _ _ _ (fun x hx => by
            rw [(plainChar_spec x (hrall x hx)).1]; rfl) (by rw [hw]; rfl)
      rw [hsplit, findRecurrence_append_free _ _ hfree, findRecurrence_at_glyph,
        show skipOneWS (' ' :: (r ++ (ST ++ (SC ++ (DU ++ TG))))) =
          r ++ (ST ++ (SC ++ (DU ++ TG))) from by rw [skipOneWS, if_pos (by decide)],
        hcap]
  have hprioV : (findPriority D0).map priorityName = F.priority := by
    cases hpo : F.priority with
    | none =>
      have hPRnil : PR = [] := by rw [hPREq, hpo]; rfl
      have hnone : findPriority D0 = none := by
        apply findPriority_eq_none
        intro c hc
        rcases hmemD0 c hc with h | h | h | h | h | h | h
        · exact hd_prio c h
        · rw [hPRnil] at h
          exact absurd h (List.not_mem_nil c)
        · exact hRC_prio c h
        · exact hST_prio c h
        · exact hSC_prio c h
        · exact hDU_prio c h
        · exact hTG_prio c h
      rw [hnone]
      rfl
    | some p =>
      have hD2 := hD
      rw [hpo, goodOptPriority] at hD2
      simp only [Bool.or_eq_true, decide_eq_true_eq] at hD2
      have hfreePre : ∀ c ∈ d ++ [' '], ¬c = hiGlyph ∧ ¬c = medGlyph ∧ ¬c = lowGlyph ∧
          ¬c = lowestGlyph := by
        intro c hc
        simp only [List.mem_append, List.mem_singleton] at hc
        rcases hc with h | rfl
        · exact hd_prio c h
        · exact ⟨by decide, by decide, by decide, by decide⟩
      have hheadne : ∀ x, x ∈ RC ++ (ST ++ (SC ++ (DU ++ TG))) → ¬x = hiGlyph := by
        intro x hx
        simp only [List.mem_append] at hx
        rcases hx with h | h | h | h | h
        · exact (hRC_prio x h).1
        · exact (hST_prio x h).1
        · exact (hSC_prio x h).1
        · exact (hDU_prio x h).1
        · exact (hTG_prio x h).1
      rcases hD2 with (((rfl | rfl) | rfl) | rfl) | rfl
      · have hsplit : D0 = (d ++ [' ']) ++
            (hiGlyph :: hiGlyph :: (RC ++ (ST ++ (SC ++ (DU ++ TG))))) := by
          rw [hD0Eq, hPREq, hpo,
            show priorityField (some (str "highest")) = [' ', hiGlyph, hiGlyph] from by
              decide]
          simp [List.append_assoc]
        rw [hsplit, findPriority_append_free _ _ hfreePre, findPriority_hi2]
        rfl
      · have hsplit : D0 = (d ++ [' ']) ++
            (hiGlyph :: (RC ++ (ST ++ (SC ++ (DU ++ TG))))) := by
          rw [hD0Eq, hPREq, hpo,
            show priorityField (some (str "high")) = [' ', hiGlyph] from by decide]
          simp [List.append_assoc]
        have hhead : ¬(RC ++ (ST ++ (SC ++ (DU ++ TG)))).head? = some hiGlyph := by
          intro hcon
          cases hre : (RC ++ (ST ++ (SC ++ (DU ++ TG)))) with
          | nil => rw [hre] at hcon; exact nomatch hcon
          | cons x xs =>
            rw [hre, List.head?_cons] at hcon
            injection hcon with hcon
            exact hheadne x (by rw [hre]; exact List.mem_cons_self x xs) hcon
        rw [hsplit, findPriority_append_free _ _ hfreePre, findPriority_hi1 _ hhead]
        rfl
      · have hsplit : D0 = (d ++ [' ']) ++
            (medGlyph :: (RC ++ (ST ++ (SC ++ (DU ++ TG))))) := by
          rw [hD0Eq, hPREq, hpo,
            show priorityField (some (str "medium")) = [' ', medGlyph] from by decide]
          simp [List.append_assoc]
        rw [hsplit, findPriority_append_free _ _ hfreePre, findPriority_med]
        rfl
      · have hsplit : D0 = (d ++ [' ']) ++
            (lowGlyph :: (RC ++ (ST ++ (SC ++ (DU ++ TG))))) := by
          rw [hD0Eq, hPREq, hpo,
            show priorityField (some (str "low")) = [' ', lowGlyph] from by decide]
          simp [List.append_assoc]
        rw [hsplit, findPriority_append_free _ _ hfreePre, findPriority_low]
        rfl
      · have hsplit : D0 = (d ++ [' ']) ++
            (lowestGlyph :: (RC ++ (ST ++ (SC ++ (DU ++ TG))))) := by
          rw [hD0Eq, hPREq, hpo,
            show priorityField (some (str "lowest")) = [' ', lowestGlyph] from by decide]
          simp [List.append_assoc]
        rw [hsplit, findPriority_append_free _ _ hfreePre, findPriority_lowest]
        rfl
  have hBne : (d ++ (PR ++ (RC ++ (ST ++ (SC ++ DU))))) ≠ [] := by
    rw [hdcons]
    simp
  have hBhash : ∀ c ∈ d ++ (PR ++ (RC ++ (ST ++ (SC ++ DU)))), ¬c = '#' := by
    intro c hc
    simp only [List.mem_append] at hc
    rcases hc with h | h | h | h | h | h
    · exact hd_hash c h
    · exact hPR_hash c h
    · exact hRC_hash c h
    · exact hST_hash c h
    · exact hSC_hash c h
    · exact hDU_hash c h
  have htagsRebuild : tagsField (some (((rawHashTagMatches D0).map trim).filter
      (fun t => !t.isEmpty))) = TG := by
    rcases hTGfacts with hnil | ⟨ts, hts, htsne, hTGeq, hspec⟩
    · have hB : D0 = (d ++ (PR ++ (RC ++ (ST ++ (SC ++ DU))))) ++ tagsStr [] := by
        rw [hD0Eq, hnil, show tagsStr ([] : List Str) = [] from rfl]
        simp [List.append_assoc]
      rw [hB, rawHashTagMatches_canonical _ [] hBne hBhash
        (fun t ht => absurd ht (List.not_mem_nil t))]
      rw [hnil]
      rfl
    · have hB : D0 = (d ++ (PR ++ (RC ++ (ST ++ (SC ++ DU))))) ++
          tagsStr (ts.map formatTag) := by
        rw [hD0Eq, hTGeq]
        simp [List.append_assoc]
      have hmapne : ts.map formatTag ≠ [] := by
        obtain ⟨t0, ts2, rfl⟩ := List.exists_cons_of_ne_nil htsne
        simp
      have hstarts : ∀ t ∈ ts.map formatTag, startsWithStr ['#'] t = true := by
        intro t ht
        obtain ⟨tg, htg, rfl⟩ := List.mem_map.mp ht
        exact formatTag_starts tg
      rw [hB, rawHashTagMatches_canonical _ (ts.map formatTag) hBne hBhash hspec,
        filter_trim_spaced _ hspec]
      rw [hTGeq, tagsField_some _ hmapne, map_formatTag_id _ hstarts]
  have hPdue : ∀ ch ∈ d ++ (PR ++ (RC ++ (ST ++ (SC ++ [' '])))),
      dueClassChars.contains ch = false := by
    intro c hc
    simp only [List.mem_append, List.mem_singleton] at hc
    rcases hc with h | h | h | h | h | rfl
    · exact hd_due c h
    · exact hPR_due c h
    · exact hRC_due c h
    · exact hST_due c h
    · exact hSC_due c h
    · decide
  have hPsched : ∀ ch ∈ d ++ (PR ++ (RC ++ (ST ++ [' ']))),
      ([schedGlyph] : List Char).contains ch = false := by
    intro c hc
    simp only [List.mem_append, List.mem_singleton] at hc
    rcases hc with h | h | h | h | rfl
    · exact hd_sched c h
    · exact hPR_sched c h
    · exact hRC_sched c h
    · exact hST_sched c h
    · decide
  have hPstart : ∀ ch ∈ d ++ (PR ++ (RC ++ [' '])),
      ([startGlyph] : List Char).contains ch = false := by
    intro c hc
    simp only [List.mem_append, List.mem_singleton] at hc
    rcases hc with h | h | h | rfl
    · exact hd_start c h
    · exact hPR_start c h
    · exact hRC_start c h
    · decide
  have hPrec : ∀ ch ∈ d ++ (PR ++ [' ']), ¬ch = recGlyph := by
    intro c hc
    simp only [List.mem_append, List.mem_singleton] at hc
    rcases hc with h | h | rfl
    · exact hd_rec c h
    · exact hPR_rec c h
    · decide
  have hPprio : ∀ ch ∈ d ++ [' '], ¬ch = hiGlyph ∧ ¬ch = medGlyph ∧ ¬ch = lowGlyph ∧
      ¬ch = lowestGlyph := by
    intro c hc
    simp only [List.mem_append, List.mem_singleton] at hc
    rcases hc with h | rfl
    · exact hd_prio c h
    · exact ⟨by decide, by decide, by decide, by decide⟩
  have hstage1 : ∃ RDU : Str, (RDU = [] ∨ RDU = [' ']) ∧
      stripDue D0 = d ++ (PR ++ (RC ++ (ST ++ (SC ++ (RDU ++ TG))))) := by
    cases hdo : F.dueDate with
    | none =>
      refine ⟨[], Or.inl rfl, ?_⟩
      have hDUnil : DU = [] := by rw [hDUEq, hdo]; rfl
      have hid : ∀ (c : Char) (q r : Str), D0 = q ++ c :: r →
          glyphDateStripM dueClassChars (c :: r) = none := by
        intro c q r heq
        have hcD : c ∈ D0 := by
          rw [heq]
          exact List.mem_append_right q (List.mem_cons_self c r)
        apply glyphDateStripM_none_head
        rcases hmemD0 c hcD with h | h | h | h | h | h | h
        · exact hd_due c h
        · exact hPR_due c h
        · exact hRC_due c h
        · exact hST_due c h
        · exact hSC_due c h
        · rw [hDUnil] at h
          exact absurd h (List.not_mem_nil c)
        · exact hTG_due c h
      rw [stripDue, replaceScanF_id _ D0 hid _, hD0Eq, hDUnil]
    | some du =>
      refine ⟨[' '], Or.inr rfl, ?_⟩
      have hI2 := hI
      rw [hdo, goodOptDate] at hI2
      have hsplit : D0 = (d ++ (PR ++ (RC ++ (ST ++ (SC ++ [' ']))))) ++
          (dueGlyphA :: ' ' :: (du ++ TG)) := by
        rw [hD0Eq, hDUEq, hdo, optField_some_eq dueGlyphA du (dateOk_ne_nil du hI2)]
        simp [List.append_assoc]
      have hP : ∀ (c : Char) (q r : Str), d ++ (PR ++ (RC ++ (ST ++ (SC ++ [' '])))) =
          q ++ c :: r → glyphDateStripM dueClassChars
            (c :: (r ++ (dueGlyphA :: ' ' :: (du ++ TG)))) = none := by
        intro c q r heq
        apply glyphDateStripM_none_head
        apply hPdue
        rw [heq]
        exact List.mem_append_right q (List.mem_cons_self c r)
      have hT : glyphDateStripM dueClassChars (dueGlyphA :: ' ' :: (du ++ TG)) =
          some (2 + du.length) :=
        glyphDateStripM_at dueClassChars dueGlyphA du TG (by decide) hI2
      have hdropT : (dueGlyphA :: ' ' :: (du ++ TG)).drop (2 + du.length) = TG := by
        rw [show 2 + du.length = du.length + 1 + 1 from by omega,
          List.drop_succ_cons, List.drop_succ_cons]
        exact List.drop_left du TG
      have hR : ∀ (c : Char) (q r : Str), TG = q ++ c :: r →
          glyphDateStripM dueClassChars (c :: r) = none := by
        intro c q r heq
        apply glyphDateStripM_none_head
        apply hTG_due
        rw [heq]
        exact List.mem_append_right q (List.mem_cons_self c r)
      rw [stripDue, hsplit,
        replaceScanF_strip_one _ (glyphDateStripM_pos dueClassChars) _ _ TG
          (2 + du.length) hP hT hdropT hR _ (by simp only [List.length_append]; omega)]
      simp [List.append_assoc]
  obtain ⟨RDU, hRDUsp, hs1⟩ := hstage1
  have hRDUmem : ∀ c ∈ RDU, c = ' ' := by
    intro c hc
    rcases hRDUsp with rfl | rfl
    · exact absurd hc (List.not_mem_nil c)
    · simpa using hc
  have hstage2 : ∃ RSC : Str, (RSC = [] ∨ RSC = [' ']) ∧
      stripScheduled (d ++ (PR ++ (RC ++ (ST ++ (SC ++ (RDU ++ TG)))))) =
        d ++ (PR ++ (RC ++ (ST ++ (RSC ++ (RDU ++ TG))))) := by
    cases hso : F.scheduledDate with
    | none =>
      refine ⟨[], Or.inl rfl, ?_⟩
      have hSCnil : SC = [] := by rw [hSCEq, hso]; rfl
      have hid : ∀ (c : Char) (q r : Str),
          d ++ (PR ++ (RC ++ (ST ++ (SC ++ (RDU ++ TG))))) = q ++ c :: r →
          glyphDateStripM [schedGlyph] (c :: r) = none := by
        intro c q r heq
        have hcD : c ∈ d ++ (PR ++ (RC ++ (ST ++ (SC ++ (RDU ++ TG))))) := by
          rw [heq]
          exact List.mem_append_right q (List.mem_cons_self c r)
        simp only [List.mem_append] at hcD
        apply glyphDateStripM_none_head
        rcases hcD with h | h | h | h | h | h | h
        · exact hd_sched c h
        · exact hPR_sched c h
        · exact hRC_sched c h
        · exact hST_sched c h
        · rw [hSCnil] at h
          exact absurd h (List.not_mem_nil c)
        · rw [hRDUmem c h]
          decide
        · exact hTG_sched c h
      rw [stripScheduled, replaceScanF_id _ _ hid _, hSCnil]
    | some sc =>
      refine ⟨[' '], Or.inr rfl, ?_⟩
      have hH2 := hH
      rw [hso, goodOptDate] at hH2
      have hsplit : d ++ (PR ++ (RC ++ (ST ++ (SC ++ (RDU ++ TG))))) =
          (d ++ (PR ++ (RC ++ (ST ++ [' '])))) ++
          (schedGlyph :: ' ' :: (sc ++ (RDU ++ TG))) := by
        rw [hSCEq, hso, optField_some_eq schedGlyph sc (dateOk_ne_nil sc hH2)]
        simp [List.append_assoc]
      have hP : ∀ (c : Char) (q r : Str), d ++ (PR ++ (RC ++ (ST ++ [' ']))) =
          q ++ c :: r → glyphDateStripM [schedGlyph]
            (c :: (r ++ (schedGlyph :: ' ' :: (sc ++ (RDU ++ TG))))) = none := by
        intro c q r heq
        apply glyphDateStripM_none_head
        apply hPsched
        rw [heq]
        exact List.mem_append_right q (List.mem_cons_self c r)
      have hT : glyphDateStripM [schedGlyph] (schedGlyph :: ' ' :: (sc ++ (RDU ++ TG))) =
          some (2 + sc.length) :=
        glyphDateStripM_at [schedGlyph] schedGlyph sc (RDU ++ TG) (by decide) hH2
      have hdropT : (schedGlyph :: ' ' :: (sc ++ (RDU ++ TG))).drop (2 + sc.length) =
          RDU ++ TG := by
        rw [show 2 + sc.length = sc.length + 1 + 1 from by omega,
          List.drop_succ_cons, List.drop_succ_cons]
        exact List.drop_left sc (RDU ++ TG)
      have hR : ∀ (c : Char) (q r : Str), RDU ++ TG = q ++ c :: r →
          glyphDateStripM [schedGlyph] (c :: r) = none := by
        intro c q r heq
        have hcD : c ∈ RDU ++ TG := by
          rw [heq]
          exact List.mem_append_right q (List.mem_cons_self c r)
        simp only [List.mem_append] at hcD
        apply glyphDateStripM_none_head
        rcases hcD with h | h
        · rw [hRDUmem c h]
          decide
        · exact hTG_sched c h
      rw [stripScheduled, hsplit,
        replaceScanF_strip_one _ (glyphDateStripM_pos [schedGlyph]) _ _ (RDU ++ TG)
          (2 + sc.length) hP hT hdropT hR _ (by simp only [List.length_append]; omega)]
      simp [List.append_assoc]
  obtain ⟨RSC, hRSCsp, hs2⟩ := hstage2
  have hRSCmem : ∀ c ∈ RSC, c = ' ' := by
    intro c hc
    rcases hRSCsp with rfl | rfl
    · exact absurd hc (List.not_mem_nil c)
    · simpa using hc
  have hstage3 : ∃ RST : Str, (RST = [] ∨ RST = [' ']) ∧
      stripStart (d ++ (PR ++ (RC ++ (ST ++ (RSC ++ (RDU ++ TG)))))) =
        d ++ (PR ++ (RC ++ (RST ++ (RSC ++ (RDU ++ TG))))) := by
    cases hso : F.startDate with
    | none =>
      refine ⟨[], Or.inl rfl, ?_⟩
      have hSTnil : ST = [] := by rw [hSTEq, hso]; rfl
      have hid : ∀ (c : Char) (q r : Str),
          d ++ (PR ++ (RC ++ (ST ++ (RSC ++ (RDU ++ TG))))) = q ++ c :: r →
          glyphDateStripM [startGlyph] (c :: r) = none := by
        intro c q r heq
        have hcD : c ∈ d ++ (PR ++ (RC ++ (ST ++ (RSC ++ (RDU ++ TG))))) := by
          rw [heq]
          exact List.mem_append_right q (List.mem_cons_self c r)
        simp only [List.mem_append] at hcD
        apply glyphDateStripM_none_head
        rcases hcD with h | h | h | h | h | h | h
        · exact hd_start c h
        · exact hPR_start c h
        · exact hRC_start c h
        · rw [hSTnil] at h
          exact absurd h (List.not_mem_nil c)
        · rw [hRSCmem c h]
          decide
        · rw [hRDUmem c h]
          decide
        · exact hTG_start c h
      rw [stripStart, replaceScanF_id _ _ hid _, hSTnil]
    | some st =>
      refine ⟨[' '], Or.inr rfl, ?_⟩
      have hG2 := hG
      rw [hso, goodOptDate] at hG2
      have hsplit : d ++ (PR ++ (RC ++ (ST ++ (RSC ++ (RDU ++ TG))))) =
          (d ++ (PR ++ (RC ++ [' ']))) ++
          (startGlyph :: ' ' :: (st ++ (RSC ++ (RDU ++ TG)))) := by
        rw [hSTEq, hso, optField_some_eq startGlyph st (dateOk_ne_nil st hG2)]
        simp [List.append_assoc]
      have hP : ∀ (c : Char) (q r : Str), d ++ (PR ++ (RC ++ [' '])) =
          q ++ c :: r → glyphDateStripM [startGlyph]
            (c :: (r ++ (startGlyph :: ' ' :: (st ++ (RSC ++ (RDU ++ TG)))))) = none := by
        intro c q r heq
        apply glyphDateStripM_none_head
        apply hPstart
        rw [heq]
        exact List.mem_append_right q (List.mem_cons_self c r)
      have hT : glyphDateStripM [startGlyph]
          (startGlyph :: ' ' :: (st ++ (RSC ++ (RDU ++ TG)))) = some (2 + st.length) :=
        glyphDateStripM_at [startGlyph] startGlyph st (RSC ++ (RDU ++ TG)) (by decide) hG2
      have hdropT : (startGlyph :: ' ' :: (st ++ (RSC ++ (RDU ++ TG)))).drop
          (2 + st.length) = RSC ++ (RDU ++ TG) := by
        rw [show 2 + st.length = st.length + 1 + 1 from by omega,
          List.drop_succ_cons, List.drop_succ_cons]
        exact List.drop_left st (RSC ++ (RDU ++ TG))
      have hR : ∀ (c : Char) (q r : Str), RSC ++ (RDU ++ TG) = q ++ c :: r →
          glyphDateStripM [startGlyph] (c :: r) = none := by
        intro c q r heq
        have hcD : c ∈ RSC ++ (RDU ++ TG) := by
          rw [heq]
          exact List.mem_append_right q (List.mem_cons_self c r)
        simp only [List.mem_append] at hcD
        apply glyphDateStripM_none_head
        rcases hcD with h | h | h
        · rw [hRSCmem c h]
          decide
        · rw [hRDUmem c h]
          decide
        · exact hTG_start c h
      rw [stripStart, hsplit,
        replaceScanF_strip_one _ (glyphDateStripM_pos [startGlyph]) _ _
          (RSC ++ (RDU ++ TG)) (2 + st.length) hP hT hdropT hR _
          (by simp only [List.length_append]; omega)]
      simp [List.append_assoc]
  obtain ⟨RST, hRSTsp, hs3⟩ := hstage3
  have hRSTmem : ∀ c ∈ RST, c = ' ' := by
    intro c hc
    rcases hRSTsp with rfl | rfl
    · exact absurd hc (List.not_mem_nil c)
    · simpa using hc
  have hs4 : stripCreated (d ++ (PR ++ (RC ++ (RST ++ (RSC ++ (RDU ++ TG)))))) =
      d ++ (PR ++ (RC ++ (RST ++ (RSC ++ (RDU ++ TG))))) := by
    have hid : ∀ (c : Char) (q r : Str),
        d ++ (PR ++ (RC ++ (RST ++ (RSC ++ (RDU ++ TG))))) = q ++ c :: r →
        glyphDateStripM [createdGlyph] (c :: r) = none := by
      intro c q r heq
      have hcD : c ∈ d ++ (PR ++ (RC ++ (RST ++ (RSC ++ (RDU ++ TG))))) := by
        rw [heq]
        exact List.mem_append_right q (List.mem_cons_self c r)
      simp only [List.mem_append] at hcD
      apply glyphDateStripM_none_head
      rcases hcD with h | h | h | h | h | h | h
      · rcases hdchar c h with rfl | hp
        · decide
        · exact plain_created_false c hp
      · rcases hPRchar c h with rfl | rfl | rfl | rfl | rfl <;> decide
      · rcases hRCchar c h with rfl | rfl | hp
        · decide
        · decide
        · exact plain_created_false c hp
      · rw [hRSTmem c h]
        decide
      · rw [hRSCmem c h]
        decide
      · rw [hRDUmem c h]
        decide
      · rcases hTGchar c h with rfl | rfl | ⟨hp, -⟩
        · decide
        · decide
        · exact plain_created_false c hp
    rw [stripCreated, replaceScanF_id _ _ hid _]
  have hRSThead : RST = [] ∨ ∃ t, RST = ' ' :: t := by
    rcases hRSTsp with rfl | rfl
    · exact Or.inl rfl
    · exact Or.inr ⟨[], rfl⟩
  have hRSChead : RSC = [] ∨ ∃ t, RSC = ' ' :: t := by
    rcases hRSCsp with rfl | rfl
    · exact Or.inl rfl
    · exact Or.inr ⟨[], rfl⟩
  have hRDUhead : RDU = [] ∨ ∃ t, RDU = ' ' :: t := by
    rcases hRDUsp with rfl | rfl
    · exact Or.inl rfl
    · exact Or.inr ⟨[], rfl⟩
  have hstage5 : ∃ RRC : Str, (RRC = [] ∨ RRC = [' ']) ∧
      stripRec (d ++ (PR ++ (RC ++ (RST ++ (RSC ++ (RDU ++ TG)))))) =
        d ++ (PR ++ (RRC ++ (RST ++ (RSC ++ (RDU ++ TG))))) := by
    cases hro : F.recurrence with
    | none =>
      refine ⟨[], Or.inl rfl, ?_⟩
      have hRCnil : RC = [] := by rw [hRCEq, hro]; rfl
      have hid : ∀ (c : Char) (q r : Str),
          d ++ (PR ++ (RC ++ (RST ++ (RSC ++ (RDU ++ TG))))) = q ++ c :: r →
          recStripM (c :: r) = none := by
        intro c q r heq
        have hcD : c ∈ d ++ (PR ++ (RC ++ (RST ++ (RSC ++ (RDU ++ TG))))) := by
          rw [heq]
          exact List.mem_append_right q (List.mem_cons_self c r)
        simp only [List.mem_append] at hcD
        apply recStripM_none_head
        rcases hcD with h | h | h | h | h | h | h
        · exact hd_rec c h
        · exact hPR_rec c h
        · rw [hRCnil] at h
          exact absurd h (List.not_mem_nil c)
        · rw [hRSTmem c h]
          decide
        · rw [hRSCmem c h]
          decide
        · rw [hRDUmem c h]
          decide
        · exact hTG_rec c h
      rw [stripRec, replaceScanF_id _ _ hid _, hRCnil]
    | some r =>
      refine ⟨[' '], Or.inr rfl, ?_⟩
      have hE2 := hE
      rw [hro, goodOptRec] at hE2
      rw [Bool.and_eq_true] at hE2
      have hrne : r ≠ [] := ne_nil_of_isEmpty_false r (by simpa using hE2.1)
      have hrall : ∀ c ∈ r, plainChar c = true := List.all_eq_true.mp hE2.2
      have hsplit : d ++ (PR ++ (RC ++ (RST ++ (RSC ++ (RDU ++ TG))))) =
          (d ++ (PR ++ [' '])) ++
          (recGlyph :: ' ' :: (r ++ (RST ++ (RSC ++ (RDU ++ TG))))) := by
        rw [hRCEq, hro, optField_some_eq recGlyph r hrne]
        simp [List.append_assoc]
      have hP : ∀ (c : Char) (q r2 : Str), d ++ (PR ++ [' ']) = q ++ c :: r2 →
          recStripM (c :: (r2 ++ (recGlyph :: ' ' :: (r ++ (RST ++ (RSC ++
            (RDU ++ TG))))))) = none := by
        intro c q r2 heq
        apply recStripM_none_head
        apply hPrec
        rw [heq]
        exact List.mem_append_right q (List.mem_cons_self c r2)
      have hstop : (RST ++ (RSC ++ (RDU ++ TG))) = [] ∨
          ∃ w p2, (RST ++ (RSC ++ (RDU ++ TG))) = w :: p2 ∧ isWS w = true :=
        ws_head_to_stop _ (ws_head_append _ _ hRSThead
          (ws_head_append _ _ hRSChead (ws_head_append _ _ hRDUhead hTGhead)))
      have hT : recStripM (recGlyph :: ' ' :: (r ++ (RST ++ (RSC ++ (RDU ++ TG))))) =
          some (2 + r.length) :=
        recStripM_at r (RST ++ (RSC ++ (RDU ++ TG)))
          (fun x hx => (plainChar_spec x (hrall x hx)).1) hstop
      have hdropT : (recGlyph :: ' ' :: (r ++ (RST ++ (RSC ++ (RDU ++ TG))))).drop
          (2 + r.length) = RST ++ (RSC ++ (RDU ++ TG)) := by
        rw [show 2 + r.length = r.length + 1 + 1 from by omega,
          List.drop_succ_cons, List.drop_succ_cons]
        exact List.drop_left r (RST ++ (RSC ++ (RDU ++ TG)))
      have hR : ∀ (c : Char) (q r2 : Str), RST ++ (RSC ++ (RDU ++ TG)) = q ++ c :: r2 →
          recStripM (c :: r2) = none := by
        intro c q r2 heq
        have hcD : c ∈ RST ++ (RSC ++ (RDU ++ TG)) := by
          rw [heq]
          exact List.mem_append_right q (List.mem_cons_self c r2)
        simp only [List.mem_append] at hcD
        apply recStripM_none_head
        rcases hcD with h | h | h | h
        · rw [hRSTmem c h]
          decide
        · rw [hRSCmem c h]
          decide
        · rw [hRDUmem c h]
          decide
        · exact hTG_rec c h
      rw [stripRec, hsplit,
        replaceScanF_strip_one _ recStripM_pos _ _ (RST ++ (RSC ++ (RDU ++ TG)))
          (2 + r.length) hP hT hdropT hR _ (by simp only [List.length_append]; omega)]
      simp [List.append_assoc]
  obtain ⟨RRC, hRRCsp, hs5⟩ := hstage5
  have hRRCmem : ∀ c ∈ RRC, c = ' ' := by
    intro c hc
    rcases hRRCsp with rfl | rfl
    · exact absurd hc (List.not_mem_nil c)
    · simpa using hc
  have hREST5 : ∀ c ∈ RRC ++ (RST ++ (RSC ++ (RDU ++ TG))),
      ¬c = hiGlyph ∧ ¬c = medGlyph ∧ ¬c = lowGlyph ∧ ¬c = lowestGlyph := by
    intro c hc
    simp only [List.mem_append] at hc
    rcases hc with h | h | h | h | h
    · rw [hRRCmem c h]
      exact ⟨by decide, by decide, by decide, by decide⟩
    · rw [hRSTmem c h]
      exact ⟨by decide, by decide, by decide, by decide⟩
    · rw [hRSCmem c h]
      exact ⟨by decide, by decide, by decide, by decide⟩
    · rw [hRDUmem c h]
      exact ⟨by decide, by decide, by decide, by decide⟩
    · exact hTG_prio c h
  have hstage6 : ∃ RPR : Str, (RPR = [] ∨ RPR = [' ']) ∧
      stripPriority (d ++ (PR ++ (RRC ++ (RST ++ (RSC ++ (RDU ++ TG)))))) =
        d ++ (RPR ++ (RRC ++ (RST ++ (RSC ++ (RDU ++ TG))))) := by
    have hRpos : ∀ (c : Char) (q r : Str),
        RRC ++ (RST ++ (RSC ++ (RDU ++ TG))) = q ++ c :: r →
        prioStripM (c :: r) = none := by
      intro c q r heq
      have hcD : c ∈ RRC ++ (RST ++ (RSC ++ (RDU ++ TG))) := by
        rw [heq]
        exact List.mem_append_right q (List.mem_cons_self c r)
      obtain ⟨x1, x2, x3, x4⟩ := hREST5 c hcD
      exact prioStripM_none_head c r x1 x2 x3 x4
    cases hpo : F.priority with
    | none =>
      refine ⟨[], Or.inl rfl, ?_⟩
      have hPRnil : PR = [] := by rw [hPREq, hpo]; rfl
      have hid : ∀ (c : Char) (q r : Str),
          d ++ (PR ++ (RRC ++ (RST ++ (RSC ++ (RDU ++ TG))))) = q ++ c :: r →
          prioStripM (c :: r) = none := by
        intro c q r heq
        have hcD : c ∈ d ++ (PR ++ (RRC ++ (RST ++ (RSC ++ (RDU ++ TG))))) := by
          rw [heq]
          exact List.mem_append_right q (List.mem_cons_self c r)
        simp only [List.mem_append] at hcD
        have hc4 : ¬c = hiGlyph ∧ ¬c = medGlyph ∧ ¬c = lowGlyph ∧ ¬c = lowestGlyph := by
          rcases hcD with h | h | h | h | h | h | h
          · exact hd_prio c h
          · rw [hPRnil] at h
            exact absurd h (List.not_mem_nil c)
          · rw [hRRCmem c h]
            exact ⟨by decide, by decide, by decide, by decide⟩
          · rw [hRSTmem c h]
            exact ⟨by decide, by decide, by decide, by decide⟩
          · rw [hRSCmem c h]
            exact ⟨by decide, by decide, by decide, by decide⟩
          · rw [hRDUmem c h]
            exact ⟨by decide, by decide, by decide, by decide⟩
          · exact hTG_prio c h
        exact prioStripM_none_head c r hc4.1 hc4.2.1 hc4.2.2.1 hc4.2.2.2
      rw [stripPriority, replaceScanF_id _ _ hid _, hPRnil]
    | some p =>
      refine ⟨[' '], Or.inr rfl, ?_⟩
      have hD2 := hD
      rw [hpo, goodOptPriority] at hD2
      simp only [Bool.or_eq_true, decide_eq_true_eq] at hD2
      have hPmid : ∀ (c : Char) (q r : Str) (T : Str), d ++ [' '] = q ++ c :: r →
          prioStripM (c :: (r ++ T)) = none := by
        intro c q r T heq
        have hc4 := hPprio c (by
          rw [heq]
          exact List.mem_append_right q (List.mem_cons_self c r))
        exact prioStripM_none_head c (r ++ T) hc4.1 hc4.2.1 hc4.2.2.1 hc4.2.2.2
      rcases hD2 with (((rfl | rfl) | rfl) | rfl) | rfl
      · have hsplit : d ++ (PR ++ (RRC ++ (RST ++ (RSC ++ (RDU ++ TG))))) =
            (d ++ [' ']) ++ (hiGlyph :: hiGlyph ::
              (RRC ++ (RST ++ (RSC ++ (RDU ++ TG))))) := by
          rw [hPREq, hpo,
            show priorityField (some (str "highest")) = [' ', hiGlyph, hiGlyph] from by
              decide]
          simp [List.append_assoc]
        have hdropT : (hiGlyph :: hiGlyph ::
            (RRC ++ (RST ++ (RSC ++ (RDU ++ TG))))).drop 2 =
            RRC ++ (RST ++ (RSC ++ (RDU ++ TG))) := by
          rw [show (2 : Nat) = 0 + 1 + 1 from rfl, List.drop_succ_cons,
            List.drop_succ_cons, List.drop_zero]
        rw [stripPriority, hsplit,
          replaceScanF_strip_one _ prioStripM_pos _ _
            (RRC ++ (RST ++ (RSC ++ (RDU ++ TG)))) 2 (fun c q r heq => hPmid c q r _ heq)
            (prioStripM_hi2 _) hdropT hRpos _ (by simp only [List.length_append]; omega)]
        simp [List.append_assoc]
      · have hsplit : d ++ (PR ++ (RRC ++ (RST ++ (RSC ++ (RDU ++ TG))))) =
            (d ++ [' ']) ++ (hiGlyph :: (RRC ++ (RST ++ (RSC ++ (RDU ++ TG))))) := by
          rw [hPREq, hpo,
            show priorityField (some (str "high")) = [' ', hiGlyph] from by decide]
          simp [List.append_assoc]
        have hT : prioStripM (hiGlyph :: (RRC ++ (RST ++ (RSC ++ (RDU ++ TG))))) =
            some 1 := by
          cases hre : (RRC ++ (RST ++ (RSC ++ (RDU ++ TG)))) with
          | nil => exact prioStripM_hi_end
          | cons x xs =>
            apply prioStripM_hi1
            exact (hREST5 x (by rw [hre]; exact List.mem_cons_self x xs)).1
        have hdropT : (hiGlyph :: (RRC ++ (RST ++ (RSC ++ (RDU ++ TG))))).drop 1 =
            RRC ++ (RST ++ (RSC ++ (RDU ++ TG))) := by
          rw [show (1 : Nat) = 0 + 1 from rfl, List.drop_succ_cons, List.drop_zero]
        rw [stripPriority, hsplit,
          replaceScanF_strip_one _ prioStripM_pos _ _
            (RRC ++ (RST ++ (RSC ++ (RDU ++ TG)))) 1 (fun c q r heq => hPmid c q r _ heq)
            hT hdropT hRpos _ (by simp only [List.length_append]; omega)]
        simp [List.append_assoc]
      · have hsplit : d ++ (PR ++ (RRC ++ (RST ++ (RSC ++ (RDU ++ TG))))) =
            (d ++ [' ']) ++ (medGlyph :: (RRC ++ (RST ++ (RSC ++ (RDU ++ TG))))) := by
          rw [hPREq, hpo,
            show priorityField (some (str "medium")) = [' ', medGlyph] from by decide]
          simp [List.append_assoc]
        have hdropT : (medGlyph :: (RRC ++ (RST ++ (RSC ++ (RDU ++ TG))))).drop 1 =
            RRC ++ (RST ++ (RSC ++ (RDU ++ TG))) := by
          rw [show (1 : Nat) = 0 + 1 from rfl, List.drop_succ_cons, List.drop_zero]
        rw [stripPriority, hsplit,
          replaceScanF_strip_one _ prioStripM_pos _ _
            (RRC ++ (RST ++ (RSC ++ (RDU ++ TG)))) 1 (fun c q r heq => hPmid c q r _ heq)
            (prioStripM_med _) hdropT hRpos _ (by simp only [List.length_append]; omega)]
        simp [List.append_assoc]
      · have hsplit : d ++ (PR ++ (RRC ++ (RST ++ (RSC ++ (RDU ++ TG))))) =
            (d ++ [' ']) ++ (lowGlyph :: (RRC ++ (RST ++ (RSC ++ (RDU ++ TG))))) := by
          rw [hPREq, hpo,
            show priorityField (some (str "low")) = [' ', lowGlyph] from by decide]
          simp [List.append_assoc]
        have hdropT : (lowGlyph :: (RRC ++ (RST ++ (RSC ++ (RDU ++ TG))))).drop 1 =
            RRC ++ (RST ++ (RSC ++ (RDU ++ TG))) := by
          rw [show (1 : Nat) = 0 + 1 from rfl, List.drop_succ_cons, List.drop_zero]
        rw [stripPriority, hsplit,
          replaceScanF_strip_one _ prioStripM_pos _ _
            (RRC ++ (RST ++ (RSC ++ (RDU ++ TG)))) 1 (fun c q r heq => hPmid c q r _ heq)
            (prioStripM_low _) hdropT hRpos _ (by simp only [List.length_append]; omega)]
        simp [List.append_assoc]
      · have hsplit : d ++ (PR ++ (RRC ++ (RST ++ (RSC ++ (RDU ++ TG))))) =
            (d ++ [' ']) ++ (lowestGlyph :: (RRC ++ (RST ++ (RSC ++ (RDU ++ TG))))) := by
          rw [hPREq, hpo,
            show priorityField (some (str "lowest")) = [' ', lowestGlyph] from by decide]
          simp [List.append_assoc]
        have hdropT : (lowestGlyph :: (RRC ++ (RST ++ (RSC ++ (RDU ++ TG))))).drop 1 =
            RRC ++ (RST ++ (RSC ++ (RDU ++ TG))) := by
          rw [show (1 : Nat) = 0 + 1 from rfl, List.drop_succ_cons, List.drop_zero]
        rw [stripPriority, hsplit,
          replaceScanF_strip_one _ prioStripM_pos _ _
            (RRC ++ (RST ++ (RSC ++ (RDU ++ TG)))) 1 (fun c q r heq => hPmid c q r _ heq)
            (prioStripM_lowest _) hdropT hRpos _
            (by simp only [List.length_append]; omega)]
        simp [List.append_assoc]
  obtain ⟨RPR, hRPRsp, hs6⟩ := hstage6
  have hRPRmem : ∀ c ∈ RPR, c = ' ' := by
    intro c hc
    rcases hRPRsp with rfl | rfl
    · exact absurd hc (List.not_mem_nil c)
    · simpa using hc
  have hne0 : ¬d0 = '#' := hd_hash d0 (by rw [hdcons]; exact List.mem_cons_self d0 drest)
  have hs7 : stripTags (d ++ (RPR ++ (RRC ++ (RST ++ (RSC ++ (RDU ++ TG)))))) =
      d ++ (RPR ++ (RRC ++ (RST ++ (RSC ++ (RDU ++ []))))) := by
    have hPm : ∀ c2, c2 ∈ d ++ (RPR ++ (RRC ++ (RST ++ (RSC ++ RDU)))) → ¬c2 = '#' := by
      intro c2 h
      simp only [List.mem_append] at h
      rcases h with h | h | h | h | h | h
      · exact hd_hash c2 h
      · rw [hRPRmem c2 h]
        decide
      · rw [hRRCmem c2 h]
        decide
      · rw [hRSTmem c2 h]
        decide
      · rw [hRSCmem c2 h]
        decide
      · rw [hRDUmem c2 h]
        decide
    rcases hTGfacts with hnil | ⟨ts, hts, htsne, hTGeq, hspec⟩
    · have hid : ∀ (c : Char) (q r : Str),
          d ++ (RPR ++ (RRC ++ (RST ++ (RSC ++ (RDU ++ TG))))) = q ++ c :: r →
          tagStripMidM (c :: r) = none := by
        intro c q r heq
        cases r with
        | nil => exact tagStripMidM_single c
        | cons c2 r2 =>
          apply tagStripMidM_none_second
          have hc2 : c2 ∈ d ++ (RPR ++ (RRC ++ (RST ++ (RSC ++ (RDU ++ TG))))) := by
            rw [heq]
            exact List.mem_append_right q (List.mem_cons_of_mem c
              (List.mem_cons_self c2 r2))
          simp only [List.mem_append] at hc2
          rcases hc2 with h | h | h | h | h | h | h
          · exact hd_hash c2 h
          · rw [hRPRmem c2 h]
            decide
          · rw [hRRCmem c2 h]
            decide
          · rw [hRSTmem c2 h]
            decide
          · rw [hRSCmem c2 h]
            decide
          · rw [hRDUmem c2 h]
            decide
          · rw [hnil] at h
            exact absurd h (List.not_mem_nil c2)
      rw [hdcons, List.cons_append, stripTags_not_hash d0 _ hne0, ← List.cons_append,
        ← hdcons, replaceScanF_id _ _ hid _, hnil]
    · have hmapne : ts.map formatTag ≠ [] := by
        obtain ⟨t0, ts2, rfl⟩ := List.exists_cons_of_ne_nil htsne
        simp
      obtain ⟨f0, frest, hFTcons⟩ := List.exists_cons_of_ne_nil hmapne
      have hsplit : d ++ (RPR ++ (RRC ++ (RST ++ (RSC ++ (RDU ++ TG))))) =
          (d ++ (RPR ++ (RRC ++ (RST ++ (RSC ++ RDU))))) ++
            tagsStr (ts.map formatTag) := by
        rw [hTGeq]
        simp [List.append_assoc]
      have hP : ∀ (c : Char) (q r : Str),
          d ++ (RPR ++ (RRC ++ (RST ++ (RSC ++ RDU)))) = q ++ c :: r →
          tagStripMidM (c :: (r ++ tagsStr (ts.map formatTag))) = none := by
        intro c q r heq
        cases r with
        | cons c2 r2 =>
          apply tagStripMidM_none_second
          apply hPm
          rw [heq]
          exact List.mem_append_right q (List.mem_cons_of_mem c
            (List.mem_cons_self c2 r2))
        | nil =>
          rw [List.nil_append, hFTcons,
            show tagsStr (f0 :: frest) = ' ' :: (f0 ++ tagsStr frest) from rfl]
          exact tagStripMidM_none_second c ' ' _ (by decide)
      rw [hdcons, List.cons_append, stripTags_not_hash d0 _ hne0, ← List.cons_append,
        ← hdcons, hsplit,
        replaceScanF_pass _ tagStripMidM_pos _ (tagsStr (ts.map formatTag)) hP _
          (by simp only [List.length_append]; omega),
        tagStrip_tagsStr _ hspec _ (by omega)]
      simp [List.append_assoc]
  have hnewdesc : trim (stripTags (stripPriority (stripRec (stripCreated (stripStart
      (stripScheduled (stripDue D0))))))) = d := by
    rw [hs1, hs2, hs3, hs4, hs5, hs6, hs7]
    apply trim_append_ws d _ hd2 hd1
    intro c hc
    simp only [List.mem_append, List.not_mem_nil, or_false] at hc
    rcases hc with h | h | h | h | h
    · rw [hRPRmem c h]
      decide
    · rw [hRRCmem c h]
      decide
    · rw [hRSTmem c h]
      decide
    · rw [hRSCmem c h]
      decide
    · rw [hRDUmem c h]
      decide
  have him : indentMarkerMatch (str "- [ ] " ++ D0) = ([], ['-']) := by
    rw [show str "- [ ] " ++ D0 = '-' :: (' ' :: '[' :: ' ' :: ']' :: ' ' :: D0) from rfl]
    exact indentMarkerMatch_dash _
  rw [buildUpdatedTaskLine.eq_def, hparse]
  dsimp only
  simp only [show noOverrideArgs.description = (none : Option Str) from rfl,
    show noOverrideArgs.status = (none : Option Str) from rfl,
    show noOverrideArgs.dueDate = (none : Option Str) from rfl,
    show noOverrideArgs.scheduledDate = (none : Option Str) from rfl,
    show noOverrideArgs.startDate = (none : Option Str) from rfl,
    show noOverrideArgs.priority = (none : Option Str) from rfl,
    show noOverrideArgs.tags = (none : Option (List Str)) from rfl,
    show noOverrideArgs.recurrence = (none : Option Str) from rfl]
  simp only [mkTask_description, mkTask_statusSymbol, mkTask_dueDate, mkTask_scheduledDate,
    mkTask_startDate, mkTask_priority, mkTask_recurrence, mkTask_tags, mergeOptField_none]
  rw [htrimD0]
  rw [hnewdesc, hdueV, hschedV, hstartV, hprioV, hrecV, htagsRebuild, him]
  dsimp only
  rw [← hPREq, ← hRCEq, ← hSTEq, ← hSCEq, ← hDUEq, hD0Eq]
  rw [show str "- [ ] " = ['-', ' ', '[', ' ', ']', ' '] from rfl]
  simp [List.append_assoc]

/-- Witness for claim C9's amended theorem at a fully-featured field set. -/
theorem build_update_idempotent_witness :
    goodArgs fullArgs9 = true ∧
    buildUpdatedTaskLine (buildTaskMarkdown fullArgs9) (str "f.md") 1 noOverrideArgs =
      some (buildTaskMarkdown fullArgs9) :=
  ⟨by decide, build_update_idempotent (str "f.md") 1 fullArgs9 (by decide)⟩

end TasksMcp
